import Mathlib

/-!
# Tabled entropy coder: a shallow embedding of `ec.h`, `ec_encoder.c`, `ec_decoder.c`

Conventions of the embedding.

* C `int` values are mathematical integers (`Int`); for `tableLog ≤ 12` and frequencies that
  sum to the table size no `int` computation of the program leaves the 32-bit range.
* C `char` is the signed 8-bit type of the x86 targets the sources are written for
  (`immintrin.h`, `_BitScanReverse`); every conversion to `char` wraps modulo `2^8`
  (`toChar`), every conversion to `short` wraps modulo `2^16` (`toShort`), and a conversion
  of an `unsigned int` result to `int` wraps modulo `2^32` (`toInt32`).
* `&` and `|` are the two's-complement operations `Int.land` and `Int.lor`; `<<` multiplies by
  a power of two and `>>` is the arithmetic shift (floor division), and a shift count outside
  `[0, 32)` is a fault.
* Arrays are lists.  An index outside the object is a fault.  A cell that was never written
  (fresh `malloc` memory, the index left by `_BitScanReverse` on a zero mask) holds `none`,
  and using such a value is a fault.
* Pointers into the stream are offsets from `pStreamStart`.
-/

namespace EC

/-- The ways in which a run can leave the defined behaviour of the C program. -/
inductive Fault
  | outOfBounds
  | indeterminate
  | shiftCount
  | streamOverrun
  | streamUnderrun
  | fuel
  deriving DecidableEq, Repr

deriving instance DecidableEq for Except

/-- The enumeration `EC_status` of `ec.h`. -/
inductive EC_status
  | SUCCESS
  | FAILURE
  deriving DecidableEq, Repr

/-- One row of the encoder table (`ec.h`). -/
structure EC_tableEncoderRecord where
  bitsOut : Int
  threshold : Int
  offset : Int
  deriving DecidableEq, Repr

/-- One row of the decoder table (`ec.h`). -/
structure EC_tableDecoderRecord where
  symbol : Int
  numberOfBits : Int
  nextStateBaseline : Int
  deriving DecidableEq, Repr

/-- One row of the state-transition table (`ec.h`). -/
structure EC_stateTableRecord where
  nextState : Int
  deriving DecidableEq, Repr

/-- The encoder context (`ec.h`); `buffer` is the offset of the C pointer from `pStreamStart`. -/
structure EC_encoderContext where
  encoderTable : List (Option EC_tableEncoderRecord)
  statesTable : List (Option EC_stateTableRecord)
  tableLog : Nat
  currentState : Int
  bufferSize : Int
  availableBits : Int
  numberOfUsedBytes : Int
  pStreamStart : List Int
  buffer : Int
  deriving DecidableEq, Repr

/-- The decoder context (`ec.h`); `buffer` is the offset of the C pointer from `pStreamStart`. -/
structure EC_decoderContext where
  decoderTable : List (Option EC_tableDecoderRecord)
  tableLog : Nat
  currentState : Int
  bufferSize : Int
  availableBits : Int
  pStreamStart : List Int
  buffer : Int
  deriving DecidableEq, Repr

/-! ## C arithmetic -/

/-- Conversion to the signed 8-bit `char`. -/
def toChar (z : Int) : Int := (z + 128) % 256 - 128

/-- Conversion to the signed 16-bit `short`. -/
def toShort (z : Int) : Int := (z + 32768) % 65536 - 32768

/-- Conversion of a 32-bit unsigned result to `int`. -/
def toInt32 (z : Int) : Int := (z + 2147483648) % 4294967296 - 2147483648

/-- The C expression `a << k`. -/
def shl (a k : Int) : Except Fault Int :=
  if 0 ≤ k ∧ k < 32 then .ok (a * 2 ^ k.toNat) else .error .shiftCount

/-- The C expression `a >> k` (arithmetic shift). -/
def shr (a k : Int) : Except Fault Int :=
  if 0 ≤ k ∧ k < 32 then .ok (a >>> k.toNat) else .error .shiftCount

/-- The C expression `(1 << k) - 1`. -/
def lowMask (k : Int) : Except Fault Int :=
  match shl 1 k with
  | .ok p => .ok (p - 1)
  | .error e => .error e

/-- The macro `EC_TABLE_STEP` of `ec.h`. -/
def EC_TABLE_STEP (tableSize : Int) : Int :=
  (tableSize >>> (1 : Nat)) + (tableSize >>> (3 : Nat)) + 3

/-- Modelled from the spec: the compiler intrinsic `_BitScanReverse`, which is not part of the
sources.  It stores the position of the highest set bit of a 32-bit mask, `⌊log2 mask⌋`; for a
zero mask the stored index is undefined (`none`). -/
def _BitScanReverse (mask : Int) : Option Nat :=
  if (mask % 4294967296).toNat = 0 then none else some (Nat.log2 (mask % 4294967296).toNat)

/-! ## Memory -/

/-- Read `a[i]`. -/
def loadAt {α : Type} (a : List α) (i : Int) : Except Fault α :=
  if 0 ≤ i then
    match a[i.toNat]? with
    | some v => .ok v
    | none => .error .outOfBounds
  else .error .outOfBounds

/-- Read `a[i]` from an array whose cells may never have been written. -/
def loadInit {α : Type} (a : List (Option α)) (i : Int) : Except Fault α :=
  match loadAt a i with
  | .ok (some v) => .ok v
  | .ok none => .error .indeterminate
  | .error e => .error e

/-- Write `a[i] = v`. -/
def storeAt {α : Type} (a : List α) (i : Int) (v : α) : Except Fault (List α) :=
  if 0 ≤ i ∧ i.toNat < a.length then .ok (a.set i.toNat v) else .error .outOfBounds

/-- Read the stream byte under the pointer `buffer`. -/
def loadByte (stream : List Int) (buffer : Int) : Except Fault Int :=
  if buffer < 0 then .error .streamUnderrun
  else match stream[buffer.toNat]? with
    | some v => .ok v
    | none => .error .streamOverrun

/-- Write the stream byte under the pointer `buffer`. -/
def storeByte (stream : List Int) (buffer : Int) (v : Int) : Except Fault (List Int) :=
  if buffer < 0 then .error .streamUnderrun
  else if buffer.toNat < stream.length then .ok (stream.set buffer.toNat v)
  else .error .streamOverrun

/-- The statement `*buffer <<= k` on the stream. -/
def shlByte (stream : List Int) (buffer k : Int) : Except Fault (List Int) := do
  let b ← loadByte stream buffer
  let s ← shl b k
  storeByte stream buffer (toChar s)

/-- The statement `*buffer |= v` on the stream. -/
def orByte (stream : List Int) (buffer v : Int) : Except Fault (List Int) := do
  let b ← loadByte stream buffer
  storeByte stream buffer (toChar (Int.lor b v))

/-- The statement `*buffer >>= k` on the stream. -/
def shrByte (stream : List Int) (buffer k : Int) : Except Fault (List Int) := do
  let b ← loadByte stream buffer
  let s ← shr b k
  storeByte stream buffer (toChar s)

/-! ## `spreadSymbols` (identical in `ec_encoder.c` and `ec_decoder.c`) -/

/-- The inner loop of `spreadSymbols`, for the remaining occurrences of `symbol`.  The last
component of the state is a ghost log of the indices stored to, in order. -/
def spreadOccurrences (step tableMask symbol : Int) :
    Nat → Int → List (Option Int) → List Int → Except Fault (Int × List (Option Int) × List Int)
  | 0, position, dst, log => pure (position, dst, log)
  | k + 1, position, dst, log => do
    let dst1 ← storeAt dst position (some symbol)
    spreadOccurrences step tableMask symbol k (Int.land (position + step) tableMask) dst1
      (log ++ [position])

/-- The outer loop of `spreadSymbols`, over the `char` counter `symbol`. -/
def spreadLoop (frequencies : List Nat) (frequenciesLength step tableMask : Int) :
    Nat → Int → Int → List (Option Int) → List Int → Except Fault (List (Option Int) × List Int)
  | 0, _, _, _, _ => throw Fault.fuel
  | fuel + 1, symbol, position, dst, log =>
    if symbol < frequenciesLength then do
      let f ← loadAt frequencies symbol
      let r ← spreadOccurrences step tableMask symbol f position dst log
      spreadLoop frequencies frequenciesLength step tableMask fuel (toChar (symbol + 1))
        r.1 r.2.1 r.2.2
    else pure (dst, log)

/-- The function `spreadSymbols`, together with the ghost log of the indices it stored to.  A
`char` counter takes 256 values and a negative one faults on `frequencies[symbol]`, so the fuel
is never exhausted. -/
def spreadSymbolsLog (dst : List (Option Int)) (frequencies : List Nat) (frequenciesLength : Int)
    (tableLog : Nat) : Except Fault (List (Option Int) × List Int) :=
  let tableSize : Int := 2 ^ tableLog
  let tableMask : Int := tableSize - 1
  let step : Int := EC_TABLE_STEP tableSize
  spreadLoop frequencies frequenciesLength step tableMask 257 0 0 dst []

/-- The function `spreadSymbols`: the array it leaves in `dst`. -/
def spreadSymbols (dst : List (Option Int)) (frequencies : List Nat) (frequenciesLength : Int)
    (tableLog : Nat) : Except Fault (List (Option Int)) := do
  let r ← spreadSymbolsLog dst frequencies frequenciesLength tableLog
  pure r.1

/-! ## `ec_encoder.c` -/

/-- The function `writeToStream`. -/
def writeToStream (context : EC_encoderContext) (numberOfBits : Int) :
    Except Fault EC_encoderContext :=
  if numberOfBits > context.availableBits then do
    let stream1 ← shlByte context.pStreamStart context.buffer context.availableBits
    let mask1 ← lowMask context.availableBits
    let stream2 ← orByte stream1 context.buffer (Int.land context.currentState mask1)
    let numberOfBits1 := numberOfBits - context.availableBits
    let buffer1 := context.buffer + 1
    let stream3 ← shlByte stream2 buffer1 numberOfBits1
    let mask2 ← lowMask numberOfBits1
    let stream4 ← orByte stream3 buffer1 (Int.land context.currentState mask2)
    let state1 ← shr context.currentState numberOfBits1
    pure { context with
           pStreamStart := stream4
           buffer := buffer1
           numberOfUsedBytes := context.numberOfUsedBytes + 1
           availableBits := 8 - numberOfBits1
           currentState := state1 }
  else do
    let stream1 ← shlByte context.pStreamStart context.buffer numberOfBits
    let mask1 ← lowMask numberOfBits
    let stream2 ← orByte stream1 context.buffer (Int.land context.currentState mask1)
    let state1 ← shr context.currentState numberOfBits
    pure { context with
           pStreamStart := stream2
           availableBits := context.availableBits - numberOfBits
           currentState := state1 }

/-- The block "Calculating numbers" of the first loop of `EC_buildEncoderTable`: the record
`tmpRecord` for a symbol of frequency `frequency` at the cursor `position`.  For a zero
frequency `_BitScanReverse` leaves `highestSetBit` undefined and the record is indeterminate. -/
def encoderRecordFor (tableLog : Nat) (frequency : Nat) (position : Int) :
    Except Fault (Option EC_tableEncoderRecord) :=
  match _BitScanReverse frequency with
  | none => pure none
  | some highestSetBit => do
    let bitsOut : Int := toInt32 ((tableLog : Int) - (highestSetBit : Int))
    let threshold ← shl frequency bitsOut
    let offset : Int := toInt32 (position - frequency)
    pure (some { bitsOut := bitsOut, threshold := toInt32 threshold, offset := offset })

/-- The first loop of `EC_buildEncoderTable` ("Calculating data for encoding"), over the `char`
counter `symbol` with the `char` cursor `position`. -/
def encoderRecordLoop (frequencies : List Nat) (frequenciesLength : Int) (tableLog : Nat) :
    Nat → Int → Int → List (Option Int) → List (Option EC_tableEncoderRecord) →
      Except Fault (List (Option Int) × List (Option EC_tableEncoderRecord))
  | 0, _, _, _, _ => throw Fault.fuel
  | fuel + 1, symbol, position, intervalBeginIndex, dstTable =>
    if symbol < frequenciesLength then do
      let intervalBeginIndex1 ← storeAt intervalBeginIndex symbol (some (toShort position))
      let f ← loadAt frequencies symbol
      let tmpRecord ← encoderRecordFor tableLog f position
      let position1 := toChar (position + f)
      let dstTable1 ← storeAt dstTable symbol tmpRecord
      encoderRecordLoop frequencies frequenciesLength tableLog fuel (toChar (symbol + 1))
        position1 intervalBeginIndex1 dstTable1
    else pure (intervalBeginIndex, dstTable)

/-- The second loop of `EC_buildEncoderTable` ("Calculating nextStateTable"), for the
remaining positions. -/
def nextStateLoop (tableSize : Int) (spreadedSymbols : List (Option Int)) :
    Nat → Int → List (Option Int) → List (Option EC_stateTableRecord) →
      Except Fault (List (Option EC_stateTableRecord))
  | 0, _, _, nextStateTable => pure nextStateTable
  | k + 1, position, intervalBeginIndex, nextStateTable => do
    let symbol ← loadInit spreadedSymbols position
    let recordWithNewState : EC_stateTableRecord := { nextState := position + tableSize }
    let index ← loadInit intervalBeginIndex symbol
    let nextStateTable1 ← storeAt nextStateTable index (some recordWithNewState)
    let intervalBeginIndex1 ← storeAt intervalBeginIndex symbol (some (toShort (index + 1)))
    nextStateLoop tableSize spreadedSymbols k (position + 1) intervalBeginIndex1 nextStateTable1

/-- The function `EC_buildEncoderTable`.  `dstTable` and `nextStateTable` are the caller's
arrays; the two work arrays come from `malloc`. -/
def EC_buildEncoderTable (dstTable : List (Option EC_tableEncoderRecord))
    (nextStateTable : List (Option EC_stateTableRecord)) (frequencies : List Nat)
    (frequenciesLength : Int) (tableLog : Nat) :
    Except Fault
      (EC_status × List (Option EC_tableEncoderRecord) × List (Option EC_stateTableRecord)) := do
  let tableSize : Int := 2 ^ tableLog
  let intervalBeginIndex : List (Option Int) := List.replicate frequenciesLength.toNat none
  let spreadedSymbols : List (Option Int) := List.replicate tableSize.toNat none
  let r ← encoderRecordLoop frequencies frequenciesLength tableLog 257 0 0 intervalBeginIndex
    dstTable
  let spreadedSymbols1 ← spreadSymbols spreadedSymbols frequencies frequenciesLength tableLog
  let nextStateTable1 ← nextStateLoop tableSize spreadedSymbols1 tableSize.toNat 0 r.1
    nextStateTable
  pure (EC_status.SUCCESS, r.2, nextStateTable1)

/-- The function `EC_initializeEncoderContext`; it always returns `SUCCESS`. -/
def EC_initializeEncoderContext (encoderTable : List (Option EC_tableEncoderRecord))
    (statesTable : List (Option EC_stateTableRecord)) (tableLog : Nat) : EC_encoderContext :=
  { encoderTable := encoderTable
    statesTable := statesTable
    tableLog := tableLog
    currentState := 2 ^ tableLog
    availableBits := 8
    numberOfUsedBytes := 1
    bufferSize := 2 ^ tableLog
    pStreamStart := List.replicate (2 ^ tableLog) 0
    buffer := 0 }

/-- One iteration of the encoding loop of `EC_encode`. -/
def encodeSymbol (context : EC_encoderContext) (symbol : Int) :
    Except Fault EC_encoderContext := do
  let record ← loadInit context.encoderTable symbol
  let bitsOut : Int :=
    if context.currentState < record.threshold then record.bitsOut - 1 else record.bitsOut
  let context1 ← writeToStream context bitsOut
  let next ← loadInit context1.statesTable (context1.currentState + record.offset)
  pure { context1 with currentState := next.nextState }

/-- The encoding loop of `EC_encode`. -/
def encodeLoop : EC_encoderContext → List Int → Except Fault EC_encoderContext
  | context, [] => pure context
  | context, symbol :: src => do
    let context1 ← encodeSymbol context symbol
    encodeLoop context1 src

/-- The function `EC_encode` (`srcLength` is the length of `src`); it always returns
`SUCCESS`. -/
def EC_encode (context : EC_encoderContext) (src : List Int) : Except Fault EC_encoderContext := do
  let context1 ← encodeLoop context src
  pure { context1 with currentState := context1.currentState - 2 ^ context1.tableLog }

/-! ## `ec_decoder.c` -/

/-- The function `readFromStream`: the new context and the value returned. -/
def readFromStream (context : EC_decoderContext) (numberOfBits : Int) :
    Except Fault (EC_decoderContext × Int) :=
  if numberOfBits > context.availableBits then do
    let mask1 ← lowMask context.availableBits
    let b0 ← loadByte context.pStreamStart context.buffer
    let result1 := Int.land b0 mask1
    let buffer1 := context.buffer - 1
    let rest := numberOfBits - context.availableBits
    let mask2 ← lowMask rest
    let b1 ← loadByte context.pStreamStart buffer1
    let high ← shl (Int.land b1 mask2) context.availableBits
    let result2 := Int.lor result1 high
    let stream1 ← shrByte context.pStreamStart buffer1 rest
    pure ({ context with
            pStreamStart := stream1
            buffer := buffer1
            availableBits := 8 - rest }, result2)
  else do
    let mask1 ← lowMask numberOfBits
    let b0 ← loadByte context.pStreamStart context.buffer
    let result1 := Int.land b0 mask1
    let stream1 ← shrByte context.pStreamStart context.buffer numberOfBits
    pure ({ context with
            pStreamStart := stream1
            availableBits := context.availableBits - numberOfBits }, result1)

/-- The first loop of `EC_buildDecoderTable` ("Set begining index"). -/
def beginIndexLoop (frequencies : List Nat) (frequenciesLength : Int) :
    Nat → Int → List (Option Int) → Except Fault (List (Option Int))
  | 0, _, _ => throw Fault.fuel
  | fuel + 1, symbol, symbolBeginIndex =>
    if symbol < frequenciesLength then do
      let f ← loadAt frequencies symbol
      let symbolBeginIndex1 ← storeAt symbolBeginIndex symbol (some (toInt32 f))
      beginIndexLoop frequencies frequenciesLength fuel (toChar (symbol + 1)) symbolBeginIndex1
    else pure symbolBeginIndex

/-- The record `tmpRecord` that the second loop of `EC_buildDecoderTable` computes for `symbol`
at the cursor value `newState`. -/
def decoderRecordFor (tableLog : Nat) (tableSize symbol newState : Int) :
    Except Fault EC_tableDecoderRecord :=
  match _BitScanReverse newState with
  | none => throw Fault.indeterminate
  | some highestBit => do
    let numberOfBits : Int := (tableLog : Int) - (highestBit : Int)
    let shifted ← shl newState numberOfBits
    let nextStateBaseline : Int := shifted - tableSize
    pure { symbol := symbol, numberOfBits := numberOfBits,
           nextStateBaseline := nextStateBaseline }

/-- The second loop of `EC_buildDecoderTable` ("Build table"), for the remaining positions. -/
def decoderRecordLoop (tableLog : Nat) (tableSize : Int) (spreadedSymbols : List (Option Int)) :
    Nat → Int → List (Option Int) → List (Option EC_tableDecoderRecord) →
      Except Fault (List (Option EC_tableDecoderRecord))
  | 0, _, _, dstTable => pure dstTable
  | k + 1, position, symbolBeginIndex, dstTable => do
    let symbol ← loadInit spreadedSymbols position
    let newState ← loadInit symbolBeginIndex symbol
    let tmpRecord ← decoderRecordFor tableLog tableSize symbol newState
    let dstTable1 ← storeAt dstTable position (some tmpRecord)
    let symbolBeginIndex1 ← storeAt symbolBeginIndex symbol (some (newState + 1))
    decoderRecordLoop tableLog tableSize spreadedSymbols k (position + 1) symbolBeginIndex1
      dstTable1

/-- The function `EC_buildDecoderTable`.  `dstTable` is the caller's array; the two work arrays
come from `malloc`, both with `tableSize` cells. -/
def EC_buildDecoderTable (dstTable : List (Option EC_tableDecoderRecord))
    (frequencies : List Nat) (frequenciesLength : Int) (tableLog : Nat) :
    Except Fault (EC_status × List (Option EC_tableDecoderRecord)) := do
  let tableSize : Int := 2 ^ tableLog
  let spreadedSymbols : List (Option Int) := List.replicate tableSize.toNat none
  let symbolBeginIndex : List (Option Int) := List.replicate tableSize.toNat none
  let symbolBeginIndex1 ← beginIndexLoop frequencies frequenciesLength 257 0 symbolBeginIndex
  let spreadedSymbols1 ← spreadSymbols spreadedSymbols frequencies frequenciesLength tableLog
  let dstTable1 ← decoderRecordLoop tableLog tableSize spreadedSymbols1 tableSize.toNat 0
    symbolBeginIndex1 dstTable
  pure (EC_status.SUCCESS, dstTable1)

/-- The function `EC_initializeDecoderContext`; it always returns `SUCCESS`.  The stream is a
copy of the first `numberOfUsedBytes` bytes of the encoder's stream. -/
def EC_initializeDecoderContext (encoderContext : EC_encoderContext)
    (decoderTable : List (Option EC_tableDecoderRecord)) : Except Fault EC_decoderContext :=
  let bufferSize := encoderContext.numberOfUsedBytes
  if bufferSize.toNat ≤ encoderContext.pStreamStart.length then
    pure { decoderTable := decoderTable
           currentState := encoderContext.currentState
           tableLog := encoderContext.tableLog
           bufferSize := bufferSize
           availableBits := 8 - encoderContext.availableBits
           pStreamStart := encoderContext.pStreamStart.take bufferSize.toNat
           buffer := bufferSize - 1 }
  else throw Fault.streamOverrun

/-- One iteration of the decoding loop of `EC_decode`: the new context and the symbol. -/
def decodeSymbol (context : EC_decoderContext) : Except Fault (EC_decoderContext × Int) := do
  let record ← loadInit context.decoderTable context.currentState
  let symbol := record.symbol
  let r ← readFromStream context record.numberOfBits
  pure ({ r.1 with currentState := record.nextStateBaseline + r.2 }, symbol)

/-- The decoding loop of `EC_decode` for `i = k - 1` down to `0`: the final context and the
cells `dst[0 .. k)` it wrote, the one with the highest index first in time. -/
def decodeLoop : Nat → EC_decoderContext → Except Fault (EC_decoderContext × List Int)
  | 0, context => pure (context, [])
  | k + 1, context => do
    let r ← decodeSymbol context
    let s ← decodeLoop k r.1
    pure (s.1, s.2 ++ [r.2])

/-- The function `EC_decode`: the final context and the content of `dst[0 .. dstLength)`; it
always returns `SUCCESS`. -/
def EC_decode (context : EC_decoderContext) (dstLength : Nat) :
    Except Fault (EC_decoderContext × List Int) :=
  decodeLoop dstLength context

/-! ## The pipeline of the spec: tables, encoder, decoder -/

/-- The call of `EC_buildEncoderTable` on caller arrays of `frequencies.length` records and
`2^tableLog` states whose content is indeterminate. -/
def encoderTables (frequencies : List Nat) (tableLog : Nat) :
    Except Fault
      (EC_status × List (Option EC_tableEncoderRecord) × List (Option EC_stateTableRecord)) :=
  EC_buildEncoderTable (List.replicate frequencies.length none)
    (List.replicate (2 ^ tableLog) none) frequencies frequencies.length tableLog

/-- The call of `EC_buildDecoderTable` on a caller array of `2^tableLog` records whose content
is indeterminate. -/
def decoderTable (frequencies : List Nat) (tableLog : Nat) :
    Except Fault (EC_status × List (Option EC_tableDecoderRecord)) :=
  EC_buildDecoderTable (List.replicate (2 ^ tableLog) none) frequencies frequencies.length
    tableLog

/-- The encoder context that `EC_initializeEncoderContext` makes from the tables built for
`frequencies`. -/
def freshEncoder (frequencies : List Nat) (tableLog : Nat) : Except Fault EC_encoderContext := do
  let t ← encoderTables frequencies tableLog
  pure (EC_initializeEncoderContext t.2.1 t.2.2 tableLog)

/-- Build the encoder tables, initialise a context and run `EC_encode` on `src`. -/
def encodeWith (frequencies : List Nat) (tableLog : Nat) (src : List Int) :
    Except Fault EC_encoderContext := do
  let context ← freshEncoder frequencies tableLog
  EC_encode context src

/-- Encode `src`, build the decoder table, initialise the decoder context from the encoder
context and run `EC_decode` with `dstLength = src.length`: the encoder context after
`EC_encode`, the decoder context after `EC_decode`, and `dst`. -/
def roundTrip (frequencies : List Nat) (tableLog : Nat) (src : List Int) :
    Except Fault (EC_encoderContext × EC_decoderContext × List Int) := do
  let encoder ← encodeWith frequencies tableLog src
  let t ← decoderTable frequencies tableLog
  let decoder ← EC_initializeDecoderContext encoder t.2
  let r ← EC_decode decoder src.length
  pure (encoder, r.1, r.2)

/-- The number of bits the encoding loop passes to `writeToStream` for `symbol`. -/
def bitsFor (context : EC_encoderContext) (record : EC_tableEncoderRecord) : Int :=
  if context.currentState < record.threshold then record.bitsOut - 1 else record.bitsOut

/-- Every call of `writeToStream` made by the encoding loop on `src` either fits the free bits
of the current byte, or finds the current byte full and a further byte in the buffer.  (These
are the calls in which the bit group is not split inside a byte.) -/
def writesFit : EC_encoderContext → List Int → Bool
  | _, [] => true
  | context, symbol :: src =>
    match loadInit context.encoderTable symbol with
    | .ok record =>
      (decide (bitsFor context record ≤ context.availableBits) ||
        decide (context.availableBits = 0 ∧ context.buffer + 1 < context.bufferSize)) &&
      (match encodeSymbol context symbol with
        | .ok context1 => writesFit context1 src
        | .error _ => true)
    | .error _ => true

/-! ## Vocabulary of the statements -/

/-- The interval start of symbol `s`: the sum of the frequencies of the symbols before it. -/
def intervalStart (frequencies : List Nat) (s : Nat) : Nat := (frequencies.take s).sum

/-- The value of `EC_TABLE_STEP (1 << tableLog)` as a natural number. -/
def tableStep (tableLog : Nat) : Nat := 2 ^ tableLog / 2 + 2 ^ tableLog / 8 + 3

/-- The slot of the `k`-th store of `spreadSymbols` (counting from 0). -/
def slot (tableLog k : Nat) : Nat := (k * tableStep tableLog) % 2 ^ tableLog

/-- The record that the first loop of `EC_buildEncoderTable` stores for a symbol of frequency
`freq` when the cursor `position` has the value `start`; the record of a symbol of frequency 0
is indeterminate. -/
def encoderRecord (tableLog freq : Nat) (start : Int) : Option EC_tableEncoderRecord :=
  if freq = 0 then none
  else some
    { bitsOut := ((tableLog - Nat.log2 freq : Nat) : Int)
      threshold := (freq : Int) * 2 ^ (tableLog - Nat.log2 freq)
      offset := start - (freq : Int) }

/-- The record that the second loop of `EC_buildDecoderTable` stores for `symbol` when the
cursor of the symbol has the value `newState`. -/
def decoderRecord (tableLog : Nat) (symbol : Int) (newState : Nat) : EC_tableDecoderRecord :=
  { symbol := symbol
    numberOfBits := ((tableLog - Nat.log2 newState : Nat) : Int)
    nextStateBaseline := (newState : Int) * 2 ^ (tableLog - Nat.log2 newState) - 2 ^ tableLog }

/-- The value of a run of stream bytes read as base-256 digits, each byte by its unsigned
value, the first byte the most significant. -/
def bytesVal (bytes : List Int) : Int := bytes.foldl (fun acc b => acc * 256 + b % 256) 0

/-- The content of a bit stream as a number: the bytes before index `k` in full, followed by
the low `bits` bits of byte `k`; the bits written last are the least significant. -/
def streamVal (stream : List Int) (k bits : Nat) : Int :=
  bytesVal (stream.take k) * 2 ^ bits + (stream[k]?.getD 0) % 2 ^ bits

/-- The encoder tables and the decoder table mirror each other: a symbol that occurs has its
record, and for each state `m` of its interval `[f, 2 f)` the state-transition entry of `m`
names a decoder state whose record restores `m`. -/
def TablesDual (L : Nat) (f : List Nat) (et : List (Option EC_tableEncoderRecord))
    (st : List (Option EC_stateTableRecord)) (dt : List (Option EC_tableDecoderRecord)) : Prop :=
  (∀ t (ht : t < f.length), 1 ≤ f[t] →
    et[t]? = some (encoderRecord L f[t] (intervalStart f t))) ∧
  (∀ t (ht : t < f.length), 1 ≤ f[t] → ∀ m, f[t] ≤ m → m < 2 * f[t] →
    ∃ p : Nat, p < 2 ^ L ∧
      st[intervalStart f t + (m - f[t])]? = some (some { nextState := (p : Int) + 2 ^ L }) ∧
      dt[p]? = some (some (decoderRecord L (t : Int) m)))

/-- The state of an encoder context between two symbols: the pointer is at byte `k`, of which
`w` bits are written, the bytes behind it are still zero, and the state is in `[T, 2T)`. -/
def EncoderInv (L : Nat) (et : List (Option EC_tableEncoderRecord))
    (st : List (Option EC_stateTableRecord)) (c : EC_encoderContext) (k w : Nat) : Prop :=
  c.encoderTable = et ∧ c.statesTable = st ∧ c.tableLog = L ∧
  c.buffer = (k : Int) ∧ c.availableBits = 8 - (w : Int) ∧ w ≤ 8 ∧
  k < c.pStreamStart.length ∧ c.bufferSize = (c.pStreamStart.length : Int) ∧
  c.numberOfUsedBytes = (k : Int) + 1 ∧
  (∀ i, k < i → i < c.pStreamStart.length → c.pStreamStart[i]? = some 0) ∧
  (2 : Int) ^ L ≤ c.currentState ∧ c.currentState < 2 ^ (L + 1)

/-- The state of a decoder context between two symbols: the pointer is at byte `j`, of which
`a` bits are still unread. -/
def DecoderInv (dt : List (Option EC_tableDecoderRecord)) (d : EC_decoderContext)
    (j a : Nat) : Prop :=
  d.decoderTable = dt ∧ d.buffer = (j : Int) ∧ d.availableBits = (a : Int) ∧ a ≤ 8 ∧
  j < d.pStreamStart.length

/-- A decoder context mirrors an encoder context: same bits on the stream and the decoder
state is the encoder state minus the table size. -/
def Mirrors (L : Nat) (c : EC_encoderContext) (k w : Nat) (d : EC_decoderContext)
    (j a : Nat) : Prop :=
  d.currentState = c.currentState - 2 ^ L ∧
  streamVal d.pStreamStart j a = streamVal c.pStreamStart k w ∧
  8 * j + a = 8 * k + w

/-- The condition `writesFit` for the context that `freshEncoder` makes. -/
def writesFitFor (frequencies : List Nat) (tableLog : Nat) (src : List Int) : Bool :=
  match freshEncoder frequencies tableLog with
  | .ok context => writesFit context src
  | .error _ => false

/-! ## `ec_utils.c` -/

/-- The first loop of `EC_normalizeArray` ("Find minimal value in source"), for the remaining
`k` indices from `i` on. -/
def minimalValueLoop (src : List Int) : Nat → Int → Int → Except Fault Int
  | 0, _, minimalValue => pure minimalValue
  | k + 1, i, minimalValue => do
    let v ← loadAt src i
    minimalValueLoop src k (i + 1) (if v < minimalValue then v else minimalValue)

/-- The second loop of `EC_normalizeArray` ("Reduce source"), for the remaining `k` indices
from `i` on; the difference is converted to `char`. -/
def reduceLoop (src : List Int) (minimalValue : Int) :
    Nat → Int → List Int → Except Fault (List Int)
  | 0, _, dst => pure dst
  | k + 1, i, dst => do
    let v ← loadAt src i
    let dst1 ← storeAt dst i (toChar (v - minimalValue))
    reduceLoop src minimalValue k (i + 1) dst1

/-- The function `EC_normalizeArray`: the status, the content of `dst` and `*minimalValue`. -/
def EC_normalizeArray (src : List Int) (srcLength : Int) (dst : List Int) :
    Except Fault (EC_status × List Int × Int) := do
  let first ← loadAt src 0
  let minimalValue ← minimalValueLoop src (srcLength - 1).toNat 1 first
  let dst1 ← reduceLoop src minimalValue srcLength.toNat 0 dst
  pure (EC_status.SUCCESS, dst1, minimalValue)

/-- The loop of `EC_returnToInitialNorma`, for the remaining `k` indices from `i` on; the sum
is converted to `char`. -/
def restoreLoop (src : List Int) (normalizedFactor : Int) :
    Nat → Int → List Int → Except Fault (List Int)
  | 0, _, dst => pure dst
  | k + 1, i, dst => do
    let v ← loadAt src i
    let dst1 ← storeAt dst i (toChar (v + normalizedFactor))
    restoreLoop src normalizedFactor k (i + 1) dst1

/-- The function `EC_returnToInitialNorma`: the status and the content of `dst`. -/
def EC_returnToInitialNorma (src : List Int) (srcLength : Int) (dst : List Int)
    (normalizedFactor : Int) : Except Fault (EC_status × List Int) := do
  let dst1 ← restoreLoop src normalizedFactor srcLength.toNat 0 dst
  pure (EC_status.SUCCESS, dst1)

/-! ## Sequences of stream operations -/

/-- A sequence of calls of `writeToStream`; each item is the width of the call and the state
the bits are taken from. -/
def writeAll : EC_encoderContext → List (Int × Int) → Except Fault EC_encoderContext
  | context, [] => pure context
  | context, (numberOfBits, state) :: rest => do
    let context1 ← writeToStream { context with currentState := state } numberOfBits
    writeAll context1 rest

/-- A sequence of calls of `readFromStream` with the given widths: the final context and the
values returned, in the order of the calls. -/
def readAll : EC_decoderContext → List Int → Except Fault (EC_decoderContext × List Int)
  | context, [] => pure (context, [])
  | context, numberOfBits :: rest => do
    let r ← readFromStream context numberOfBits
    let s ← readAll r.1 rest
    pure (s.1, r.2 :: s.2)

/-- The writes of `writes` on a context made by `EC_initializeEncoderContext`, then a decoder
context made from it by `EC_initializeDecoderContext`, read with the widths in reverse order:
the values read. -/
def writeThenRead (tableLog : Nat) (writes : List (Int × Int)) : Except Fault (List Int) := do
  let encoder ← writeAll (EC_initializeEncoderContext [] [] tableLog) writes
  let decoder ← EC_initializeDecoderContext encoder []
  let r ← readAll decoder (writes.reverse.map Prod.fst)
  pure r.2

/-- No call of the sequence is split inside a byte: each either fits the free bits of the
current byte, or finds the current byte full and a further byte in the buffer. -/
def writesUnsplit : EC_encoderContext → List (Int × Int) → Bool
  | _, [] => true
  | context, (numberOfBits, state) :: rest =>
    (decide (numberOfBits ≤ context.availableBits) ||
      decide (context.availableBits = 0 ∧ context.buffer + 1 < context.bufferSize)) &&
    (match writeToStream { context with currentState := state } numberOfBits with
      | .ok context1 => writesUnsplit context1 rest
      | .error _ => true)

/-- The number of free bit positions of the stream: the free bits of the current byte and
the bytes behind it. -/
def freeBits (context : EC_encoderContext) : Int :=
  8 * (context.bufferSize - 1 - context.buffer) + context.availableBits

/-- Every call of `writeToStream` made by the encoding loop on `src` either fits the free bits
of the current byte, or finds the current byte full, has at most 8 bits, and has a further
byte in the buffer to put them in.  (These are the calls in which no bit group is split inside
a byte or is wider than a byte.) -/
def writesWhole : EC_encoderContext → List Int → Bool
  | _, [] => true
  | context, symbol :: src =>
    match loadInit context.encoderTable symbol with
    | .ok record =>
      (decide (bitsFor context record ≤ context.availableBits) ||
        decide (context.availableBits = 0 ∧ bitsFor context record ≤ 8 ∧
          context.buffer + 1 < context.bufferSize)) &&
      (match encodeSymbol context symbol with
        | .ok context1 => writesWhole context1 src
        | .error _ => true)
    | .error _ => true

/-- The condition `writesWhole` for the context that `freshEncoder` makes. -/
def writesWholeFor (frequencies : List Nat) (tableLog : Nat) (src : List Int) : Bool :=
  match freshEncoder frequencies tableLog with
  | .ok context => writesWhole context src
  | .error _ => false

/-! ## Facts about the C arithmetic -/

@[simp] theorem bind_ok {α β : Type} (a : α) (g : α → Except Fault β) :
    (Except.ok a >>= g) = g a := rfl

@[simp] theorem bind_error {α β : Type} (e : Fault) (g : α → Except Fault β) :
    ((Except.error e : Except Fault α) >>= g) = Except.error e := rfl

@[simp] theorem pure_eq_ok {α : Type} (a : α) : (pure a : Except Fault α) = Except.ok a := rfl

@[simp] theorem throw_eq_error {α : Type} (e : Fault) :
    (throw e : Except Fault α) = Except.error e := rfl

theorem toChar_of_range {z : Int} (h1 : -128 ≤ z) (h2 : z < 128) : toChar z = z := by
  unfold toChar; omega

theorem toChar_emod (z : Int) : toChar z % 256 = z % 256 := by
  unfold toChar; omega

theorem toChar_range (z : Int) : -128 ≤ toChar z ∧ toChar z < 128 := by
  unfold toChar; omega

theorem toShort_of_range {z : Int} (h1 : -32768 ≤ z) (h2 : z < 32768) : toShort z = z := by
  unfold toShort; omega

theorem toInt32_of_range {z : Int} (h1 : -2147483648 ≤ z) (h2 : z < 2147483648) :
    toInt32 z = z := by
  unfold toInt32; omega

theorem shl_nat (a : Int) (k : Nat) (hk : k < 32) : shl a (k : Int) = Except.ok (a * 2 ^ k) := by
  unfold shl
  have : (0 : Int) ≤ (k : Int) ∧ (k : Int) < 32 := by omega
  simp [this]

theorem shr_nat (a : Int) (k : Nat) (hk : k < 32) : shr a (k : Int) = Except.ok (a / 2 ^ k) := by
  unfold shr
  have : (0 : Int) ≤ (k : Int) ∧ (k : Int) < 32 := by omega
  simp [this, Int.shiftRight_eq_div_pow]

theorem lowMask_nat (k : Nat) (hk : k < 32) : lowMask (k : Int) = Except.ok (2 ^ k - 1) := by
  unfold lowMask
  rw [shl_nat 1 k hk]
  simp

theorem natCast_two_pow_sub_one (k : Nat) : ((2 ^ k - 1 : Nat) : Int) = 2 ^ k - 1 := by
  have h := Nat.one_le_two_pow (n := k)
  push_cast [Nat.cast_sub h]
  rfl

theorem nat_ldiff_mask (m k : Nat) : Nat.ldiff (2 ^ k - 1) m = 2 ^ k - (m % 2 ^ k + 1) := by
  apply Nat.eq_of_testBit_eq
  intro i
  have hlt : m % 2 ^ k < 2 ^ k := Nat.mod_lt _ (Nat.two_pow_pos k)
  rw [Nat.testBit_ldiff, Nat.testBit_two_pow_sub_one, Nat.testBit_two_pow_sub_succ hlt,
    Nat.testBit_mod_two_pow]
  by_cases h : i < k <;> simp [h]

/-- The C expression `x & ((1 << k) - 1)` is the residue of `x` modulo `2^k`. -/
theorem land_mask (x : Int) (k : Nat) : Int.land x (2 ^ k - 1) = x % 2 ^ k := by
  rw [← natCast_two_pow_sub_one]
  cases x with
  | ofNat m =>
    show ((m &&& (2 ^ k - 1) : Nat) : Int) = (m : Int) % 2 ^ k
    rw [Nat.and_pow_two_sub_one_eq_mod]
    push_cast
    rfl
  | negSucc m =>
    show ((Nat.ldiff (2 ^ k - 1) m : Nat) : Int) = Int.negSucc m % 2 ^ k
    have hpos : (0 : Int) < 2 ^ k := by positivity
    rw [Int.negSucc_emod m hpos, nat_ldiff_mask]
    have hlt : m % 2 ^ k < 2 ^ k := Nat.mod_lt _ (Nat.two_pow_pos k)
    have h2 : m % 2 ^ k + 1 ≤ 2 ^ k := hlt
    push_cast [Nat.cast_sub h2]
    ring

theorem nat_ldiff_low (q n k : Nat) (hn : n < 2 ^ k) :
    Nat.ldiff (2 ^ k * q + (2 ^ k - 1)) n = 2 ^ k * q + (2 ^ k - (n + 1)) := by
  apply Nat.eq_of_testBit_eq
  intro i
  have h1 : 2 ^ k - 1 < 2 ^ k := Nat.sub_lt (Nat.two_pow_pos k) Nat.one_pos
  have h2 : 2 ^ k - (n + 1) < 2 ^ k := Nat.sub_lt (Nat.two_pow_pos k) (Nat.succ_pos n)
  rw [Nat.testBit_ldiff, Nat.testBit_mul_pow_two_add q h1, Nat.testBit_mul_pow_two_add q h2,
    Nat.testBit_two_pow_sub_one, Nat.testBit_two_pow_sub_succ hn]
  by_cases h : i < k
  · simp [h]
  · have hki : k ≤ i := Nat.le_of_not_lt h
    have hni : n < 2 ^ i := Nat.lt_of_lt_of_le hn (Nat.pow_le_pow_right (by decide) hki)
    simp [h, Nat.testBit_lt_two_pow hni]

/-- The C expression `a | v` adds `v` when `v` only has bits below `2^k` and `a` has none
there. -/
theorem lor_disjoint (a v : Int) (k : Nat) (ha : a % 2 ^ k = 0) (hv0 : 0 ≤ v) (hv : v < 2 ^ k) :
    Int.lor a v = a + v := by
  obtain ⟨n, rfl⟩ := Int.eq_ofNat_of_zero_le hv0
  have hn : n < 2 ^ k := by exact_mod_cast hv
  cases a with
  | ofNat m =>
    show ((m ||| n : Nat) : Int) = (m : Int) + (n : Int)
    have hm : m % 2 ^ k = 0 := by
      have : ((m % 2 ^ k : Nat) : Int) = 0 := by push_cast; exact ha
      exact_mod_cast this
    obtain ⟨q, rfl⟩ := Nat.dvd_of_mod_eq_zero hm
    rw [← Nat.mul_add_lt_is_or hn q]
    push_cast
    rfl
  | negSucc m =>
    show Int.negSucc (Nat.ldiff m n) = Int.negSucc m + (n : Int)
    have hpos : (0 : Int) < 2 ^ k := by positivity
    rw [Int.negSucc_emod m hpos] at ha
    have hlt : m % 2 ^ k < 2 ^ k := Nat.mod_lt _ (Nat.two_pow_pos k)
    have hm : m % 2 ^ k = 2 ^ k - 1 := by
      have h3 : ((m % 2 ^ k : Nat) : Int) = 2 ^ k - 1 := by push_cast; omega
      have h4 : ((m % 2 ^ k : Nat) : Int) = ((2 ^ k - 1 : Nat) : Int) := by
        rw [h3, natCast_two_pow_sub_one]
      exact_mod_cast h4
    have hdecomp : m = 2 ^ k * (m / 2 ^ k) + (2 ^ k - 1) := by
      have := Nat.div_add_mod m (2 ^ k)
      omega
    rw [hdecomp, nat_ldiff_low _ _ _ hn]
    simp only [Int.negSucc_eq]
    have h5 : n + 1 ≤ 2 ^ k := hn
    have h6 : 1 ≤ 2 ^ k := Nat.one_le_two_pow
    push_cast [Nat.cast_sub h5, Nat.cast_sub h6]
    ring

theorem lor_disjoint_left (a v : Int) (k : Nat) (ha : a % 2 ^ k = 0) (ha0 : 0 ≤ a)
    (hv0 : 0 ≤ v) (hv : v < 2 ^ k) : Int.lor v a = v + a := by
  obtain ⟨n, rfl⟩ := Int.eq_ofNat_of_zero_le hv0
  obtain ⟨m, rfl⟩ := Int.eq_ofNat_of_zero_le ha0
  have h := lor_disjoint (m : Int) (n : Int) k ha hv0 hv
  show ((n ||| m : Nat) : Int) = (n : Int) + (m : Int)
  rw [Nat.lor_comm]
  have h' : ((m ||| n : Nat) : Int) = (m : Int) + (n : Int) := h
  rw [h']; ring

/-! ## Facts about memory accesses -/

theorem loadAt_nat {α : Type} (a : List α) (i : Nat) (v : α) (h : a[i]? = some v) :
    loadAt a (i : Int) = Except.ok v := by
  unfold loadAt
  simp [h]

theorem loadAt_neg {α : Type} (a : List α) (i : Int) (h : i < 0) :
    loadAt a i = Except.error Fault.outOfBounds := by
  unfold loadAt
  have : ¬ (0 ≤ i) := by omega
  simp [this]

theorem loadAt_ok_iff {α : Type} (a : List α) (i : Int) (v : α) :
    loadAt a i = Except.ok v ↔ 0 ≤ i ∧ a[i.toNat]? = some v := by
  unfold loadAt
  by_cases h : 0 ≤ i
  · cases h2 : a[i.toNat]? <;> simp [h, h2]
  · simp [h]

theorem loadInit_nat {α : Type} (a : List (Option α)) (i : Nat) (v : α)
    (h : a[i]? = some (some v)) : loadInit a (i : Int) = Except.ok v := by
  unfold loadInit
  rw [loadAt_nat a i (some v) h]

theorem loadInit_ok_iff {α : Type} (a : List (Option α)) (i : Int) (v : α) :
    loadInit a i = Except.ok v ↔ 0 ≤ i ∧ a[i.toNat]? = some (some v) := by
  unfold loadInit
  constructor
  · intro h
    cases h2 : loadAt a i with
    | error e => rw [h2] at h; simp at h
    | ok w =>
      rw [h2] at h
      cases w with
      | none => simp at h
      | some u =>
        simp at h
        subst h
        exact (loadAt_ok_iff a i (some u)).1 h2
  · intro h
    rw [(loadAt_ok_iff a i (some v)).2 h]

theorem storeAt_nat {α : Type} (a : List α) (i : Nat) (v : α) (h : i < a.length) :
    storeAt a (i : Int) v = Except.ok (a.set i v) := by
  unfold storeAt
  have : (0 : Int) ≤ (i : Int) := by omega
  simp [h]

theorem loadByte_nat (stream : List Int) (i : Nat) (v : Int) (h : stream[i]? = some v) :
    loadByte stream (i : Int) = Except.ok v := by
  unfold loadByte
  have : ¬ ((i : Int) < 0) := by omega
  simp [h]

theorem storeByte_nat (stream : List Int) (i : Nat) (v : Int) (h : i < stream.length) :
    storeByte stream (i : Int) v = Except.ok (stream.set i v) := by
  unfold storeByte
  have : ¬ ((i : Int) < 0) := by omega
  simp [h]

/-! ## The spreader -/

theorem tableStep_odd (L : Nat) (h : L = 2 ∨ 4 ≤ L) : tableStep L % 2 = 1 := by
  unfold tableStep
  rcases h with rfl | h
  · decide
  · obtain ⟨k, rfl⟩ : ∃ k, L = k + 4 := ⟨L - 4, by omega⟩
    rw [pow_add]
    generalize 2 ^ k = m
    omega

theorem EC_TABLE_STEP_eq (L : Nat) : EC_TABLE_STEP ((2 : Int) ^ L) = (tableStep L : Int) := by
  unfold EC_TABLE_STEP tableStep
  simp only [Int.shiftRight_eq_div_pow]
  push_cast
  norm_num

theorem slot_lt (L k : Nat) : slot L k < 2 ^ L :=
  Nat.mod_lt _ (Nat.two_pow_pos L)

theorem slot_zero (L : Nat) : slot L 0 = 0 := by
  unfold slot; simp

theorem slot_succ (L k : Nat) :
    Int.land ((slot L k : Int) + (tableStep L : Int)) ((2 : Int) ^ L - 1) = (slot L (k + 1) : Int) := by
  rw [land_mask]
  unfold slot
  have h : (k * tableStep L % 2 ^ L + tableStep L) % 2 ^ L = (k + 1) * tableStep L % 2 ^ L := by
    rw [Nat.mod_add_mod]; congr 1; ring
  rw [← h]
  push_cast
  rfl

theorem slot_inj (L : Nat) (hodd : tableStep L % 2 = 1) {j j' : Nat} (hj : j < 2 ^ L)
    (hj' : j' < 2 ^ L) (h : slot L j = slot L j') : j = j' := by
  unfold slot at h
  have hco : Nat.gcd (2 ^ L) (tableStep L) = 1 := by
    have h2 : Nat.Coprime 2 (tableStep L) := Nat.coprime_two_left.2 (Nat.odd_iff.2 hodd)
    exact Nat.Coprime.pow_left L h2
  have hmod : j ≡ j' [MOD 2 ^ L] := Nat.ModEq.cancel_right_of_coprime hco h
  exact Nat.ModEq.eq_of_lt_of_lt hmod hj hj'

theorem spreadOccurrences_spec (L : Nat) (s : Int) (c : Nat) :
    ∀ (k : Nat) (dst : List (Option Int)) (log : List Int), dst.length = 2 ^ L →
      ∃ dst1, spreadOccurrences (tableStep L) ((2 : Int) ^ L - 1) s c (slot L k) dst log =
          Except.ok ((slot L (k + c) : Int), dst1,
            log ++ (List.range' k c).map (fun j => (slot L j : Int))) ∧
        dst1.length = 2 ^ L ∧
        (∀ j, k ≤ j → j < k + c → dst1[slot L j]? = some (some s)) ∧
        (∀ q, (∀ j, k ≤ j → j < k + c → slot L j ≠ q) → dst1[q]? = dst[q]?) := by
  induction c with
  | zero =>
    intro k dst log hlen
    refine ⟨dst, ?_, hlen, ?_, ?_⟩
    · simp [spreadOccurrences]
    · intro j h1 h2; omega
    · intro q _; rfl
  | succ c ih =>
    intro k dst log hlen
    have hk : slot L k < dst.length := by rw [hlen]; exact slot_lt L k
    obtain ⟨dst1, hrun, hlen1, hhit, hframe⟩ :=
      ih (k + 1) (dst.set (slot L k) (some s)) (log ++ [(slot L k : Int)])
        (by rw [List.length_set]; exact hlen)
    refine ⟨dst1, ?_, hlen1, ?_, ?_⟩
    · simp only [spreadOccurrences, storeAt_nat dst (slot L k) (some s) hk, bind_ok, slot_succ]
      rw [hrun]
      simp [List.range'_succ, Nat.add_assoc, Nat.add_comm 1 c]
    · intro j h1 h2
      by_cases hj : k + 1 ≤ j
      · exact hhit j hj (by omega)
      · have hjk : j = k := by omega
        subst hjk
        by_cases hex : ∃ j', j + 1 ≤ j' ∧ j' < j + 1 + c ∧ slot L j' = slot L j
        · obtain ⟨j', h3, h4, h5⟩ := hex
          rw [← h5]
          exact hhit j' h3 h4
        · rw [hframe (slot L j)]
          · rw [List.getElem?_set_self hk]
          · intro j' h3 h4 h5
            exact hex ⟨j', h3, h4, h5⟩
    · intro q hq
      rw [hframe q]
      · rw [List.getElem?_set_ne]
        exact hq k (le_refl k) (by omega)
      · intro j h3 h4
        exact hq j (by omega) (by omega)

theorem intervalStart_zero (f : List Nat) : intervalStart f 0 = 0 := by
  simp [intervalStart]

theorem intervalStart_succ (f : List Nat) (t : Nat) (h : t < f.length) :
    intervalStart f (t + 1) = intervalStart f t + f[t] := by
  unfold intervalStart
  exact List.sum_take_succ f t h

theorem intervalStart_length (f : List Nat) : intervalStart f f.length = f.sum := by
  unfold intervalStart
  rw [List.take_length]

theorem intervalStart_mono (f : List Nat) {t u : Nat} (h : t ≤ u) :
    intervalStart f t ≤ intervalStart f u := by
  induction u with
  | zero =>
    have : t = 0 := by omega
    subst this; exact le_refl _
  | succ u ih =>
    by_cases htu : t ≤ u
    · by_cases hu : u < f.length
      · rw [intervalStart_succ f u hu]
        exact Nat.le_trans (ih htu) (Nat.le_add_right _ _)
      · have h1 : intervalStart f (u + 1) = intervalStart f u := by
          unfold intervalStart
          rw [List.take_of_length_le (by omega), List.take_of_length_le (by omega)]
        rw [h1]; exact ih htu
    · have : t = u + 1 := by omega
      subst this; exact le_refl _

theorem intervalStart_le_sum (f : List Nat) (t : Nat) : intervalStart f t ≤ f.sum := by
  by_cases h : t ≤ f.length
  · rw [← intervalStart_length f]
    exact intervalStart_mono f h
  · unfold intervalStart
    rw [List.take_of_length_le (by omega)]

/-- Every store index below the total lies in the interval of exactly one symbol. -/
theorem interval_lookup (f : List Nat) (j : Nat) (hj : j < f.sum) :
    ∃ t, t < f.length ∧ intervalStart f t ≤ j ∧ j < intervalStart f (t + 1) := by
  have key : ∀ n, n ≤ f.length → j < intervalStart f n →
      ∃ t, t < n ∧ intervalStart f t ≤ j ∧ j < intervalStart f (t + 1) := by
    intro n
    induction n with
    | zero =>
      intro _ h
      rw [intervalStart_zero] at h
      omega
    | succ n ih =>
      intro hn h
      by_cases hlt : j < intervalStart f n
      · obtain ⟨t, h1, h2, h3⟩ := ih (by omega) hlt
        exact ⟨t, by omega, h2, h3⟩
      · exact ⟨n, by omega, by omega, h⟩
  obtain ⟨t, h1, h2, h3⟩ := key f.length (le_refl _) (by rw [intervalStart_length]; exact hj)
  exact ⟨t, h1, h2, h3⟩

theorem spreadLoop_spec (L : Nat) (f : List Nat) (hodd : tableStep L % 2 = 1)
    (hn : f.length ≤ 127) (hsum : f.sum ≤ 2 ^ L) :
    ∀ (d s fuel : Nat) (dst : List (Option Int)) (log : List Int),
      s + d = f.length → d + 1 ≤ fuel → dst.length = 2 ^ L →
      (∀ t, t < s → ∀ j, intervalStart f t ≤ j → j < intervalStart f (t + 1) →
        dst[slot L j]? = some (some (t : Int))) →
      ∃ S, spreadLoop f (f.length : Int) (tableStep L) ((2 : Int) ^ L - 1) fuel (s : Int)
            (slot L (intervalStart f s)) dst log =
          Except.ok (S, log ++ (List.range' (intervalStart f s)
            (f.sum - intervalStart f s)).map (fun j => (slot L j : Int))) ∧
        S.length = 2 ^ L ∧
        (∀ t, t < f.length → ∀ j, intervalStart f t ≤ j → j < intervalStart f (t + 1) →
          S[slot L j]? = some (some (t : Int))) := by
  intro d
  induction d with
  | zero =>
    intro s fuel dst log hs hfuel hlen hinv
    obtain ⟨fuel, rfl⟩ : ∃ k, fuel = k + 1 := ⟨fuel - 1, by omega⟩
    have hsn : s = f.length := by omega
    subst hsn
    refine ⟨dst, ?_, hlen, hinv⟩
    simp [spreadLoop, intervalStart_length]
  | succ d ih =>
    intro s fuel dst log hs hfuel hlen hinv
    obtain ⟨fuel, rfl⟩ : ∃ k, fuel = k + 1 := ⟨fuel - 1, by omega⟩
    have hsn : s < f.length := by omega
    have hlt : (s : Int) < (f.length : Int) := by exact_mod_cast hsn
    have hget : f[s]? = some f[s] := List.getElem?_eq_getElem hsn
    obtain ⟨dst1, hrun, hlen1, hhit, hframe⟩ :=
      spreadOccurrences_spec L (s : Int) f[s] (intervalStart f s) dst log hlen
    have hnext : intervalStart f s + f[s] = intervalStart f (s + 1) :=
      (intervalStart_succ f s hsn).symm
    have hle : intervalStart f (s + 1) ≤ f.sum := intervalStart_le_sum f (s + 1)
    have hchar : toChar ((s : Int) + 1) = ((s + 1 : Nat) : Int) := by
      rw [toChar_of_range (by omega) (by omega)]; push_cast; rfl
    obtain ⟨S, hrun2, hlenS, hS⟩ := ih (s + 1) fuel dst1
      (log ++ (List.range' (intervalStart f s) f[s]).map (fun j => (slot L j : Int)))
      (by omega) (by omega) hlen1 (by
        intro t ht j h1 h2
        by_cases hts : t < s
        · rw [hframe (slot L j)]
          · exact hinv t hts j h1 h2
          · intro j' h3 h4 h5
            have h6 : intervalStart f (t + 1) ≤ intervalStart f s :=
              intervalStart_mono f (by omega)
            have h7 := @slot_inj L hodd j' j (by omega) (by omega) h5
            omega
        · have hts2 : t = s := by omega
          subst hts2
          exact hhit j h1 (by omega))
    refine ⟨S, ?_, hlenS, hS⟩
    simp only [spreadLoop, hlt, if_true, loadAt_nat f s f[s] hget, bind_ok, hrun, hchar]
    rw [hnext, hrun2]
    congr 2
    rw [List.append_assoc, ← List.map_append, ← hnext, List.range'_append_1]
    congr 3
    omega

/-- The result of `spreadSymbols` for a table whose step is odd: it stores to the slots
`slot L 0, slot L 1, …` in this order, and the store number `j` writes the symbol whose
interval contains `j`. -/
theorem spreadSymbolsLog_spec (L : Nat) (f : List Nat) (dst : List (Option Int))
    (hodd : tableStep L % 2 = 1) (hn : f.length ≤ 127) (hsum : f.sum = 2 ^ L)
    (hlen : dst.length = 2 ^ L) :
    ∃ S, spreadSymbolsLog dst f (f.length : Int) L =
          Except.ok (S, (List.range (2 ^ L)).map (fun j => (slot L j : Int))) ∧
        S.length = 2 ^ L ∧
        (∀ t, t < f.length → ∀ j, intervalStart f t ≤ j → j < intervalStart f (t + 1) →
          S[slot L j]? = some (some (t : Int))) := by
  obtain ⟨S, hrun, hlenS, hS⟩ := spreadLoop_spec L f hodd hn (le_of_eq hsum) f.length 0 257 dst []
    (by omega) (by omega) hlen (by intro t ht; omega)
  refine ⟨S, ?_, hlenS, hS⟩
  unfold spreadSymbolsLog
  simp only [EC_TABLE_STEP_eq]
  have h0 : ((0 : Nat) : Int) = 0 := rfl
  rw [intervalStart_zero, slot_zero, h0] at hrun
  rw [hrun]
  simp [hsum, List.range_eq_range']

theorem slot_perm (L : Nat) (hodd : tableStep L % 2 = 1) :
    ((List.range (2 ^ L)).map (slot L)).Perm (List.range (2 ^ L)) := by
  have hnd : ((List.range (2 ^ L)).map (slot L)).Nodup := by
    apply List.Nodup.map_on _ (List.nodup_range _)
    intro x hx y hy hxy
    exact slot_inj L hodd (List.mem_range.1 hx) (List.mem_range.1 hy) hxy
  apply List.perm_of_nodup_nodup_toFinset_eq hnd (List.nodup_range _)
  apply Finset.eq_of_subset_of_card_le
  · intro p hp
    rw [List.mem_toFinset, List.mem_map] at hp
    obtain ⟨j, _, rfl⟩ := hp
    rw [List.mem_toFinset, List.mem_range]
    exact slot_lt L j
  · rw [List.toFinset_card_of_nodup hnd, List.toFinset_card_of_nodup (List.nodup_range _)]
    simp

theorem slot_surj (L : Nat) (hodd : tableStep L % 2 = 1) (p : Nat) (hp : p < 2 ^ L) :
    ∃ j, j < 2 ^ L ∧ slot L j = p := by
  have h : p ∈ (List.range (2 ^ L)).map (slot L) :=
    (slot_perm L hodd).mem_iff.2 (List.mem_range.2 hp)
  rw [List.mem_map] at h
  obtain ⟨j, hj, rfl⟩ := h
  exact ⟨j, List.mem_range.1 hj, rfl⟩

theorem countP_interval (a c T : Nat) (h : a + c ≤ T) :
    (List.range T).countP (fun j => decide (a ≤ j ∧ j < a + c)) = c := by
  have hsplit : List.range T = List.range' 0 a ++ (List.range' a c ++ List.range' (a + c) (T - (a + c))) := by
    rw [List.range_eq_range', List.range'_append_1]
    have := List.range'_append_1 0 a (T - (a + c) + c)
    simp only [Nat.zero_add] at this
    rw [this]
    congr 1
    omega
  rw [hsplit, List.countP_append, List.countP_append]
  have h1 : (List.range' 0 a).countP (fun j => decide (a ≤ j ∧ j < a + c)) = 0 := by
    rw [List.countP_eq_zero]
    intro j hj
    rw [List.mem_range'_1] at hj
    simp only [decide_eq_true_eq]
    omega
  have h2 : (List.range' a c).countP (fun j => decide (a ≤ j ∧ j < a + c)) = c := by
    have : (List.range' a c).countP (fun j => decide (a ≤ j ∧ j < a + c)) =
        (List.range' a c).length := by
      rw [List.countP_eq_length]
      intro j hj
      rw [List.mem_range'_1] at hj
      simp only [decide_eq_true_eq]
      omega
    rw [this, List.length_range']
  have h3 : (List.range' (a + c) (T - (a + c))).countP (fun j => decide (a ≤ j ∧ j < a + c)) = 0 := by
    rw [List.countP_eq_zero]
    intro j hj
    rw [List.mem_range'_1] at hj
    simp only [decide_eq_true_eq]
    omega
  rw [h1, h2, h3]
  omega

theorem map_getD_range (l : List Int) :
    (List.range l.length).map (fun p => l[p]?.getD 0) = l := by
  apply List.ext_getElem?
  intro i
  by_cases h : i < l.length
  · simp [h, List.getElem?_range, List.getElem?_eq_getElem h]
  · have h1 : l.length ≤ i := Nat.le_of_not_lt h
    simp [List.getElem?_eq_none, h1]

/-- The array left by the spreader, characterised slot by slot. -/
theorem spread_cells (L : Nat) (f : List Nat) (S : List (Option Int))
    (hodd : tableStep L % 2 = 1) (hsum : f.sum = 2 ^ L)
    (hS : ∀ t, t < f.length → ∀ j, intervalStart f t ≤ j → j < intervalStart f (t + 1) →
      S[slot L j]? = some (some (t : Int)))
    (p : Nat) (hp : p < 2 ^ L) :
    ∃ t, ∃ (ht : t < f.length), 1 ≤ f[t] ∧ S[p]? = some (some (t : Int)) := by
  obtain ⟨j, hj, rfl⟩ := slot_surj L hodd p hp
  obtain ⟨t, ht, h1, h2⟩ := interval_lookup f j (by omega)
  refine ⟨t, ht, ?_, hS t ht j h1 h2⟩
  rw [intervalStart_succ f t ht] at h2
  omega

/-- After the spreader every symbol occupies as many slots as its frequency. -/
theorem spread_count (L : Nat) (f : List Nat) (S : List Int)
    (hodd : tableStep L % 2 = 1) (hsum : f.sum = 2 ^ L) (hlen : S.length = 2 ^ L)
    (hS : ∀ t, t < f.length → ∀ j, intervalStart f t ≤ j → j < intervalStart f (t + 1) →
      S[slot L j]? = some (t : Int))
    (t : Nat) (ht : t < f.length) : S.count (t : Int) = f[t] := by
  have h0 : S.count (t : Int) =
      (((List.range (2 ^ L)).map (slot L)).map (fun p => S[p]?.getD 0)).count (t : Int) := by
    rw [((slot_perm L hodd).map (fun p => S[p]?.getD 0)).count_eq, ← hlen, map_getD_range]
  rw [h0, List.map_map, List.count_eq_countP, List.countP_map]
  have h3 : (List.range (2 ^ L)).countP
        ((fun x => x == (t : Int)) ∘ ((fun p => S[p]?.getD 0) ∘ slot L)) =
      (List.range (2 ^ L)).countP
        (fun j => decide (intervalStart f t ≤ j ∧ j < intervalStart f t + f[t])) := by
    apply List.countP_congr
    intro j hj
    rw [List.mem_range] at hj
    simp only [Function.comp, beq_iff_eq, decide_eq_true_eq]
    obtain ⟨u, hu, h4, h5⟩ := interval_lookup f j (by omega)
    have h6 := hS u hu j h4 h5
    rw [h6]
    simp only [Option.getD_some]
    constructor
    · intro h
      have : u = t := by exact_mod_cast h
      subst this
      rw [intervalStart_succ f u hu] at h5
      exact ⟨h4, h5⟩
    · intro h
      have h7 := hS t ht j h.1 (by rw [intervalStart_succ f t ht]; exact h.2)
      rw [h6] at h7
      simpa using h7
  rw [h3]
  apply countP_interval
  have := intervalStart_le_sum f (t + 1)
  rw [intervalStart_succ f t ht] at this
  omega

/-- Each slot occurs exactly once among the stores of the spreader. -/
theorem slot_count_one (L : Nat) (hodd : tableStep L % 2 = 1) (p : Nat) (hp : p < 2 ^ L) :
    ((List.range (2 ^ L)).map (fun j => (slot L j : Int))).count (p : Int) = 1 := by
  have h1 : (List.range (2 ^ L)).map (fun j => (slot L j : Int)) =
      ((List.range (2 ^ L)).map (slot L)).map (fun q : Nat => (q : Int)) := by
    rw [List.map_map]; rfl
  rw [h1, List.count_map_of_injective _ _ Nat.cast_injective, (slot_perm L hodd).count_eq]
  exact List.count_eq_one_of_mem (List.nodup_range _) (List.mem_range.2 hp)

/-- Occurrences of `a` in a list are numbered without gaps by the count of `a` before them. -/
theorem exists_rank {α : Type} [DecidableEq α] (a : α) :
    ∀ (l : List α) (j : Nat), j < l.count a →
      ∃ p, p < l.length ∧ l[p]? = some a ∧ (l.take p).count a = j := by
  intro l
  induction l with
  | nil => intro j h; simp at h
  | cons x xs ih =>
    intro j h
    by_cases hx : x = a
    · subst hx
      cases j with
      | zero => exact ⟨0, by simp, by simp, by simp⟩
      | succ j =>
        rw [List.count_cons_self] at h
        obtain ⟨p, h1, h2, h3⟩ := ih j (by omega)
        exact ⟨p + 1, by simp; omega, by simpa using h2, by simp [h3]⟩
    · rw [List.count_cons_of_ne (Ne.symm hx)] at h
      obtain ⟨p, h1, h2, h3⟩ := ih j h
      refine ⟨p + 1, by simp; omega, by simpa using h2, ?_⟩
      rw [List.take_succ_cons, List.count_cons_of_ne (Ne.symm hx)]
      exact h3

theorem count_take_succ {α : Type} [DecidableEq α] (l : List α) (p : Nat) (a b : α)
    (h : l[p]? = some b) :
    (l.take (p + 1)).count a = (l.take p).count a + if b = a then 1 else 0 := by
  rw [List.take_succ, h, List.count_append]
  by_cases hba : b = a
  · subst hba; simp
  · simp [hba, List.count_cons_of_ne (Ne.symm hba)]

theorem count_take_le {α : Type} [DecidableEq α] (l : List α) (a : α) {p q : Nat} (h : p ≤ q) :
    (l.take p).count a ≤ (l.take q).count a := by
  apply List.Sublist.count_le
  have : l.take p = (l.take q).take p := by
    rw [List.take_take, Nat.min_eq_left h]
  rw [this]
  exact List.take_sublist _ _

theorem count_take_lt {α : Type} [DecidableEq α] (l : List α) (a : α) {p q : Nat} (h : p < q)
    (hp : l[p]? = some a) : (l.take p).count a < (l.take q).count a := by
  have h1 := count_take_succ l p a a hp
  have h2 := count_take_le l a (p := p + 1) (q := q) h
  simp at h1
  omega

theorem count_take_lt_total {α : Type} [DecidableEq α] (l : List α) (a : α) {p : Nat}
    (hp : l[p]? = some a) : (l.take p).count a < l.count a := by
  have hlt : p < l.length := by
    by_contra hc
    rw [List.getElem?_eq_none (by omega)] at hp
    simp at hp
  have h := count_take_lt l a (p := p) (q := l.length) hlt hp
  rwa [List.take_length] at h

/-- The function `spreadSymbols` on a table whose step is odd, for at most 127 symbols whose
frequencies sum to the table size: every cell is written, the stores go to the slots
`slot L 0, slot L 1, …`, and each symbol occupies as many cells as its frequency. -/
theorem spreadSymbols_spec (L : Nat) (f : List Nat) (dst : List (Option Int))
    (hodd : tableStep L % 2 = 1) (hn : f.length ≤ 127) (hsum : f.sum = 2 ^ L)
    (hlen : dst.length = 2 ^ L) :
    ∃ S : List Int, spreadSymbolsLog dst f (f.length : Int) L =
          Except.ok (S.map some, (List.range (2 ^ L)).map (fun j => (slot L j : Int))) ∧
        spreadSymbols dst f (f.length : Int) L = Except.ok (S.map some) ∧
        S.length = 2 ^ L ∧
        (∀ p, p < 2 ^ L → ∃ t, ∃ (ht : t < f.length), 1 ≤ f[t] ∧ S[p]? = some (t : Int)) ∧
        (∀ t (ht : t < f.length), S.count (t : Int) = f[t]) := by
  obtain ⟨S0, hrun, hlen0, hS0⟩ := spreadSymbolsLog_spec L f dst hodd hn hsum hlen
  have hcell := spread_cells L f S0 hodd hsum hS0
  have hmap : S0 = (S0.map (fun c => c.getD 0)).map some := by
    apply List.ext_getElem?
    intro i
    by_cases hi : i < 2 ^ L
    · obtain ⟨t, _, _, h⟩ := hcell i hi
      simp [h]
    · have h1 : S0.length ≤ i := by omega
      simp [List.getElem?_eq_none, h1]
  refine ⟨S0.map (fun c => c.getD 0), ?_, ?_, by simpa using hlen0, ?_, ?_⟩
  · rw [← hmap]; exact hrun
  · unfold spreadSymbols
    rw [hrun, ← hmap]
    rfl
  · intro p hp
    obtain ⟨t, ht, h1, h2⟩ := hcell p hp
    exact ⟨t, ht, h1, by simp [h2]⟩
  · intro t ht
    apply spread_count L f _ hodd hsum (by simpa using hlen0) _ t ht
    intro u hu j h1 h2
    simp [hS0 u hu j h1 h2]

/-! ## The table builders -/

theorem bitScanReverse_nat (m : Nat) (h0 : m ≠ 0) (h : m < 4294967296) :
    _BitScanReverse (m : Int) = some (Nat.log2 m) := by
  unfold _BitScanReverse
  have h1 : ((m : Int) % 4294967296) = (m : Int) := Int.emod_eq_of_lt (by omega) (by omega)
  rw [h1]
  simp [h0]

theorem bitScanReverse_zero : _BitScanReverse 0 = none := by
  unfold _BitScanReverse
  simp

theorem log2_le_of_lt (m L : Nat) (h0 : m ≠ 0) (h : m < 2 ^ (L + 1)) : Nat.log2 m ≤ L := by
  have := (Nat.log2_lt h0).2 h
  omega

theorem mul_pow_log2_bounds (m L : Nat) (h0 : m ≠ 0) (h : m < 2 ^ (L + 1)) :
    2 ^ L ≤ m * 2 ^ (L - Nat.log2 m) ∧ (m + 1) * 2 ^ (L - Nat.log2 m) ≤ 2 ^ (L + 1) := by
  have hle := log2_le_of_lt m L h0 h
  have h1 : 2 ^ Nat.log2 m ≤ m := Nat.log2_self_le h0
  have h2 : m < 2 ^ (Nat.log2 m + 1) := Nat.lt_log2_self
  have e1 : 2 ^ L = 2 ^ Nat.log2 m * 2 ^ (L - Nat.log2 m) := by
    rw [← pow_add]; congr 1; omega
  have e2 : 2 ^ (L + 1) = 2 ^ (Nat.log2 m + 1) * 2 ^ (L - Nat.log2 m) := by
    rw [← pow_add]; congr 1; omega
  constructor
  · rw [e1]; exact Nat.mul_le_mul_right _ h1
  · rw [e2]; exact Nat.mul_le_mul_right _ h2

theorem toChar_add (a b : Int) : toChar (toChar a + b) = toChar (a + b) := by
  unfold toChar; omega

theorem encoderRecordLoop_spec (L : Nat) (f : List Nat) (hn : f.length ≤ 127) (hL : L ≤ 29)
    (hf : ∀ t (ht : t < f.length), f[t] < 2 ^ (L + 1)) :
    ∀ (d s fuel : Nat) (ibi : List (Option Int)) (et : List (Option EC_tableEncoderRecord)),
      s + d = f.length → d + 1 ≤ fuel → ibi.length = f.length → et.length = f.length →
      ∃ ibi1 et1, encoderRecordLoop f (f.length : Int) L fuel (s : Int)
            (toChar (intervalStart f s)) ibi et = Except.ok (ibi1, et1) ∧
        ibi1.length = f.length ∧ et1.length = f.length ∧
        (∀ t (ht : t < f.length), s ≤ t →
          ibi1[t]? = some (some (toChar (intervalStart f t))) ∧
          et1[t]? = some (encoderRecord L f[t] (toChar (intervalStart f t)))) ∧
        (∀ t, t < s → ibi1[t]? = ibi[t]? ∧ et1[t]? = et[t]?) := by
  intro d
  induction d with
  | zero =>
    intro s fuel ibi et hs hfuel hlen1 hlen2
    obtain ⟨fuel, rfl⟩ : ∃ k, fuel = k + 1 := ⟨fuel - 1, by omega⟩
    refine ⟨ibi, et, ?_, hlen1, hlen2, ?_, ?_⟩
    · have : s = f.length := by omega
      subst this
      simp [encoderRecordLoop]
    · intro t ht hst; omega
    · intro t _; exact ⟨rfl, rfl⟩
  | succ d ih =>
    intro s fuel ibi et hs hfuel hlen1 hlen2
    obtain ⟨fuel, rfl⟩ : ∃ k, fuel = k + 1 := ⟨fuel - 1, by omega⟩
    have hsn : s < f.length := by omega
    have hlt : (s : Int) < (f.length : Int) := by exact_mod_cast hsn
    have hget : f[s]? = some f[s] := List.getElem?_eq_getElem hsn
    have hchar : toChar ((s : Int) + 1) = ((s + 1 : Nat) : Int) := by
      rw [toChar_of_range (by omega) (by omega)]; push_cast; rfl
    have hpos : toChar (toChar (intervalStart f s : Int) + (f[s] : Int)) =
        toChar ((intervalStart f (s + 1) : Nat) : Int) := by
      rw [toChar_add, intervalStart_succ f s hsn]; push_cast; rfl
    have hcr := toChar_range (intervalStart f s : Int)
    have hshort : toShort (toChar (intervalStart f s : Int)) = toChar (intervalStart f s : Int) :=
      toShort_of_range (by omega) (by omega)
    have hfs := hf s hsn
    have hrec : encoderRecordFor L f[s] (toChar (intervalStart f s)) =
        Except.ok (encoderRecord L f[s] (toChar (intervalStart f s))) := by
      unfold encoderRecordFor
      unfold encoderRecord
      by_cases h0 : f[s] = 0
      · rw [h0]
        simp [bitScanReverse_zero]
      · have h30 : f[s] < 1073741824 := by
          have : 2 ^ (L + 1) ≤ 2 ^ 30 := Nat.pow_le_pow_right (by decide) (by omega)
          omega
        have h32 : f[s] < 4294967296 := by omega
        have hle := log2_le_of_lt f[s] L h0 hfs
        have hb := mul_pow_log2_bounds f[s] L h0 hfs
        have hbits : toInt32 ((L : Int) - (Nat.log2 f[s] : Int)) =
            ((L - Nat.log2 f[s] : Nat) : Int) := by
          rw [toInt32_of_range (by omega) (by omega)]; omega
        have hthr : toInt32 ((f[s] : Int) * 2 ^ (L - Nat.log2 f[s])) =
            (f[s] : Int) * 2 ^ (L - Nat.log2 f[s]) := by
          have h31 : f[s] * 2 ^ (L - Nat.log2 f[s]) ≤ 2 ^ 30 := by
            have h5 : 2 ^ (L + 1) ≤ 2 ^ 30 := Nat.pow_le_pow_right (by decide) (by omega)
            have h6 : f[s] * 2 ^ (L - Nat.log2 f[s]) ≤ (f[s] + 1) * 2 ^ (L - Nat.log2 f[s]) :=
              Nat.mul_le_mul_right _ (by omega)
            exact Nat.le_trans h6 (Nat.le_trans hb.2 h5)
          have h31' : (f[s] : Int) * 2 ^ (L - Nat.log2 f[s]) ≤ 2 ^ 30 := by
            exact_mod_cast h31
          have hnn : (0 : Int) ≤ (f[s] : Int) * 2 ^ (L - Nat.log2 f[s]) := by positivity
          exact toInt32_of_range (by linarith) (by linarith)
        have hoff : toInt32 (toChar (intervalStart f s : Int) - (f[s] : Int)) =
            toChar (intervalStart f s : Int) - (f[s] : Int) := by
          have h7 : (f[s] : Int) < 1073741824 := by exact_mod_cast h30
          have h8 : (0 : Int) ≤ (f[s] : Int) := by positivity
          have h9 := toChar_range (intervalStart f s : Int)
          exact toInt32_of_range (by linarith [h9.1]) (by linarith [h9.2])
        rw [bitScanReverse_nat f[s] h0 h32]
        simp only [hbits, shl_nat _ _ (show L - Nat.log2 f[s] < 32 by omega), bind_ok, hthr, hoff,
          h0, if_false, pure_eq_ok]
    obtain ⟨ibi1, et1, hrun, hl1, hl2, hnew, hold⟩ := ih (s + 1) fuel
      (ibi.set s (some (toChar (intervalStart f s))))
      (et.set s (encoderRecord L f[s] (toChar (intervalStart f s))))
      (by omega) (by omega) (by simpa using hlen1) (by simpa using hlen2)
    refine ⟨ibi1, et1, ?_, hl1, hl2, ?_, ?_⟩
    · simp only [encoderRecordLoop, hlt, if_true, hshort,
        storeAt_nat ibi s _ (by omega : s < ibi.length), bind_ok, loadAt_nat f s f[s] hget, hrec,
        storeAt_nat et s _ (by omega : s < et.length), hchar, hpos]
      exact hrun
    · intro t ht hst
      by_cases hts : s + 1 ≤ t
      · exact hnew t ht hts
      · have : t = s := by omega
        subst this
        obtain ⟨h1, h2⟩ := hold t (by omega)
        rw [h1, h2, List.getElem?_set_self (by omega), List.getElem?_set_self (by omega)]
        exact ⟨rfl, rfl⟩
    · intro t hts
      obtain ⟨h1, h2⟩ := hold t (by omega)
      rw [h1, h2, List.getElem?_set_ne (by omega), List.getElem?_set_ne (by omega)]
      exact ⟨rfl, rfl⟩

theorem index_disjoint (f : List Nat) {t u ct cu : Nat} (ht : t < f.length) (hu : u < f.length)
    (hct : ct < f[t]) (hcu : cu < f[u]) (hne : t ≠ u) :
    intervalStart f t + ct ≠ intervalStart f u + cu := by
  rcases Nat.lt_or_gt_of_ne hne with h | h
  · have h1 := intervalStart_mono f (t := t + 1) (u := u) h
    rw [intervalStart_succ f t ht] at h1
    omega
  · have h1 := intervalStart_mono f (t := u + 1) (u := t) h
    rw [intervalStart_succ f u hu] at h1
    omega

theorem nextStateLoop_spec (L : Nat) (f : List Nat) (S : List Int) (base : Nat → Int)
    (hL : L ≤ 14) (hsum : f.sum = 2 ^ L) (hlenS : S.length = 2 ^ L)
    (hcell : ∀ p, p < 2 ^ L → ∃ t, ∃ (ht : t < f.length), 1 ≤ f[t] ∧ S[p]? = some (t : Int))
    (hcount : ∀ t (ht : t < f.length), S.count (t : Int) = f[t])
    (hbase : ∀ t (ht : t < f.length), 1 ≤ f[t] → base t = (intervalStart f t : Int)) :
    ∀ (k p : Nat) (ibi : List (Option Int)) (nst : List (Option EC_stateTableRecord)),
      p + k = 2 ^ L → ibi.length = f.length → nst.length = 2 ^ L →
      (∀ t, t < f.length → ibi[t]? = some (some (base t + ((S.take p).count (t : Int) : Int)))) →
      (∀ q, q < p → ∀ t : Nat, S[q]? = some (t : Int) →
        nst[intervalStart f t + (S.take q).count (t : Int)]? =
          some (some { nextState := (q : Int) + 2 ^ L })) →
      ∃ nst1, nextStateLoop ((2 : Int) ^ L) (S.map some) k (p : Int) ibi nst = Except.ok nst1 ∧
        nst1.length = 2 ^ L ∧
        (∀ q, q < 2 ^ L → ∀ t : Nat, S[q]? = some (t : Int) →
          nst1[intervalStart f t + (S.take q).count (t : Int)]? =
            some (some { nextState := (q : Int) + 2 ^ L })) := by
  intro k
  induction k with
  | zero =>
    intro p ibi nst hp hl1 hl2 hibi hnst
    refine ⟨nst, by simp [nextStateLoop], hl2, ?_⟩
    intro q hq
    exact hnst q (by omega)
  | succ k ih =>
    intro p ibi nst hp hl1 hl2 hibi hnst
    have hpT : p < 2 ^ L := by omega
    obtain ⟨t, ht, hft, hSp⟩ := hcell p hpT
    have hc : (S.take p).count (t : Int) < f[t] := by
      rw [← hcount t ht]
      exact count_take_lt_total S (t : Int) hSp
    have hidx : intervalStart f t + (S.take p).count (t : Int) < 2 ^ L := by
      have h1 := intervalStart_le_sum f (t + 1)
      rw [intervalStart_succ f t ht] at h1
      omega
    have hT : 2 ^ L ≤ 2 ^ 14 := Nat.pow_le_pow_right (by decide) hL
    have hload1 : loadInit (S.map some) (p : Int) = Except.ok (t : Int) :=
      loadInit_nat _ p _ (by simp [hSp])
    have hcur : base t + ((S.take p).count (t : Int) : Int) =
        ((intervalStart f t + (S.take p).count (t : Int) : Nat) : Int) := by
      rw [hbase t ht hft]; push_cast; rfl
    have hload2 : loadInit ibi (t : Int) =
        Except.ok (((intervalStart f t + (S.take p).count (t : Int) : Nat) : Int)) := by
      rw [← hcur]
      exact loadInit_nat _ t _ (hibi t ht)
    have hshort : toShort (((intervalStart f t + (S.take p).count (t : Int) : Nat) : Int) + 1) =
        base t + (((S.take p).count (t : Int) + 1 : Nat) : Int) := by
      rw [toShort_of_range (by omega) (by omega), ← hcur]
      push_cast; ring
    obtain ⟨nst1, hrun, hlen1, hres⟩ := ih (p + 1)
      (ibi.set t (some (base t + (((S.take p).count (t : Int) + 1 : Nat) : Int))))
      (nst.set (intervalStart f t + (S.take p).count (t : Int))
        (some { nextState := (p : Int) + 2 ^ L }))
      (by omega) (by simpa using hl1) (by simpa using hl2)
      (by
        intro u hu
        by_cases hut : u = t
        · subst hut
          rw [List.getElem?_set_self (by omega), count_take_succ S p (u : Int) (u : Int) hSp]
          simp
        · rw [List.getElem?_set_ne (fun h => hut h.symm), hibi u hu,
            count_take_succ S p (u : Int) (t : Int) hSp]
          have : ¬ ((t : Int) = (u : Int)) := by
            intro h; apply hut; exact_mod_cast h.symm
          simp [this])
      (by
        intro q hq u hSq
        by_cases hqp : q = p
        · subst hqp
          rw [hSp] at hSq
          have : t = u := by
            have : (t : Int) = (u : Int) := by simpa using hSq
            exact_mod_cast this
          subst this
          rw [List.getElem?_set_self (by omega)]
        · have hqlt : q < p := by omega
          obtain ⟨u', hu', hfu', hSq'⟩ := hcell q (by omega)
          have huu : u' = u := by
            rw [hSq'] at hSq
            have : (u' : Int) = (u : Int) := by simpa using hSq
            exact_mod_cast this
          subst huu
          have hcq : (S.take q).count (u' : Int) < f[u'] := by
            rw [← hcount u' hu']
            exact count_take_lt_total S (u' : Int) hSq'
          rw [List.getElem?_set_ne, hnst q hqlt u' hSq']
          by_cases htu : t = u'
          · subst htu
            have := count_take_lt S (t : Int) hqlt hSq'
            omega
          · exact index_disjoint f ht hu' hc hcq htu)
    refine ⟨nst1, ?_, hlen1, hres⟩
    simp only [nextStateLoop, hload1, bind_ok, hload2,
      storeAt_nat nst _ _ (by omega : intervalStart f t + (S.take p).count (t : Int) < nst.length),
      hshort, storeAt_nat ibi t _ (by omega : t < ibi.length)]
    have hp1 : (p : Int) + 1 = ((p + 1 : Nat) : Int) := by push_cast; rfl
    rw [hp1]
    exact hrun

theorem getElem_le_sum (f : List Nat) (t : Nat) (ht : t < f.length) : f[t] ≤ f.sum := by
  have h1 := intervalStart_le_sum f (t + 1)
  rw [intervalStart_succ f t ht] at h1
  omega

theorem intervalStart_add_le (f : List Nat) (t : Nat) (ht : t < f.length) :
    intervalStart f t + f[t] ≤ f.sum := by
  have h1 := intervalStart_le_sum f (t + 1)
  rw [intervalStart_succ f t ht] at h1
  exact h1

theorem two_pow_toNat (L : Nat) : ((2 : Int) ^ L).toNat = 2 ^ L := by
  have : ((2 : Int) ^ L) = ((2 ^ L : Nat) : Int) := by push_cast; rfl
  rw [this, Int.toNat_natCast]

/-- The function `EC_buildEncoderTable` for a table whose step is odd, at most 127 symbols, and
interval starts of the symbols that occur which fit the `char` cursor. -/
theorem EC_buildEncoderTable_spec (L : Nat) (f : List Nat)
    (dstTable : List (Option EC_tableEncoderRecord))
    (nextStateTable : List (Option EC_stateTableRecord))
    (hL : L ≤ 14) (hodd : tableStep L % 2 = 1) (hn : f.length ≤ 127) (hsum : f.sum = 2 ^ L)
    (hpos : ∀ t (ht : t < f.length), 1 ≤ f[t] → intervalStart f t ≤ 127)
    (hl1 : dstTable.length = f.length) (hl2 : nextStateTable.length = 2 ^ L) :
    ∃ (S : List Int) (et : List (Option EC_tableEncoderRecord))
      (st : List (Option EC_stateTableRecord)),
      spreadSymbols (List.replicate (2 ^ L) none) f (f.length : Int) L = Except.ok (S.map some) ∧
      S.length = 2 ^ L ∧
      (∀ p, p < 2 ^ L → ∃ t, ∃ (ht : t < f.length), 1 ≤ f[t] ∧ S[p]? = some (t : Int)) ∧
      (∀ t (ht : t < f.length), S.count (t : Int) = f[t]) ∧
      EC_buildEncoderTable dstTable nextStateTable f (f.length : Int) L =
        Except.ok (EC_status.SUCCESS, et, st) ∧
      et.length = f.length ∧ st.length = 2 ^ L ∧
      (∀ t (ht : t < f.length),
        et[t]? = some (encoderRecord L f[t] (toChar (intervalStart f t)))) ∧
      (∀ q, q < 2 ^ L → ∀ t : Nat, S[q]? = some (t : Int) →
        st[intervalStart f t + (S.take q).count (t : Int)]? =
          some (some { nextState := (q : Int) + 2 ^ L })) := by
  have hfb : ∀ t (ht : t < f.length), f[t] < 2 ^ (L + 1) := by
    intro t ht
    have := getElem_le_sum f t ht
    rw [hsum] at this
    have hpos2 := Nat.two_pow_pos L
    rw [pow_succ]; omega
  obtain ⟨ibi1, et1, hrec, hli, hle, hnew, _⟩ := encoderRecordLoop_spec L f hn (by omega) hfb
    f.length 0 257 (List.replicate f.length none) dstTable (by omega) (by omega)
    (by simp) hl1
  obtain ⟨S, _, hspread, hlenS, hcell, hcount⟩ := spreadSymbols_spec L f
    (List.replicate (2 ^ L) none) hodd hn hsum (by simp)
  obtain ⟨st, hrun, hlst, hst⟩ := nextStateLoop_spec L f S
    (fun t => toChar (intervalStart f t)) hL hsum hlenS hcell hcount
    (by
      intro t ht hft
      exact toChar_of_range (by omega) (by have := hpos t ht hft; omega))
    (2 ^ L) 0 ibi1 nextStateTable (by omega) hli hl2
    (by
      intro t ht
      rw [(hnew t ht (Nat.zero_le _)).1]
      simp)
    (by intro q hq; omega)
  refine ⟨S, et1, st, hspread, hlenS, hcell, hcount, ?_, hle, hlst, ?_, hst⟩
  · unfold EC_buildEncoderTable
    have h0 : toChar ((intervalStart f 0 : Nat) : Int) = 0 := by
      rw [intervalStart_zero]; rfl
    have hrec' := hrec
    rw [h0] at hrec'
    have hz : ((0 : Nat) : Int) = 0 := rfl
    rw [hz] at hrec' hrun
    simp only [Int.toNat_natCast, two_pow_toNat, hrec', bind_ok, hspread, hrun, pure_eq_ok]
  · intro t ht
    exact (hnew t ht (Nat.zero_le _)).2

theorem beginIndexLoop_spec (f : List Nat) (m : Nat) (hn : f.length ≤ 127) (hm : f.length ≤ m)
    (hf : ∀ t (ht : t < f.length), f[t] < 2147483648) :
    ∀ (d s fuel : Nat) (sbi : List (Option Int)),
      s + d = f.length → d + 1 ≤ fuel → sbi.length = m →
      ∃ sbi1, beginIndexLoop f (f.length : Int) fuel (s : Int) sbi = Except.ok sbi1 ∧
        sbi1.length = m ∧
        (∀ t (ht : t < f.length), s ≤ t → sbi1[t]? = some (some (f[t] : Int))) ∧
        (∀ t, t < s → sbi1[t]? = sbi[t]?) := by
  intro d
  induction d with
  | zero =>
    intro s fuel sbi hs hfuel hlen
    obtain ⟨fuel, rfl⟩ : ∃ k, fuel = k + 1 := ⟨fuel - 1, by omega⟩
    refine ⟨sbi, ?_, hlen, ?_, ?_⟩
    · have : s = f.length := by omega
      subst this
      simp [beginIndexLoop]
    · intro t ht hst; omega
    · intro t _; rfl
  | succ d ih =>
    intro s fuel sbi hs hfuel hlen
    obtain ⟨fuel, rfl⟩ : ∃ k, fuel = k + 1 := ⟨fuel - 1, by omega⟩
    have hsn : s < f.length := by omega
    have hlt : (s : Int) < (f.length : Int) := by exact_mod_cast hsn
    have hget : f[s]? = some f[s] := List.getElem?_eq_getElem hsn
    have hchar : toChar ((s : Int) + 1) = ((s + 1 : Nat) : Int) := by
      rw [toChar_of_range (by omega) (by omega)]; push_cast; rfl
    have h32 : toInt32 (f[s] : Int) = (f[s] : Int) := by
      have := hf s hsn
      exact toInt32_of_range (by omega) (by omega)
    obtain ⟨sbi1, hrun, hl, hnew, hold⟩ := ih (s + 1) fuel (sbi.set s (some (f[s] : Int)))
      (by omega) (by omega) (by simpa using hlen)
    refine ⟨sbi1, ?_, hl, ?_, ?_⟩
    · simp only [beginIndexLoop, hlt, if_true, loadAt_nat f s f[s] hget, bind_ok, h32,
        storeAt_nat sbi s _ (by omega : s < sbi.length), hchar]
      exact hrun
    · intro t ht hst
      by_cases hts : s + 1 ≤ t
      · exact hnew t ht hts
      · have : t = s := by omega
        subst this
        rw [hold t (by omega), List.getElem?_set_self (by omega)]
    · intro t hts
      rw [hold t (by omega), List.getElem?_set_ne (by omega)]

theorem decoderRecordFor_nat (L : Nat) (symbol : Int) (m : Nat) (hL : L ≤ 29) (h0 : m ≠ 0)
    (hm : m < 2 ^ (L + 1)) :
    decoderRecordFor L ((2 : Int) ^ L) symbol (m : Int) = Except.ok (decoderRecord L symbol m) := by
  unfold decoderRecordFor decoderRecord
  have h30 : 2 ^ (L + 1) ≤ 2 ^ 30 := Nat.pow_le_pow_right (by decide) (by omega)
  have hle := log2_le_of_lt m L h0 hm
  have hbits : (L : Int) - (Nat.log2 m : Int) = ((L - Nat.log2 m : Nat) : Int) := by omega
  rw [bitScanReverse_nat m h0 (by omega)]
  simp only [hbits, shl_nat _ _ (show L - Nat.log2 m < 32 by omega), bind_ok, pure_eq_ok]

theorem decoderRecordLoop_spec (L : Nat) (f : List Nat) (S : List Int) (m : Nat)
    (hL : L ≤ 29) (hsum : f.sum = 2 ^ L) (hlenS : S.length = 2 ^ L)
    (hcell : ∀ p, p < 2 ^ L → ∃ t, ∃ (ht : t < f.length), 1 ≤ f[t] ∧ S[p]? = some (t : Int))
    (hcount : ∀ t (ht : t < f.length), S.count (t : Int) = f[t]) :
    ∀ (k p : Nat) (sbi : List (Option Int)) (dt : List (Option EC_tableDecoderRecord)),
      p + k = 2 ^ L → sbi.length = m → f.length ≤ m → dt.length = 2 ^ L →
      (∀ t (ht : t < f.length),
        sbi[t]? = some (some (((f[t] + (S.take p).count (t : Int) : Nat) : Int)))) →
      (∀ q, q < p → ∀ t (ht : t < f.length), S[q]? = some (t : Int) →
        dt[q]? = some (some (decoderRecord L (t : Int) (f[t] + (S.take q).count (t : Int))))) →
      ∃ dt1, decoderRecordLoop L ((2 : Int) ^ L) (S.map some) k (p : Int) sbi dt = Except.ok dt1 ∧
        dt1.length = 2 ^ L ∧
        (∀ q, q < 2 ^ L → ∀ t (ht : t < f.length), S[q]? = some (t : Int) →
          dt1[q]? = some (some (decoderRecord L (t : Int) (f[t] + (S.take q).count (t : Int))))) := by
  intro k
  induction k with
  | zero =>
    intro p sbi dt hp hl1 hm hl2 hsbi hdt
    refine ⟨dt, by simp [decoderRecordLoop], hl2, ?_⟩
    intro q hq
    exact hdt q (by omega)
  | succ k ih =>
    intro p sbi dt hp hl1 hm hl2 hsbi hdt
    have hpT : p < 2 ^ L := by omega
    obtain ⟨t, ht, hft, hSp⟩ := hcell p hpT
    have hc : (S.take p).count (t : Int) < f[t] := by
      rw [← hcount t ht]
      exact count_take_lt_total S (t : Int) hSp
    have hfle := getElem_le_sum f t ht
    rw [hsum] at hfle
    have hnew : f[t] + (S.take p).count (t : Int) < 2 ^ (L + 1) := by
      have hpos2 := Nat.two_pow_pos L
      rw [pow_succ]; omega
    have hload1 : loadInit (S.map some) (p : Int) = Except.ok (t : Int) :=
      loadInit_nat _ p _ (by simp [hSp])
    have hload2 : loadInit sbi (t : Int) =
        Except.ok (((f[t] + (S.take p).count (t : Int) : Nat) : Int)) :=
      loadInit_nat _ t _ (hsbi t ht)
    have hrec := decoderRecordFor_nat L (t : Int) (f[t] + (S.take p).count (t : Int)) hL
      (by omega) hnew
    have hinc : ((f[t] + (S.take p).count (t : Int) : Nat) : Int) + 1 =
        ((f[t] + ((S.take p).count (t : Int) + 1) : Nat) : Int) := by
      push_cast; ring
    obtain ⟨dt1, hrun, hlen1, hres⟩ := ih (p + 1)
      (sbi.set t (some (((f[t] + ((S.take p).count (t : Int) + 1) : Nat) : Int))))
      (dt.set p (some (decoderRecord L (t : Int) (f[t] + (S.take p).count (t : Int)))))
      (by omega) (by simpa using hl1) hm (by simpa using hl2)
      (by
        intro u hu
        by_cases hut : u = t
        · subst hut
          rw [List.getElem?_set_self (by omega), count_take_succ S p (u : Int) (u : Int) hSp]
          simp
        · rw [List.getElem?_set_ne (fun h => hut h.symm), hsbi u hu,
            count_take_succ S p (u : Int) (t : Int) hSp]
          have : ¬ ((t : Int) = (u : Int)) := by
            intro h; apply hut; exact_mod_cast h.symm
          simp [this])
      (by
        intro q hq u hu hSq
        by_cases hqp : q = p
        · subst hqp
          rw [hSp] at hSq
          have : t = u := by
            have : (t : Int) = (u : Int) := by simpa using hSq
            exact_mod_cast this
          subst this
          rw [List.getElem?_set_self (by omega)]
        · rw [List.getElem?_set_ne (fun h => hqp h.symm)]
          exact hdt q (by omega) u hu hSq)
    refine ⟨dt1, ?_, hlen1, hres⟩
    simp only [decoderRecordLoop, hload1, bind_ok, hload2, hrec,
      storeAt_nat dt p _ (by omega : p < dt.length), hinc,
      storeAt_nat sbi t _ (by omega : t < sbi.length)]
    have hp1 : (p : Int) + 1 = ((p + 1 : Nat) : Int) := by push_cast; rfl
    rw [hp1]
    exact hrun

/-- The function `EC_buildDecoderTable` for a table whose step is odd and at most 127 symbols,
no more than the table has cells. -/
theorem EC_buildDecoderTable_spec (L : Nat) (f : List Nat)
    (dstTable : List (Option EC_tableDecoderRecord))
    (hL : L ≤ 29) (hodd : tableStep L % 2 = 1) (hn : f.length ≤ 127) (hnT : f.length ≤ 2 ^ L)
    (hsum : f.sum = 2 ^ L) (hl : dstTable.length = 2 ^ L) :
    ∃ (S : List Int) (dt : List (Option EC_tableDecoderRecord)),
      spreadSymbols (List.replicate (2 ^ L) none) f (f.length : Int) L = Except.ok (S.map some) ∧
      EC_buildDecoderTable dstTable f (f.length : Int) L = Except.ok (EC_status.SUCCESS, dt) ∧
      dt.length = 2 ^ L ∧
      (∀ q, q < 2 ^ L → ∀ t (ht : t < f.length), S[q]? = some (t : Int) →
        dt[q]? = some (some (decoderRecord L (t : Int) (f[t] + (S.take q).count (t : Int))))) := by
  have h30 : 2 ^ L ≤ 2 ^ 29 := Nat.pow_le_pow_right (by decide) hL
  have hfb : ∀ t (ht : t < f.length), f[t] < 2147483648 := by
    intro t ht
    have := getElem_le_sum f t ht
    omega
  obtain ⟨sbi1, hbeg, hlb, hnew, _⟩ := beginIndexLoop_spec f (2 ^ L) hn hnT hfb f.length 0 257
    (List.replicate (2 ^ L) none) (by omega) (by omega) (by simp)
  obtain ⟨S, _, hspread, hlenS, hcell, hcount⟩ := spreadSymbols_spec L f
    (List.replicate (2 ^ L) none) hodd hn hsum (by simp)
  obtain ⟨dt, hrun, hld, hdt⟩ := decoderRecordLoop_spec L f S (2 ^ L) hL hsum hlenS hcell hcount
    (2 ^ L) 0 sbi1 dstTable (by omega) hlb hnT hl
    (by
      intro t ht
      rw [hnew t ht (Nat.zero_le _)]
      simp)
    (by intro q hq; omega)
  refine ⟨S, dt, hspread, ?_, hld, hdt⟩
  unfold EC_buildDecoderTable
  have hz : ((0 : Nat) : Int) = 0 := rfl
  rw [hz] at hbeg hrun
  simp only [two_pow_toNat, hbeg, bind_ok, hspread, hrun, pure_eq_ok]

/-! ## Arithmetic of one coding step -/

theorem log2_eq_of_bounds (n k : Nat) (h1 : 2 ^ k ≤ n) (h2 : n < 2 ^ (k + 1)) :
    Nat.log2 n = k := by
  have h0 : n ≠ 0 := by
    have := Nat.two_pow_pos k
    omega
  have ha : Nat.log2 n < k + 1 := (Nat.log2_lt h0).2 h2
  have hb : ¬ Nat.log2 n < k := by
    intro h
    have := (Nat.log2_lt h0).1 h
    omega
  omega

/-- The threshold rule: the number of bits the encoder drops from a state `X` in `[T, 2T)` for
a symbol of frequency `fr` brings the state into `[fr, 2 fr)`. -/
theorem threshold_rule (L fr X : Nat) (hfr : 1 ≤ fr) (hfrT : fr ≤ 2 ^ L) (hX1 : 2 ^ L ≤ X)
    (hX2 : X < 2 ^ (L + 1)) :
    ∃ b : Nat, b ≤ L ∧
      (if (X : Int) < (fr : Int) * 2 ^ (L - Nat.log2 fr)
        then ((L - Nat.log2 fr : Nat) : Int) - 1 else ((L - Nat.log2 fr : Nat) : Int)) = (b : Int) ∧
      (b = L - Nat.log2 fr ∨ b + 1 = L - Nat.log2 fr) ∧
      fr ≤ X / 2 ^ b ∧ X / 2 ^ b < 2 * fr ∧ Nat.log2 (X / 2 ^ b) = L - b := by
  have h0 : fr ≠ 0 := by omega
  have hpos := Nat.two_pow_pos L
  have hfr2 : fr < 2 ^ (L + 1) := by rw [pow_succ]; omega
  have hle := log2_le_of_lt fr L h0 hfr2
  have hlo : 2 ^ Nat.log2 fr ≤ fr := Nat.log2_self_le h0
  have hhi : fr < 2 ^ (Nat.log2 fr + 1) := Nat.lt_log2_self
  obtain ⟨e, he⟩ : ∃ e, e = L - Nat.log2 fr := ⟨_, rfl⟩
  have hLe : L = Nat.log2 fr + e := by omega
  have hlog : ∀ b, b ≤ L → Nat.log2 (X / 2 ^ b) = L - b := by
    intro b hb
    apply log2_eq_of_bounds
    · rw [Nat.le_div_iff_mul_le (Nat.two_pow_pos b), ← pow_add]
      have : L - b + b = L := by omega
      rw [this]; exact hX1
    · rw [Nat.div_lt_iff_lt_mul (Nat.two_pow_pos b), ← pow_add]
      have : L - b + 1 + b = L + 1 := by omega
      rw [this]; exact hX2
  rw [← he]
  by_cases hthr : X < fr * 2 ^ e
  · have he1 : 1 ≤ e := by
      by_contra hc
      have : e = 0 := by omega
      rw [this] at hthr
      simp at hthr
      omega
    have hcond : (X : Int) < (fr : Int) * 2 ^ e := by exact_mod_cast hthr
    refine ⟨e - 1, by omega, ?_, Or.inr (by omega), ?_, ?_, hlog (e - 1) (by omega)⟩
    · rw [if_pos hcond]; omega
    · rw [Nat.le_div_iff_mul_le (Nat.two_pow_pos _)]
      have h1 : fr * 2 ^ (e - 1) ≤ 2 ^ (Nat.log2 fr + 1) * 2 ^ (e - 1) :=
        Nat.mul_le_mul_right _ (Nat.le_of_lt hhi)
      have h2 : 2 ^ (Nat.log2 fr + 1) * 2 ^ (e - 1) = 2 ^ L := by
        rw [← pow_add]; congr 1; omega
      omega
    · rw [Nat.div_lt_iff_lt_mul (Nat.two_pow_pos _)]
      have h2 : 2 * fr * 2 ^ (e - 1) = fr * 2 ^ e := by
        have : e = (e - 1) + 1 := by omega
        conv_rhs => rw [this, pow_succ]
        ring
      rw [h2]; exact hthr
  · have hcond : ¬ (X : Int) < (fr : Int) * 2 ^ e := by
      intro h; apply hthr; exact_mod_cast h
    refine ⟨e, by omega, ?_, Or.inl rfl, ?_, ?_, hlog e (by omega)⟩
    · rw [if_neg hcond]
    · rw [Nat.le_div_iff_mul_le (Nat.two_pow_pos _)]
      omega
    · rw [Nat.div_lt_iff_lt_mul (Nat.two_pow_pos _)]
      have h1 : 2 ^ (Nat.log2 fr + 1) * 2 ^ e ≤ 2 * fr * 2 ^ e := by
        apply Nat.mul_le_mul_right
        rw [pow_succ]; omega
      have h2 : 2 ^ (Nat.log2 fr + 1) * 2 ^ e = 2 ^ (L + 1) := by
        rw [← pow_add]; congr 1; omega
      omega

/-! ## The bit stream -/

theorem shl_byte_low (b : Int) (n : Nat) (hn : n ≤ 8) : toChar (b * 2 ^ n) % 2 ^ n = 0 := by
  unfold toChar
  interval_cases n <;> omega

theorem push_byte (b x : Int) (w n : Nat) (h : w + n ≤ 8) (hx0 : 0 ≤ x) (hx : x < 2 ^ n) :
    toChar (toChar (b * 2 ^ n) + x) % 2 ^ (w + n) = (b % 2 ^ w) * 2 ^ n + x := by
  unfold toChar
  have hn : n ≤ 8 := by omega
  have hw : w ≤ 8 := by omega
  interval_cases n <;> interval_cases w <;> simp only [Nat.reduceAdd] at * <;> omega

theorem push_val (B r x : Int) (w n : Nat) :
    B * 2 ^ (w + n) + (r * 2 ^ n + x) = (B * 2 ^ w + r) * 2 ^ n + x := by
  rw [pow_add]; ring

theorem pop_byte (b : Int) (a n : Nat) (hn : n ≤ a) (ha : a ≤ 8) :
    toChar (b / 2 ^ n) % 2 ^ (a - n) = (b % 2 ^ a) / 2 ^ n := by
  unfold toChar
  interval_cases a <;> interval_cases n <;> simp only [Nat.reduceSub] at * <;> omega

theorem pop_val (B b : Int) (a n : Nat) (hn : n ≤ a) (ha : a ≤ 8) :
    (B * 2 ^ a + b % 2 ^ a) % 2 ^ n = b % 2 ^ n ∧
    (B * 2 ^ a + b % 2 ^ a) / 2 ^ n = B * 2 ^ (a - n) + (b % 2 ^ a) / 2 ^ n := by
  interval_cases a <;> interval_cases n <;> simp only [Nat.reduceSub] at * <;> omega

theorem pop_split_val (B b1 b0 : Int) (a r : Nat) (hr : r ≤ 8) (ha : a ≤ 8) :
    ((B * 256 + b1 % 256) * 2 ^ a + b0 % 2 ^ a) % 2 ^ (r + a) = b0 % 2 ^ a + (b1 % 2 ^ r) * 2 ^ a ∧
    ((B * 256 + b1 % 256) * 2 ^ a + b0 % 2 ^ a) / 2 ^ (r + a) =
      B * 2 ^ (8 - r) + toChar (b1 / 2 ^ r) % 2 ^ (8 - r) := by
  unfold toChar
  interval_cases a <;> interval_cases r <;> simp only [Nat.reduceSub, Nat.reduceAdd] at * <;> omega

theorem bytesVal_snoc (l : List Int) (b : Int) : bytesVal (l ++ [b]) = bytesVal l * 256 + b % 256 := by
  simp [bytesVal, List.foldl_append]

theorem take_set_self {α : Type} (l : List α) (k : Nat) (v : α) : (l.set k v).take k = l.take k := by
  apply List.ext_getElem?
  intro i
  simp only [List.getElem?_take]
  by_cases h : i < k
  · simp only [h, if_true]
    rw [List.getElem?_set_ne (by omega)]
  · simp [h]

theorem take_succ_set_self {α : Type} (l : List α) (k : Nat) (v : α) (hk : k < l.length) :
    (l.set k v).take (k + 1) = l.take k ++ [v] := by
  rw [List.take_succ, take_set_self, List.getElem?_set_self hk]
  rfl

theorem take_succ_getElem {α : Type} (l : List α) (k : Nat) (v : α) (h : l[k]? = some v) :
    l.take (k + 1) = l.take k ++ [v] := by
  rw [List.take_succ, h]
  rfl

theorem streamVal_set_self (stream : List Int) (k bits : Nat) (v : Int) (hk : k < stream.length) :
    streamVal (stream.set k v) k bits = bytesVal (stream.take k) * 2 ^ bits + v % 2 ^ bits := by
  unfold streamVal
  rw [take_set_self, List.getElem?_set_self hk]
  rfl

theorem streamVal_eq (stream : List Int) (k bits : Nat) (b : Int) (h : stream[k]? = some b) :
    streamVal stream k bits = bytesVal (stream.take k) * 2 ^ bits + b % 2 ^ bits := by
  unfold streamVal
  rw [h]
  rfl

theorem shlByte_nat (stream : List Int) (k n : Nat) (b : Int) (h : stream[k]? = some b)
    (hn : n < 32) : shlByte stream (k : Int) (n : Int) =
      Except.ok (stream.set k (toChar (b * 2 ^ n))) := by
  have hk : k < stream.length := by
    by_contra hc
    rw [List.getElem?_eq_none (by omega)] at h
    simp at h
  unfold shlByte
  simp only [loadByte_nat stream k b h, bind_ok, shl_nat b n hn, storeByte_nat stream k _ hk]

theorem shrByte_nat (stream : List Int) (k n : Nat) (b : Int) (h : stream[k]? = some b)
    (hn : n < 32) : shrByte stream (k : Int) (n : Int) =
      Except.ok (stream.set k (toChar (b / 2 ^ n))) := by
  have hk : k < stream.length := by
    by_contra hc
    rw [List.getElem?_eq_none (by omega)] at h
    simp at h
  unfold shrByte
  simp only [loadByte_nat stream k b h, bind_ok, shr_nat b n hn, storeByte_nat stream k _ hk]

theorem orByte_nat (stream : List Int) (k : Nat) (b v : Int) (h : stream[k]? = some b) :
    orByte stream (k : Int) v = Except.ok (stream.set k (toChar (Int.lor b v))) := by
  have hk : k < stream.length := by
    by_contra hc
    rw [List.getElem?_eq_none (by omega)] at h
    simp at h
  unfold orByte
  simp only [loadByte_nat stream k b h, bind_ok, storeByte_nat stream k _ hk]

/-- The statements `*buffer <<= n; *buffer |= state & ((1 << n) - 1)` of `writeToStream`. -/
theorem shl_or_byte (stream : List Int) (k n : Nat) (b X : Int) (h : stream[k]? = some b)
    (hn : n ≤ 8) :
    (shlByte stream (k : Int) (n : Int) >>= fun s1 =>
      orByte s1 (k : Int) (Int.land X (2 ^ n - 1))) =
      Except.ok (stream.set k (toChar (toChar (b * 2 ^ n) + X % 2 ^ n))) := by
  have hk : k < stream.length := by
    by_contra hc
    rw [List.getElem?_eq_none (by omega)] at h
    simp at h
  have hpos : (0 : Int) < 2 ^ n := by positivity
  rw [shlByte_nat stream k n b h (by omega), bind_ok,
    orByte_nat _ k (toChar (b * 2 ^ n)) _ (List.getElem?_set_self hk), land_mask,
    lor_disjoint _ _ n (shl_byte_low b n hn) (Int.emod_nonneg _ (by omega))
      (Int.emod_lt_of_pos _ hpos), List.set_set]

theorem getElem?_lt_length {α : Type} {l : List α} {k : Nat} {v : α} (h : l[k]? = some v) :
    k < l.length := by
  by_contra hc
  rw [List.getElem?_eq_none (by omega)] at h
  simp at h

/-- A call of `writeToStream` that is not split inside a byte pushes the low `n` bits of the
state onto the stream and shifts them out of the state. -/
theorem writeToStream_push (c : EC_encoderContext) (k w n : Nat)
    (hbuf : c.buffer = (k : Int)) (havail : c.availableBits = 8 - (w : Int)) (hw : w ≤ 8)
    (hn : n ≤ 8) (hk : k < c.pStreamStart.length)
    (hzero : ∀ i, k < i → i < c.pStreamStart.length → c.pStreamStart[i]? = some 0)
    (hfit : w + n ≤ 8 ∨ (w = 8 ∧ k + 1 < c.pStreamStart.length)) :
    ∃ (c1 : EC_encoderContext) (k1 w1 : Nat),
      writeToStream c (n : Int) = Except.ok c1 ∧
      c1.currentState = c.currentState / 2 ^ n ∧
      c1.buffer = (k1 : Int) ∧ c1.availableBits = 8 - (w1 : Int) ∧ w1 ≤ 8 ∧
      k1 < c1.pStreamStart.length ∧ c1.pStreamStart.length = c.pStreamStart.length ∧
      8 * k1 + w1 = 8 * k + w + n ∧
      streamVal c1.pStreamStart k1 w1 =
        streamVal c.pStreamStart k w * 2 ^ n + c.currentState % 2 ^ n ∧
      (∀ i, k1 < i → i < c1.pStreamStart.length → c1.pStreamStart[i]? = some 0) ∧
      c1.encoderTable = c.encoderTable ∧ c1.statesTable = c.statesTable ∧
      c1.tableLog = c.tableLog ∧ c1.bufferSize = c.bufferSize ∧
      c1.numberOfUsedBytes - c1.buffer = c.numberOfUsedBytes - c.buffer := by
  have hb : c.pStreamStart[k]? = some c.pStreamStart[k] := List.getElem?_eq_getElem hk
  generalize c.pStreamStart[k] = b at hb
  have hpos : (0 : Int) < 2 ^ n := by positivity
  have hx0 : 0 ≤ c.currentState % 2 ^ n := Int.emod_nonneg _ (by omega)
  have hx1 : c.currentState % 2 ^ n < 2 ^ n := Int.emod_lt_of_pos _ hpos
  by_cases hsplit : (n : Int) > c.availableBits
  · -- the current byte is full and the bits start the next byte
    have hw8 : w = 8 := by
      rcases hfit with h | h
      · omega
      · exact h.1
    subst hw8
    have hk1 : k + 1 < c.pStreamStart.length := by
      rcases hfit with h | h
      · omega
      · exact h.2
    have ha0 : c.availableBits = ((0 : Nat) : Int) := by rw [havail]; rfl
    have hnb : (n : Int) - ((0 : Nat) : Int) = (n : Int) := by simp
    have hb1 : (k : Int) + 1 = ((k + 1 : Nat) : Int) := by push_cast; rfl
    have hz := hzero (k + 1) (by omega) hk1
    have e0 : Int.lor (toChar (b * 2 ^ 0)) (Int.land c.currentState (2 ^ 0 - 1)) =
        toChar (b * 2 ^ 0) + c.currentState % 2 ^ 0 := by
      rw [land_mask]
      exact lor_disjoint _ _ 0 (by simp) (by simp) (by simp)
    have e1 : Int.lor (toChar (0 * 2 ^ n)) (Int.land c.currentState (2 ^ n - 1)) =
        toChar (0 * 2 ^ n) + c.currentState % 2 ^ n := by
      rw [land_mask]
      exact lor_disjoint _ _ n (shl_byte_low 0 n hn) hx0 hx1
    have hz2 : ((c.pStreamStart.set k (toChar (toChar (b * 2 ^ 0) + c.currentState % 2 ^ 0))))[k + 1]?
        = some 0 := by
      rw [List.getElem?_set_ne (by omega)]; exact hz
    have hsplit0 : (n : Int) > ((0 : Nat) : Int) := by rw [← ha0]; exact hsplit
    have hlen2 : k + 1 < (c.pStreamStart.set k
        (toChar (toChar (b * 2 ^ 0) + c.currentState % 2 ^ 0))).length := by
      simpa using hk1
    have e2 := orByte_nat ((c.pStreamStart.set k
        (toChar (toChar (b * 2 ^ 0) + c.currentState % 2 ^ 0))).set (k + 1) (toChar (0 * 2 ^ n)))
        (k + 1) (toChar (0 * 2 ^ n)) (Int.land c.currentState (2 ^ n - 1))
        (List.getElem?_set_self hlen2)
    have hrun : writeToStream c (n : Int) = Except.ok
        { c with
          pStreamStart := (c.pStreamStart.set k
              (toChar (toChar (b * 2 ^ 0) + c.currentState % 2 ^ 0))).set (k + 1)
              (toChar (toChar (0 * 2 ^ n) + c.currentState % 2 ^ n))
          buffer := ((k + 1 : Nat) : Int)
          numberOfUsedBytes := c.numberOfUsedBytes + 1
          availableBits := 8 - (n : Int)
          currentState := c.currentState / 2 ^ n } := by
      simp only [writeToStream, hbuf, ha0, hsplit0, if_true, hnb, hb1,
        shlByte_nat c.pStreamStart k 0 b hb (by omega), bind_ok, lowMask_nat 0 (by omega),
        orByte_nat _ k _ _ (List.getElem?_set_self hk), e0, List.set_set,
        shlByte_nat _ (k + 1) n 0 hz2 (by omega), lowMask_nat n (by omega),
        e2, e1, shr_nat _ n (by omega), pure_eq_ok]
    refine ⟨_, k + 1, n, hrun, rfl, rfl, rfl, hn, by simpa using hk1, by simp, by omega, ?_, ?_,
      rfl, rfl, rfl, rfl, ?_⟩
    · show streamVal ((c.pStreamStart.set k _).set (k + 1) _) (k + 1) n = _
      rw [streamVal_set_self _ _ _ _ (by simpa using hk1), take_succ_set_self _ _ _ hk,
        bytesVal_snoc, streamVal_eq _ _ _ _ hb]
      have h1 := push_byte 0 (c.currentState % 2 ^ n) 0 n (by omega) hx0 hx1
      simp only [Nat.zero_add] at h1
      rw [h1]
      have h2 : toChar (toChar (b * 2 ^ 0) + c.currentState % 2 ^ 0) % 256 = b % 256 := by
        unfold toChar
        simp only [pow_zero]
        omega
      rw [h2]
      norm_num
    · intro i hi1 hi2
      show ((c.pStreamStart.set k _).set (k + 1) _)[i]? = some 0
      rw [List.getElem?_set_ne (by omega), List.getElem?_set_ne (by omega)]
      exact hzero i (by omega) (by simpa using hi2)
    · show c.numberOfUsedBytes + 1 - ((k + 1 : Nat) : Int) = c.numberOfUsedBytes - c.buffer
      rw [hbuf]; push_cast; ring
  · -- the bits fit the current byte
    have hwn : w + n ≤ 8 := by omega
    have e1 : Int.lor (toChar (b * 2 ^ n)) (Int.land c.currentState (2 ^ n - 1)) =
        toChar (b * 2 ^ n) + c.currentState % 2 ^ n := by
      rw [land_mask]
      exact lor_disjoint _ _ n (shl_byte_low b n hn) hx0 hx1
    have hrun : writeToStream c (n : Int) = Except.ok
        { c with
          pStreamStart := c.pStreamStart.set k
              (toChar (toChar (b * 2 ^ n) + c.currentState % 2 ^ n))
          availableBits := c.availableBits - (n : Int)
          currentState := c.currentState / 2 ^ n } := by
      simp only [writeToStream, hsplit, if_false, hbuf,
        shlByte_nat c.pStreamStart k n b hb (by omega), bind_ok, lowMask_nat n (by omega),
        orByte_nat _ k _ _ (List.getElem?_set_self hk), e1, List.set_set,
        shr_nat _ n (by omega), pure_eq_ok]
    refine ⟨_, k, w + n, hrun, rfl, hbuf, ?_, hwn, by simpa using hk, by simp, by omega, ?_, ?_,
      rfl, rfl, rfl, rfl, rfl⟩
    · show c.availableBits - (n : Int) = 8 - ((w + n : Nat) : Int)
      rw [havail]; push_cast; ring
    · show streamVal (c.pStreamStart.set k _) k (w + n) = _
      rw [streamVal_set_self _ _ _ _ hk, streamVal_eq _ _ _ _ hb,
        push_byte b _ w n hwn hx0 hx1, push_val]
    · intro i hi1 hi2
      show (c.pStreamStart.set k _)[i]? = some 0
      rw [List.getElem?_set_ne (by omega)]
      exact hzero i hi1 (by simpa using hi2)

/-- A call of `readFromStream` pops the low `n` bits off the stream. -/
theorem readFromStream_pop (d : EC_decoderContext) (j a n : Nat)
    (hbuf : d.buffer = (j : Int)) (havail : d.availableBits = (a : Int)) (ha : a ≤ 8)
    (hn : n ≤ 8) (hj : j < d.pStreamStart.length) (hlen : n ≤ 8 * j + a) :
    ∃ (d1 : EC_decoderContext) (j1 a1 : Nat),
      readFromStream d (n : Int) = Except.ok (d1, streamVal d.pStreamStart j a % 2 ^ n) ∧
      d1.buffer = (j1 : Int) ∧ d1.availableBits = (a1 : Int) ∧ a1 ≤ 8 ∧
      j1 < d1.pStreamStart.length ∧ d1.pStreamStart.length = d.pStreamStart.length ∧
      8 * j1 + a1 + n = 8 * j + a ∧
      streamVal d1.pStreamStart j1 a1 = streamVal d.pStreamStart j a / 2 ^ n ∧
      d1.decoderTable = d.decoderTable ∧ d1.currentState = d.currentState ∧
      d1.tableLog = d.tableLog ∧ d1.bufferSize = d.bufferSize ∧ j1 ≤ j ∧ j ≤ j1 + 1 := by
  have hb : d.pStreamStart[j]? = some d.pStreamStart[j] := List.getElem?_eq_getElem hj
  generalize d.pStreamStart[j] = b0 at hb
  by_cases hsplit : (n : Int) > d.availableBits
  · -- the bits continue in the previous byte
    have hna : a < n := by rw [havail] at hsplit; exact_mod_cast hsplit
    obtain ⟨j', rfl⟩ : ∃ j', j = j' + 1 := ⟨j - 1, by omega⟩
    have hj' : j' < d.pStreamStart.length := by omega
    have hb1 : d.pStreamStart[j']? = some d.pStreamStart[j'] := List.getElem?_eq_getElem hj'
    generalize d.pStreamStart[j'] = b1 at hb1
    obtain ⟨r, hr⟩ : ∃ r, n = r + a := ⟨n - a, by omega⟩
    subst hr
    have hr8 : r ≤ 8 := by omega
    have hsplit' : ((r + a : Nat) : Int) > (a : Int) := by rw [← havail]; exact hsplit
    have hrest : ((r + a : Nat) : Int) - (a : Int) = (r : Int) := by push_cast; ring
    have hbuf1 : ((j' + 1 : Nat) : Int) - 1 = (j' : Int) := by push_cast; ring
    have hposa : (0 : Int) < 2 ^ a := by positivity
    have hposr : (0 : Int) < 2 ^ r := by positivity
    have hor : Int.lor (Int.land b0 (2 ^ a - 1)) (Int.land b1 (2 ^ r - 1) * 2 ^ a) =
        b0 % 2 ^ a + (b1 % 2 ^ r) * 2 ^ a := by
      rw [land_mask, land_mask]
      exact lor_disjoint_left _ _ a (Int.mul_emod_left _ _)
        (Int.mul_nonneg (Int.emod_nonneg _ (by omega)) (by omega))
        (Int.emod_nonneg _ (by omega)) (Int.emod_lt_of_pos _ hposa)
    have hval : streamVal d.pStreamStart (j' + 1) a =
        (bytesVal (d.pStreamStart.take j') * 256 + b1 % 256) * 2 ^ a + b0 % 2 ^ a := by
      rw [streamVal_eq _ _ _ _ hb, take_succ_getElem _ _ _ hb1, bytesVal_snoc]
    have hpop := pop_split_val (bytesVal (d.pStreamStart.take j')) b1 b0 a r hr8 ha
    have hrun : readFromStream d ((r + a : Nat) : Int) = Except.ok
        ({ d with
            pStreamStart := d.pStreamStart.set j' (toChar (b1 / 2 ^ r))
            buffer := (j' : Int)
            availableBits := 8 - (r : Int) }, b0 % 2 ^ a + (b1 % 2 ^ r) * 2 ^ a) := by
      simp only [readFromStream, hbuf, havail, hsplit', if_true, hrest, hbuf1,
        lowMask_nat a (by omega), bind_ok, loadByte_nat _ _ _ hb, lowMask_nat r (by omega),
        loadByte_nat _ _ _ hb1, shl_nat _ a (by omega), hor,
        shrByte_nat _ j' r b1 hb1 (by omega), pure_eq_ok]
    rw [← hpop.1, ← hval] at hrun
    refine ⟨_, j', 8 - r, hrun, rfl, ?_, by omega, by simpa using hj', by simp, by omega, ?_,
      rfl, rfl, rfl, rfl, by omega, by omega⟩
    · show (8 : Int) - (r : Int) = ((8 - r : Nat) : Int)
      omega
    · show streamVal (d.pStreamStart.set j' _) j' (8 - r) = _
      rw [streamVal_set_self _ _ _ _ hj', hval, hpop.2]
  · -- the bits are in the current byte
    have hna : n ≤ a := by rw [havail] at hsplit; omega
    have hval := streamVal_eq d.pStreamStart j a b0 hb
    have hpop := pop_val (bytesVal (d.pStreamStart.take j)) b0 a n hna ha
    have hrun : readFromStream d (n : Int) = Except.ok
        ({ d with
            pStreamStart := d.pStreamStart.set j (toChar (b0 / 2 ^ n))
            availableBits := d.availableBits - (n : Int) }, b0 % 2 ^ n) := by
      simp only [readFromStream, hsplit, if_false, hbuf, lowMask_nat n (by omega), bind_ok,
        loadByte_nat _ _ _ hb, land_mask, shrByte_nat _ j n b0 hb (by omega), pure_eq_ok]
    rw [← hpop.1, ← hval] at hrun
    refine ⟨_, j, a - n, hrun, hbuf, ?_, by omega, by simpa using hj, by simp, by omega, ?_,
      rfl, rfl, rfl, rfl, by omega, by omega⟩
    · show d.availableBits - (n : Int) = ((a - n : Nat) : Int)
      rw [havail]; omega
    · show streamVal (d.pStreamStart.set j _) j (a - n) = _
      rw [streamVal_set_self _ _ _ _ hj, hval, hpop.2, pop_byte b0 a n hna ha]

/-! ## Duality of the tables and the round trip -/

theorem map_some_injective {α : Type} {l1 l2 : List α} (h : l1.map some = l2.map some) :
    l1 = l2 :=
  List.map_injective_iff.2 (Option.some_injective α) h

/-- The tables built by `EC_buildEncoderTable` and `EC_buildDecoderTable` mirror each other. -/
theorem tables_dual (L : Nat) (f : List Nat)
    (dstTable : List (Option EC_tableEncoderRecord))
    (nextStateTable : List (Option EC_stateTableRecord))
    (decTable : List (Option EC_tableDecoderRecord))
    (hL : L ≤ 14) (hodd : tableStep L % 2 = 1) (hn : f.length ≤ 127)
    (hnT : f.length ≤ 2 ^ L) (hsum : f.sum = 2 ^ L)
    (hpos : ∀ t (ht : t < f.length), 1 ≤ f[t] → intervalStart f t ≤ 127)
    (hl1 : dstTable.length = f.length) (hl2 : nextStateTable.length = 2 ^ L)
    (hl3 : decTable.length = 2 ^ L) :
    ∃ et st dt,
      EC_buildEncoderTable dstTable nextStateTable f (f.length : Int) L =
        Except.ok (EC_status.SUCCESS, et, st) ∧
      EC_buildDecoderTable decTable f (f.length : Int) L = Except.ok (EC_status.SUCCESS, dt) ∧
      TablesDual L f et st dt := by
  obtain ⟨S, et, st, hsp, hlenS, hcell, hcount, henc, _, _, het, hst⟩ :=
    EC_buildEncoderTable_spec L f dstTable nextStateTable hL hodd hn hsum hpos hl1 hl2
  obtain ⟨S', dt, hsp', hdec, _, hdt⟩ :=
    EC_buildDecoderTable_spec L f decTable (by omega) hodd hn hnT hsum hl3
  have hSS : S' = S := by
    rw [hsp] at hsp'
    have := Except.ok.inj hsp'
    exact (map_some_injective this).symm
  subst hSS
  refine ⟨et, st, dt, henc, hdec, ?_, ?_⟩
  · intro t ht hft
    rw [het t ht, toChar_of_range (by omega) (by have := hpos t ht hft; omega)]
  · intro t ht hft m hm1 hm2
    obtain ⟨p, hp, hSp, hrank⟩ := exists_rank (t : Int) S' (m - f[t])
      (by rw [hcount t ht]; omega)
    rw [hlenS] at hp
    refine ⟨p, hp, ?_, ?_⟩
    · have := hst p hp t hSp
      rw [hrank] at this
      exact this
    · have := hdt p hp t ht hSp
      rw [hrank] at this
      have hm : f[t] + (m - f[t]) = m := by omega
      rw [hm] at this
      exact this

/-- One iteration of the encoding loop whose write is not split inside a byte. -/
theorem encodeSymbol_step (L : Nat) (f : List Nat) (et : List (Option EC_tableEncoderRecord))
    (st : List (Option EC_stateTableRecord)) (dt : List (Option EC_tableDecoderRecord))
    (c : EC_encoderContext) (k w t : Nat) (hdual : TablesDual L f et st dt)
    (hinv : EncoderInv L et st c k w) (ht : t < f.length) (hft : 1 ≤ f[t])
    (hsum : f.sum = 2 ^ L)
    (hfit : ∀ record, loadInit c.encoderTable (t : Int) = Except.ok record →
      bitsFor c record ≤ c.availableBits ∨
        (c.availableBits = 0 ∧ bitsFor c record ≤ 8 ∧ c.buffer + 1 < c.bufferSize)) :
    ∃ (c1 : EC_encoderContext) (k1 w1 b p X : Nat),
      encodeSymbol c (t : Int) = Except.ok c1 ∧ EncoderInv L et st c1 k1 w1 ∧
      c.currentState = (X : Int) ∧ c1.currentState = (p : Int) + 2 ^ L ∧ p < 2 ^ L ∧ b ≤ L ∧
      b ≤ 8 ∧ 8 * k1 + w1 = 8 * k + w + b ∧
      streamVal c1.pStreamStart k1 w1 =
        streamVal c.pStreamStart k w * 2 ^ b + (X : Int) % 2 ^ b ∧
      dt[p]? = some (some (decoderRecord L (t : Int) (X / 2 ^ b))) ∧
      Nat.log2 (X / 2 ^ b) = L - b ∧
      c1.pStreamStart.length = c.pStreamStart.length ∧
      ∃ (record : EC_tableEncoderRecord) (c2 : EC_encoderContext),
        loadInit c.encoderTable (t : Int) = Except.ok record ∧
        writeToStream c (bitsFor c record) = Except.ok c2 ∧
        0 ≤ c2.currentState + record.offset ∧ c2.currentState + record.offset < 2 ^ L := by
  have hfT : f[t] ≤ 2 ^ L := by rw [← hsum]; exact getElem_le_sum f t ht
  obtain ⟨het, hst, hlog, hbuf, havail, hw, hk, hbs, hused, hzero, hX1, hX2⟩ := hinv
  obtain ⟨X, hXeq⟩ := Int.eq_ofNat_of_zero_le (le_trans (by positivity) hX1)
  have hXn1 : 2 ^ L ≤ X := by
    have : ((2 ^ L : Nat) : Int) ≤ (X : Int) := by rw [← hXeq]; push_cast; exact hX1
    exact_mod_cast this
  have hXn2 : X < 2 ^ (L + 1) := by
    have : (X : Int) < ((2 ^ (L + 1) : Nat) : Int) := by rw [← hXeq]; push_cast; exact hX2
    exact_mod_cast this
  have hrec : c.encoderTable[t]? = some (some
      { bitsOut := ((L - Nat.log2 f[t] : Nat) : Int)
        threshold := (f[t] : Int) * 2 ^ (L - Nat.log2 f[t])
        offset := (intervalStart f t : Int) - (f[t] : Int) }) := by
    rw [het, hdual.1 t ht hft]
    unfold encoderRecord
    rw [if_neg (by omega)]
  have hload := loadInit_nat _ t _ hrec
  obtain ⟨b, hbL, hbits, _, hlo, hhi, hlg⟩ := threshold_rule L f[t] X hft hfT hXn1 hXn2
  have hfit' := hfit _ hload
  unfold bitsFor at hfit'
  simp only [hXeq, hbits] at hfit'
  have hb8 : b ≤ 8 := by
    rcases hfit' with h | h
    · rw [havail] at h; omega
    · have := h.2.1; omega
  obtain ⟨c1, k1, w1, hrun, hstate, hbuf1, havail1, hw1, hk1, hlen1, hbitsum, hval, hzero1,
      het1, hst1, hlog1, hbs1, hused1⟩ :=
    writeToStream_push c k w b hbuf havail hw hb8 hk hzero (by
      rcases hfit' with h | h
      · left; rw [havail] at h; omega
      · right
        rw [havail, hbuf, hbs] at h
        constructor
        · omega
        · have := h.2.2; exact_mod_cast this)
  obtain ⟨p, hp, hstp, hdtp⟩ := hdual.2 t ht hft (X / 2 ^ b) hlo hhi
  have hstate' : c1.currentState = ((X / 2 ^ b : Nat) : Int) := by
    rw [hstate, hXeq]; push_cast; rfl
  have hidx : c1.currentState + ((intervalStart f t : Int) - (f[t] : Int)) =
      ((intervalStart f t + (X / 2 ^ b - f[t]) : Nat) : Int) := by
    rw [hstate']; omega
  have hload2 : loadInit c1.statesTable
      (c1.currentState + ((intervalStart f t : Int) - (f[t] : Int))) =
      Except.ok { nextState := (p : Int) + 2 ^ L } := by
    rw [hidx, hst1, hst]
    exact loadInit_nat _ _ _ hstp
  have hrun2 : encodeSymbol c (t : Int) =
      Except.ok { c1 with currentState := (p : Int) + 2 ^ L } := by
    simp only [encodeSymbol, hload, bind_ok, hXeq, hbits, hrun, hload2, pure_eq_ok]
  have hbf : bitsFor c
      { bitsOut := ((L - Nat.log2 f[t] : Nat) : Int)
        threshold := (f[t] : Int) * 2 ^ (L - Nat.log2 f[t])
        offset := (intervalStart f t : Int) - (f[t] : Int) } = (b : Int) := by
    unfold bitsFor
    simp only [hXeq, hbits]
  have hidxlt : intervalStart f t + (X / 2 ^ b - f[t]) < 2 ^ L := by
    have := intervalStart_add_le f t ht
    omega
  refine ⟨_, k1, w1, b, p, X, hrun2, ?_, hXeq, rfl, hp, hbL, hb8, hbitsum, ?_, hdtp, hlg, hlen1,
    _, c1, hload, by rw [hbf]; exact hrun, ?_, ?_⟩
  · refine ⟨by rw [← het]; exact het1, by rw [← hst]; exact hst1, by rw [← hlog]; exact hlog1,
      hbuf1, havail1, hw1, hk1, ?_, ?_, hzero1, ?_, ?_⟩
    · show c1.bufferSize = _
      rw [hbs1, hbs, hlen1]
    · show c1.numberOfUsedBytes = _
      have : c1.numberOfUsedBytes - c1.buffer = c.numberOfUsedBytes - c.buffer := hused1
      rw [hbuf1, hused, hbuf] at this
      omega
    · show (2 : Int) ^ L ≤ (p : Int) + 2 ^ L
      omega
    · show (p : Int) + 2 ^ L < 2 ^ (L + 1)
      have : (p : Int) < 2 ^ L := by exact_mod_cast hp
      rw [pow_succ]; omega
  · show streamVal c1.pStreamStart k1 w1 = _
    rw [hval, hXeq]
  · show 0 ≤ c1.currentState + ((intervalStart f t : Int) - (f[t] : Int))
    rw [hidx]; omega
  · show c1.currentState + ((intervalStart f t : Int) - (f[t] : Int)) < 2 ^ L
    rw [hidx]
    exact_mod_cast hidxlt

/-- One iteration of the decoding loop undoes one iteration of the encoding loop. -/
theorem decodeSymbol_step (L : Nat) (dt : List (Option EC_tableDecoderRecord))
    (d : EC_decoderContext) (j a b p X : Nat) (V : Int) (t : Int) (hb8 : b ≤ 8)
    (hinv : DecoderInv dt d j a) (hb : b ≤ L) (hstate : d.currentState = (p : Int))
    (hrec : dt[p]? = some (some (decoderRecord L t (X / 2 ^ b))))
    (hlg : Nat.log2 (X / 2 ^ b) = L - b)
    (hval : streamVal d.pStreamStart j a = V * 2 ^ b + (X : Int) % 2 ^ b)
    (hlen : b ≤ 8 * j + a) :
    ∃ (d1 : EC_decoderContext) (j1 a1 : Nat),
      decodeSymbol d = Except.ok (d1, t) ∧ DecoderInv dt d1 j1 a1 ∧
      d1.currentState = (X : Int) - 2 ^ L ∧ streamVal d1.pStreamStart j1 a1 = V ∧
      8 * j1 + a1 + b = 8 * j + a := by
  obtain ⟨hdt, hbuf, havail, ha, hj⟩ := hinv
  have hbits : ((L - Nat.log2 (X / 2 ^ b) : Nat) : Int) = (b : Int) := by
    rw [hlg]; omega
  have hload : loadInit d.decoderTable d.currentState =
      Except.ok (decoderRecord L t (X / 2 ^ b)) := by
    rw [hdt, hstate]
    exact loadInit_nat _ _ _ hrec
  obtain ⟨d1, j1, a1, hrun, hbuf1, havail1, ha1, hj1, _, hsum, hval1, hdt1, _, _, _, _, _⟩ :=
    readFromStream_pop d j a b hbuf havail ha hb8 hj hlen
  have hpos : (0 : Int) < 2 ^ b := by positivity
  have hx0 : 0 ≤ (X : Int) % 2 ^ b := Int.emod_nonneg _ (by omega)
  have hx1 : (X : Int) % 2 ^ b < 2 ^ b := Int.emod_lt_of_pos _ hpos
  have hr : streamVal d.pStreamStart j a % 2 ^ b = (X : Int) % 2 ^ b := by
    rw [hval, add_comm, Int.add_mul_emod_self]
    exact Int.emod_eq_of_lt hx0 hx1
  have hq : streamVal d.pStreamStart j a / 2 ^ b = V := by
    rw [hval, add_comm, Int.add_mul_ediv_right _ _ (by omega), Int.ediv_eq_zero_of_lt hx0 hx1]
    simp
  have hLb : L - (L - b) = b := by omega
  have hrun2 : decodeSymbol d = Except.ok
      ({ d1 with currentState :=
          (decoderRecord L t (X / 2 ^ b)).nextStateBaseline + (X : Int) % 2 ^ b }, t) := by
    simp only [decodeSymbol, hload, bind_ok, pure_eq_ok]
    have hnb : (decoderRecord L t (X / 2 ^ b)).numberOfBits = (b : Int) := hbits
    rw [hnb, hrun, bind_ok, hr]
    rfl
  refine ⟨_, j1, a1, hrun2, ⟨by rw [← hdt]; exact hdt1, hbuf1, havail1, ha1, hj1⟩, ?_, ?_, hsum⟩
  · show (decoderRecord L t (X / 2 ^ b)).nextStateBaseline + (X : Int) % 2 ^ b = _
    unfold decoderRecord
    simp only [hlg, hLb]
    have := Int.ediv_add_emod (X : Int) (2 ^ b)
    push_cast
    linarith [Int.ediv_add_emod (X : Int) (2 ^ b), mul_comm ((X : Int) / 2 ^ b) ((2 : Int) ^ b)]
  · show streamVal d1.pStreamStart j1 a1 = V
    rw [hval1, hq]

theorem decodeLoop_succ_last (k : Nat) : ∀ (d : EC_decoderContext),
    decodeLoop (k + 1) d = (decodeLoop k d >>= fun q =>
      decodeSymbol q.1 >>= fun u => pure (u.1, u.2 :: q.2)) := by
  induction k with
  | zero =>
    intro d
    simp only [decodeLoop, pure_eq_ok, bind_ok]
    cases decodeSymbol d <;> simp
  | succ k ih =>
    intro d
    rw [decodeLoop]
    cases h1 : decodeSymbol d with
    | error e => simp [decodeLoop, h1]
    | ok r =>
      simp only [bind_ok]
      rw [ih r.1]
      conv_rhs => rw [decodeLoop]
      simp only [h1, bind_ok]
      cases h2 : decodeLoop k r.1 with
      | error e => simp
      | ok q =>
        simp only [bind_ok, pure_eq_ok]
        cases h3 : decodeSymbol q.1 with
        | error e => simp
        | ok u => simp

theorem writesFit_cons (c c1 : EC_encoderContext) (s : Int) (xs : List Int)
    (record : EC_tableEncoderRecord) (hload : loadInit c.encoderTable s = Except.ok record)
    (hrun : encodeSymbol c s = Except.ok c1) (h : writesFit c (s :: xs) = true) :
    (bitsFor c record ≤ c.availableBits ∨
      (c.availableBits = 0 ∧ c.buffer + 1 < c.bufferSize)) ∧ writesFit c1 xs = true := by
  rw [writesFit, hload] at h
  simp only [hrun, Bool.and_eq_true, Bool.or_eq_true, decide_eq_true_eq] at h
  exact h

theorem writesFit_head (c : EC_encoderContext) (s : Int) (xs : List Int)
    (h : writesFit c (s :: xs) = true) :
    ∀ record, loadInit c.encoderTable s = Except.ok record →
      bitsFor c record ≤ c.availableBits ∨
        (c.availableBits = 0 ∧ c.buffer + 1 < c.bufferSize) := by
  intro record hload
  rw [writesFit, hload] at h
  simp only [Bool.and_eq_true, Bool.or_eq_true, decide_eq_true_eq] at h
  exact h.1

theorem writesFit_tail (c c1 : EC_encoderContext) (s : Int) (xs : List Int)
    (hrun : encodeSymbol c s = Except.ok c1) (h : writesFit c (s :: xs) = true) :
    writesFit c1 xs = true := by
  rw [writesFit] at h
  cases hload : loadInit c.encoderTable s with
  | error e =>
    simp [encodeSymbol, hload] at hrun
  | ok record =>
    rw [hload] at h
    simp only [hrun, Bool.and_eq_true] at h
    exact h.2

theorem writesWhole_head (c : EC_encoderContext) (s : Int) (xs : List Int)
    (h : writesWhole c (s :: xs) = true) :
    ∀ record, loadInit c.encoderTable s = Except.ok record →
      bitsFor c record ≤ c.availableBits ∨
        (c.availableBits = 0 ∧ bitsFor c record ≤ 8 ∧ c.buffer + 1 < c.bufferSize) := by
  intro record hload
  rw [writesWhole, hload] at h
  simp only [Bool.and_eq_true, Bool.or_eq_true, decide_eq_true_eq] at h
  exact h.1

theorem writesWhole_tail (c c1 : EC_encoderContext) (s : Int) (xs : List Int)
    (hrun : encodeSymbol c s = Except.ok c1) (h : writesWhole c (s :: xs) = true) :
    writesWhole c1 xs = true := by
  rw [writesWhole] at h
  cases hload : loadInit c.encoderTable s with
  | error e =>
    simp [encodeSymbol, hload] at hrun
  | ok record =>
    rw [hload] at h
    simp only [hrun, Bool.and_eq_true] at h
    exact h.2

/-- Encoding `src` without a write split inside a byte or wider than a byte and decoding `src.length` symbols from a
mirroring decoder context gives `src` back and leaves the decoder mirroring the encoder
context before the run. -/
theorem run_roundtrip (L : Nat) (f : List Nat) (et : List (Option EC_tableEncoderRecord))
    (st : List (Option EC_stateTableRecord)) (dt : List (Option EC_tableDecoderRecord))
    (hsum : f.sum = 2 ^ L) (hdual : TablesDual L f et st dt) :
    ∀ (src : List Int) (c : EC_encoderContext) (k w : Nat), EncoderInv L et st c k w →
      (∀ s ∈ src, ∃ t, ∃ (ht : t < f.length), s = (t : Int) ∧ 1 ≤ f[t]) →
      writesWhole c src = true →
      ∃ (cf : EC_encoderContext) (kf wf : Nat),
        encodeLoop c src = Except.ok cf ∧ EncoderInv L et st cf kf wf ∧
        cf.pStreamStart.length = c.pStreamStart.length ∧
        ∀ (df : EC_decoderContext) (jf af : Nat), DecoderInv dt df jf af →
          Mirrors L cf kf wf df jf af →
          ∃ (d : EC_decoderContext) (j a : Nat),
            decodeLoop src.length df = Except.ok (d, src) ∧ DecoderInv dt d j a ∧
            Mirrors L c k w d j a := by
  intro src
  induction src with
  | nil =>
    intro c k w hinv _ _
    refine ⟨c, k, w, by simp [encodeLoop], hinv, rfl, ?_⟩
    intro df jf af hdinv hmir
    exact ⟨df, jf, af, by simp [decodeLoop], hdinv, hmir⟩
  | cons s xs ih =>
    intro c k w hinv hsym hfit
    obtain ⟨t, ht, hst, hft⟩ := hsym s (List.mem_cons_self _ _)
    subst hst
    obtain ⟨c1, k1, w1, b, p, X, hrun, hinv1, hX, hstate1, hp, hb, hb8, hbits, hval, hrec, hlg,
        hlen1, _⟩ :=
      encodeSymbol_step L f et st dt c k w t hdual hinv ht hft hsum
        (writesWhole_head c _ xs hfit)
    obtain ⟨cf, kf, wf, hrunf, hinvf, hlenf, hdec⟩ := ih c1 k1 w1 hinv1
      (fun s hs => hsym s (List.mem_cons_of_mem _ hs)) (writesWhole_tail c c1 _ xs hrun hfit)
    refine ⟨cf, kf, wf, by simp only [encodeLoop, hrun, bind_ok, hrunf], hinvf,
      by rw [hlenf, hlen1], ?_⟩
    intro df jf af hdinv hmir
    obtain ⟨d1, j1, a1, hdrun, hdinv1, hmir1⟩ := hdec df jf af hdinv hmir
    obtain ⟨hms, hmv, hml⟩ := hmir1
    obtain ⟨d, j, a, hstep, hdinv2, hstate2, hval2, hlen2⟩ :=
      decodeSymbol_step L dt d1 j1 a1 b p X (streamVal c.pStreamStart k w) (t : Int) hb8 hdinv1 hb
        (by rw [hms, hstate1]; ring) hrec hlg (by rw [hmv, hval]) (by omega)
    refine ⟨d, j, a, ?_, hdinv2, ⟨by rw [hstate2, hX], hval2, by omega⟩⟩
    rw [List.length_cons, decodeLoop_succ_last, hdrun, bind_ok]
    simp only [hstep, bind_ok, pure_eq_ok]

theorem tableStep_odd_of (L : Nat) (hL : L = 2 ∨ (4 ≤ L ∧ L ≤ 7)) : tableStep L % 2 = 1 := by
  apply tableStep_odd
  rcases hL with h | h
  · exact Or.inl h
  · exact Or.inr h.1

theorem interval_fits_char (L : Nat) (f : List Nat) (hL : L ≤ 7) (hsum : f.sum = 2 ^ L)
    (t : Nat) (ht : t < f.length) (hft : 1 ≤ f[t]) : intervalStart f t ≤ 127 := by
  have h1 := intervalStart_add_le f t ht
  have h2 : 2 ^ L ≤ 2 ^ 7 := Nat.pow_le_pow_right (by decide) hL
  omega

theorem streamVal_take (stream : List Int) (k bits : Nat) :
    streamVal (stream.take (k + 1)) k bits = streamVal stream k bits := by
  unfold streamVal
  rw [List.take_take, Nat.min_eq_left (Nat.le_succ k), List.getElem?_take]
  simp

/-- The pipeline of the spec on a run without a write split inside a byte or wider than a
byte: the tables are built, the encoder and the decoder run without fault, `dst` is the input,
and the decoder ends in state 0 at the first byte of the stream with no bits left. -/
theorem roundTrip_spec (L : Nat) (f : List Nat) (x : List Int)
    (hL2 : 2 ≤ L) (hL12 : L ≤ 12) (hL3 : L ≠ 3) (hn : f.length ≤ 127)
    (hnT : f.length ≤ 2 ^ L) (hsum : f.sum = 2 ^ L)
    (hcur : ∀ t (ht : t < f.length), 1 ≤ f[t] → intervalStart f t ≤ 127)
    (hx : ∀ s ∈ x, ∃ t, ∃ (ht : t < f.length), s = (t : Int) ∧ 1 ≤ f[t])
    (hfit : writesWholeFor f L x = true) :
    ∃ (enc : EC_encoderContext) (dec : EC_decoderContext),
      roundTrip f L x = Except.ok (enc, dec, x) ∧
      dec.currentState = 0 ∧ dec.buffer = 0 ∧ dec.availableBits = 0 ∧
      1 ≤ enc.numberOfUsedBytes ∧ enc.numberOfUsedBytes ≤ enc.bufferSize ∧
      enc.bufferSize = 2 ^ L := by
  have hodd : tableStep L % 2 = 1 := tableStep_odd L (by omega)
  obtain ⟨et, st, dt, henc, hdec, hdual⟩ := tables_dual L f (List.replicate f.length none)
    (List.replicate (2 ^ L) none) (List.replicate (2 ^ L) none) (by omega) hodd hn hnT hsum
    hcur (by simp) (by simp) (by simp)
  have hfresh : freshEncoder f L = Except.ok (EC_initializeEncoderContext et st L) := by
    simp only [freshEncoder, encoderTables, henc, bind_ok, pure_eq_ok]
  have hfit' : writesWhole (EC_initializeEncoderContext et st L) x = true := by
    unfold writesWholeFor at hfit
    rw [hfresh] at hfit
    exact hfit
  have hpos := Nat.two_pow_pos L
  have hinv0 : EncoderInv L et st (EC_initializeEncoderContext et st L) 0 0 := by
    refine ⟨rfl, rfl, rfl, rfl, rfl, by omega, ?_, ?_, rfl, ?_, ?_, ?_⟩
    · show 0 < (List.replicate (2 ^ L) (0 : Int)).length
      simp
    · show ((2 : Int) ^ L) = (((List.replicate (2 ^ L) (0 : Int)).length : Nat) : Int)
      simp
    · intro i _ hi
      show (List.replicate (2 ^ L) (0 : Int))[i]? = some 0
      rw [List.getElem?_replicate]
      have : i < 2 ^ L := by
        have h2 : i < (List.replicate (2 ^ L) (0 : Int)).length := hi
        simpa using h2
      simp [this]
    · show ((2 : Int) ^ L) ≤ 2 ^ L
      exact le_refl _
    · show ((2 : Int) ^ L) < 2 ^ (L + 1)
      have : (0 : Int) < 2 ^ L := by positivity
      rw [pow_succ]; omega
  obtain ⟨cf, kf, wf, hrun, hinvf, hlenf, hback⟩ :=
    run_roundtrip L f et st dt hsum hdual x _ 0 0 hinv0 hx hfit'
  obtain ⟨_, _, hlogf, hbuff, havailf, hwf, hkf, hbsf, husedf, _, _, _⟩ := hinvf
  have hencode : encodeWith f L x =
      Except.ok { cf with currentState := cf.currentState - 2 ^ L } := by
    simp only [encodeWith, hfresh, bind_ok, EC_encode, hrun, pure_eq_ok, hlogf]
  have hused : ((kf : Int) + 1).toNat = kf + 1 := by omega
  have hinit : EC_initializeDecoderContext { cf with currentState := cf.currentState - 2 ^ L } dt =
      Except.ok
        { decoderTable := dt
          currentState := cf.currentState - 2 ^ L
          tableLog := cf.tableLog
          bufferSize := (kf : Int) + 1
          availableBits := 8 - cf.availableBits
          pStreamStart := cf.pStreamStart.take (kf + 1)
          buffer := (kf : Int) + 1 - 1 } := by
    unfold EC_initializeDecoderContext
    simp only [husedf, hused]
    rw [if_pos (by omega)]
    rfl
  obtain ⟨d, j, a, hdrun, hdinv, hmir⟩ := hback
    { decoderTable := dt
      currentState := cf.currentState - 2 ^ L
      tableLog := cf.tableLog
      bufferSize := (kf : Int) + 1
      availableBits := 8 - cf.availableBits
      pStreamStart := cf.pStreamStart.take (kf + 1)
      buffer := (kf : Int) + 1 - 1 } kf wf
    ⟨rfl, by show (kf : Int) + 1 - 1 = (kf : Int); omega,
      by show 8 - cf.availableBits = (wf : Int); rw [havailf]; omega, hwf,
      by show kf < (cf.pStreamStart.take (kf + 1)).length; rw [List.length_take]; omega⟩
    ⟨rfl, streamVal_take _ _ _, rfl⟩
  obtain ⟨_, hdbuf, hdavail, _, _⟩ := hdinv
  obtain ⟨hms, _, hml⟩ := hmir
  refine ⟨{ cf with currentState := cf.currentState - 2 ^ L }, d, ?_, ?_, ?_, ?_, ?_, ?_, ?_⟩
  · simp only [roundTrip, hencode, bind_ok, decoderTable, hdec, hinit, EC_decode, hdrun,
      pure_eq_ok]
  · rw [hms]
    show ((2 : Int) ^ L) - 2 ^ L = 0
    omega
  · rw [hdbuf]
    have : j = 0 := by omega
    rw [this]; rfl
  · rw [hdavail]
    have : a = 0 := by omega
    rw [this]; rfl
  · show 1 ≤ cf.numberOfUsedBytes
    rw [husedf]; omega
  · show cf.numberOfUsedBytes ≤ cf.bufferSize
    rw [husedf, hbsf]; omega
  · show cf.bufferSize = 2 ^ L
    have hl0 : (EC_initializeEncoderContext et st L).pStreamStart.length = 2 ^ L := by
      show (List.replicate (2 ^ L) (0 : Int)).length = 2 ^ L
      simp
    rw [hbsf, hlenf, hl0]
    push_cast
    rfl

/-! ## A run with a write of nine bits (`tableLog = 9`) -/

theorem spread_cell (L : Nat) (f : List Nat) (S : List Int)
    (hodd : tableStep L % 2 = 1) (hn : f.length ≤ 127) (hsum : f.sum = 2 ^ L)
    (h : spreadSymbols (List.replicate (2 ^ L) none) f (f.length : Int) L =
      Except.ok (S.map some))
    (t j : Nat) (ht : t < f.length) (h1 : intervalStart f t ≤ j)
    (h2 : j < intervalStart f (t + 1)) : S[slot L j]? = some (t : Int) := by
  obtain ⟨S0, hrun, _, hS0⟩ := spreadSymbolsLog_spec L f (List.replicate (2 ^ L) none) hodd hn
    hsum (List.length_replicate _ _)
  have h0 := hS0 t ht j h1 h2
  unfold spreadSymbols at h
  rw [hrun] at h
  simp only [bind_ok, pure_eq_ok] at h
  have hS : S0 = S.map some := Except.ok.inj h
  rw [hS] at h0
  simpa using h0

/-- The tables of the context take no part in `writeToStream`. -/
theorem writeToStream_tables (c : EC_encoderContext) (et : List (Option EC_tableEncoderRecord))
    (st : List (Option EC_stateTableRecord)) (n : Int) :
    writeToStream { c with encoderTable := et, statesTable := st } n =
      (writeToStream c n).map
        (fun c1 => { c1 with encoderTable := et, statesTable := st }) := by
  unfold writeToStream
  dsimp only
  by_cases hsplit : n > c.availableBits
  · rw [if_pos hsplit, if_pos hsplit]
    cases shlByte c.pStreamStart c.buffer c.availableBits with
    | error e => rfl
    | ok s1 =>
      simp only [bind_ok]
      cases lowMask c.availableBits with
      | error e => rfl
      | ok m1 =>
        simp only [bind_ok]
        cases orByte s1 c.buffer (Int.land c.currentState m1) with
        | error e => rfl
        | ok s2 =>
          simp only [bind_ok]
          cases shlByte s2 (c.buffer + 1) (n - c.availableBits) with
          | error e => rfl
          | ok s3 =>
            simp only [bind_ok]
            cases lowMask (n - c.availableBits) with
            | error e => rfl
            | ok m2 =>
              simp only [bind_ok]
              cases orByte s3 (c.buffer + 1) (Int.land c.currentState m2) with
              | error e => rfl
              | ok s4 =>
                simp only [bind_ok]
                cases shr c.currentState (n - c.availableBits) with
                | error e => rfl
                | ok x =>
                  simp only [bind_ok]
                  rfl
  · rw [if_neg hsplit, if_neg hsplit]
    cases shlByte c.pStreamStart c.buffer n with
    | error e => rfl
    | ok s1 =>
      simp only [bind_ok]
      cases lowMask n with
      | error e => rfl
      | ok m1 =>
        simp only [bind_ok]
        cases orByte s1 c.buffer (Int.land c.currentState m1) with
        | error e => rfl
        | ok s2 =>
          simp only [bind_ok]
          cases shr c.currentState n with
          | error e => rfl
          | ok x =>
            simp only [bind_ok]
            rfl

theorem nine_writes_first :
    (writeToStream (EC_initializeEncoderContext [] [] 9) 8).map
      (fun w1 => (w1.currentState, w1.availableBits, w1.buffer, w1.bufferSize)) =
    Except.ok (2, 0, 0, 512) := by
  decide!

theorem nine_writes_second :
    (writeToStream (EC_initializeEncoderContext [] [] 9) 8 >>= fun w1 =>
      writeToStream { w1 with currentState := 780 } 9 >>= fun w2 =>
      pure (w2.currentState, w2.availableBits, w2.numberOfUsedBytes, w2.tableLog)) =
    Except.ok (1, -1, 2, 9) := by
  decide!

theorem nine_writes_stream :
    (writeToStream (EC_initializeEncoderContext [] [] 9) 8 >>= fun w1 =>
      writeToStream { w1 with currentState := 780 } 9 >>= fun w2 =>
      pure (w2.pStreamStart.take 2, w2.pStreamStart.length)) =
    Except.ok ([0, 12], 512) := by
  decide!

/-- The tables of `f = (1, 2, 2, 507)`, `tableLog = 9` (table step 323): the cells that the run
on the input `[2, 0]` reads. -/
theorem nine_tables :
    ∃ (et : List (Option EC_tableEncoderRecord)) (st : List (Option EC_stateTableRecord))
      (dt : List (Option EC_tableDecoderRecord)),
      encoderTables [1, 2, 2, 507] 9 = Except.ok (EC_status.SUCCESS, et, st) ∧
      decoderTable [1, 2, 2, 507] 9 = Except.ok (EC_status.SUCCESS, dt) ∧
      et[0]? = some (some { bitsOut := 9, threshold := 512, offset := -1 }) ∧
      et[2]? = some (some { bitsOut := 8, threshold := 512, offset := 1 }) ∧
      st[0]? = some (some { nextState := 512 }) ∧
      st[3]? = some (some { nextState := 780 }) ∧
      dt[0]? = some (some { symbol := 0, numberOfBits := 9, nextStateBaseline := 0 }) ∧
      ∃ nb base : Int, dt[12]? =
          some (some { symbol := 3, numberOfBits := nb, nextStateBaseline := base }) ∧
        (nb = 0 ∨ nb = 1) := by
  have hodd : tableStep 9 % 2 = 1 := tableStep_odd 9 (Or.inr (by decide))
  have hstart : ∀ t (ht : t < ([1, 2, 2, 507] : List Nat).length),
      1 ≤ ([1, 2, 2, 507] : List Nat)[t] → intervalStart [1, 2, 2, 507] t ≤ 127 := by
    intro t ht _
    have ht3 : t < 4 := ht
    interval_cases t <;> decide
  obtain ⟨S, et, st, hsp, hlenS, _, hcount, henc, _, _, het, hst⟩ :=
    EC_buildEncoderTable_spec 9 [1, 2, 2, 507] (List.replicate 4 none)
      (List.replicate (2 ^ 9) none) (by decide) hodd (by decide) (by decide) hstart
      (List.length_replicate _ _) (List.length_replicate _ _)
  obtain ⟨S', dt, hsp', hdec, _, hdt⟩ :=
    EC_buildDecoderTable_spec 9 [1, 2, 2, 507] (List.replicate (2 ^ 9) none) (by decide) hodd
      (by decide) (by decide) (by decide) (List.length_replicate _ _)
  have hSS : S' = S := by
    rw [hsp] at hsp'
    have := Except.ok.inj hsp'
    exact (map_some_injective this).symm
  subst hSS
  have hc0 : S'[0]? = some ((0 : Nat) : Int) := by
    have h := spread_cell 9 [1, 2, 2, 507] S' hodd (by decide) (by decide) hsp 0 0 (by decide)
      (by decide) (by decide)
    have hs : slot 9 0 = 0 := by decide
    rw [hs] at h
    exact h
  have hc1 : S'[457]? = some ((2 : Nat) : Int) := by
    have h := spread_cell 9 [1, 2, 2, 507] S' hodd (by decide) (by decide) hsp 2 3 (by decide)
      (by decide) (by decide)
    have hs : slot 9 3 = 457 := by decide
    rw [hs] at h
    exact h
  have hc2 : S'[268]? = some ((2 : Nat) : Int) := by
    have h := spread_cell 9 [1, 2, 2, 507] S' hodd (by decide) (by decide) hsp 2 4 (by decide)
      (by decide) (by decide)
    have hs : slot 9 4 = 268 := by decide
    rw [hs] at h
    exact h
  have hc3 : S'[12]? = some ((3 : Nat) : Int) := by
    have h := spread_cell 9 [1, 2, 2, 507] S' hodd (by decide) (by decide) hsp 3 260 (by decide)
      (by decide) (by decide)
    have hs : slot 9 260 = 12 := by decide
    rw [hs] at h
    exact h
  have hrank : (S'.take 268).count ((2 : Nat) : Int) = 0 := by
    have h1 := @count_take_lt Int _ S' ((2 : Nat) : Int) 268 457 (by decide) hc2
    have h2 := @count_take_lt_total Int _ S' ((2 : Nat) : Int) 457 hc1
    have h3 := hcount 2 (by decide)
    have h4 : ([1, 2, 2, 507] : List Nat)[2] = 2 := rfl
    omega
  have hlog1 : Nat.log2 1 = 0 := log2_eq_of_bounds 1 0 (by decide) (by decide)
  have hlog2 : Nat.log2 2 = 1 := log2_eq_of_bounds 2 1 (by decide) (by decide)
  refine ⟨et, st, dt, henc, hdec, ?_, ?_, ?_, ?_, ?_, ?_⟩
  · rw [het 0 (by decide)]
    have h4 : ([1, 2, 2, 507] : List Nat)[0] = 1 := rfl
    rw [h4]
    simp [encoderRecord, hlog1, intervalStart, toChar]
  · rw [het 2 (by decide)]
    have h4 : ([1, 2, 2, 507] : List Nat)[2] = 2 := rfl
    rw [h4]
    simp [encoderRecord, hlog2, intervalStart, toChar]
  · have h := hst 0 (by decide) 0 hc0
    simpa [intervalStart] using h
  · have h := hst 268 (by decide) 2 hc2
    rw [hrank] at h
    simpa [intervalStart] using h
  · have h := hdt 0 (by decide) 0 (by decide) hc0
    rw [h]
    simp [decoderRecord, hlog1]
  · have h := hdt 12 (by decide) 3 (by decide) hc3
    have h4 : ([1, 2, 2, 507] : List Nat)[3] = 507 := rfl
    rw [h4] at h
    have hle : (S'.take 12).count ((3 : Nat) : Int) ≤ 12 := by
      have h5 := @List.count_le_length Int _ ((3 : Nat) : Int) (S'.take 12)
      have h6 := List.length_take_le 12 S'
      omega
    have hlo : 8 ≤ Nat.log2 (507 + (S'.take 12).count ((3 : Nat) : Int)) := by
      rw [Nat.le_log2 (by omega)]
      have : (2 : Nat) ^ 8 = 256 := by decide
      omega
    have hhi : Nat.log2 (507 + (S'.take 12).count ((3 : Nat) : Int)) < 10 := by
      rw [Nat.log2_lt (by omega)]
      have : (2 : Nat) ^ 10 = 1024 := by decide
      omega
    refine ⟨_, _, h, ?_⟩
    show ((9 - Nat.log2 (507 + (S'.take 12).count ((3 : Nat) : Int)) : Nat) : Int) = 0 ∨
      ((9 - Nat.log2 (507 + (S'.take 12).count ((3 : Nat) : Int)) : Nat) : Int) = 1
    omega

theorem writesFitFor_intro (f : List Nat) (L : Nat) (x : List Int) (c : EC_encoderContext)
    (h1 : freshEncoder f L = Except.ok c) (h2 : writesFit c x = true) :
    writesFitFor f L x = true := by
  unfold writesFitFor
  rw [h1]
  exact h2

theorem roundTrip_intro (f : List Nat) (L : Nat) (x : List Int) (enc : EC_encoderContext)
    (dt : List (Option EC_tableDecoderRecord)) (d0 : EC_decoderContext)
    (r : EC_decoderContext × List Int) (h1 : encodeWith f L x = Except.ok enc)
    (h2 : decoderTable f L = Except.ok (EC_status.SUCCESS, dt))
    (h3 : EC_initializeDecoderContext enc dt = Except.ok d0)
    (h4 : EC_decode d0 x.length = Except.ok r) :
    roundTrip f L x = Except.ok (enc, r.1, r.2) := by
  simp only [roundTrip, h1, h2, h3, h4, bind_ok, pure_eq_ok]

theorem writesFit_intro (c c1 : EC_encoderContext) (s : Int) (xs : List Int)
    (record : EC_tableEncoderRecord) (hload : loadInit c.encoderTable s = Except.ok record)
    (hrun : encodeSymbol c s = Except.ok c1)
    (hhead : bitsFor c record ≤ c.availableBits ∨
      (c.availableBits = 0 ∧ c.buffer + 1 < c.bufferSize))
    (htail : writesFit c1 xs = true) : writesFit c (s :: xs) = true := by
  rw [writesFit, hload]
  simp only [hrun, Bool.and_eq_true, Bool.or_eq_true, decide_eq_true_eq]
  exact ⟨hhead, htail⟩

set_option maxRecDepth 8000 in
theorem nine_read_first (dt : List (Option EC_tableDecoderRecord)) :
    readFromStream { decoderTable := dt, tableLog := 9, currentState := 0, bufferSize := 2,
                     availableBits := 9, pStreamStart := [0, 12], buffer := 1 } 9 =
      Except.ok ({ decoderTable := dt, tableLog := 9, currentState := 0, bufferSize := 2,
                   availableBits := 0, pStreamStart := [0, 0], buffer := 1 }, 12) := by
  rfl

set_option maxRecDepth 8000 in
theorem nine_read_zero (dt : List (Option EC_tableDecoderRecord)) :
    readFromStream { decoderTable := dt, tableLog := 9, currentState := 12, bufferSize := 2,
                     availableBits := 0, pStreamStart := [0, 0], buffer := 1 } 0 =
      Except.ok ({ decoderTable := dt, tableLog := 9, currentState := 12, bufferSize := 2,
                   availableBits := 0, pStreamStart := [0, 0], buffer := 1 }, 0) := by
  rfl

set_option maxRecDepth 8000 in
theorem nine_read_one (dt : List (Option EC_tableDecoderRecord)) :
    readFromStream { decoderTable := dt, tableLog := 9, currentState := 12, bufferSize := 2,
                     availableBits := 0, pStreamStart := [0, 0], buffer := 1 } 1 =
      Except.ok ({ decoderTable := dt, tableLog := 9, currentState := 12, bufferSize := 2,
                   availableBits := 7, pStreamStart := [0, 0], buffer := 0 }, 0) := by
  rfl

/-- The run of `tableLog = 9`, `f = (1, 2, 2, 507)` on the input `[2, 0]`: the second symbol is
written as a group of 9 bits into a fresh byte, which keeps 8 of them; no call of
`writeToStream` is split inside a byte, nothing faults, and `dst` is `[3, 0]`. -/
theorem nine_bit_run :
    writesFitFor [1, 2, 2, 507] 9 [2, 0] = true ∧
    ∃ (enc : EC_encoderContext) (dec : EC_decoderContext),
      roundTrip [1, 2, 2, 507] 9 [2, 0] = Except.ok (enc, dec, [3, 0]) ∧
      ((dec.buffer = 1 ∧ dec.availableBits = 0) ∨ (dec.buffer = 0 ∧ dec.availableBits = 7)) := by
  obtain ⟨et, st, dt, henc, hdec, he0, he2, hs0, hs3, hd0, nb, base, hd12, hnb⟩ := nine_tables
  have hl0 := loadInit_nat et 0 _ he0
  have hl2 := loadInit_nat et 2 _ he2
  have hn0 := loadInit_nat st 0 _ hs0
  have hn3 := loadInit_nat st 3 _ hs3
  have hr0 := loadInit_nat dt 0 _ hd0
  have hr12 := loadInit_nat dt 12 _ hd12
  have hfresh : freshEncoder [1, 2, 2, 507] 9 = Except.ok (EC_initializeEncoderContext et st 9) := by
    simp only [freshEncoder, henc, bind_ok, pure_eq_ok]
  cases hw1 : writeToStream (EC_initializeEncoderContext [] [] 9) 8 with
  | error e =>
    have h := nine_writes_first
    rw [hw1] at h
    simp [Except.map] at h
  | ok w1 =>
    have hf1 := nine_writes_first
    rw [hw1] at hf1
    simp only [Except.map, Except.ok.injEq, Prod.mk.injEq] at hf1
    obtain ⟨h1s, h1a, h1b, h1z⟩ := hf1
    cases hw2 : writeToStream { w1 with currentState := 780 } 9 with
    | error e =>
      have h := nine_writes_second
      rw [hw1] at h
      simp only [bind_ok] at h
      rw [hw2] at h
      simp at h
    | ok w2 =>
      have hf2 := nine_writes_second
      rw [hw1] at hf2
      simp only [bind_ok] at hf2
      rw [hw2] at hf2
      simp only [bind_ok, pure_eq_ok, Except.ok.injEq, Prod.mk.injEq] at hf2
      obtain ⟨h2s, h2a, h2u, h2l⟩ := hf2
      have hf3 := nine_writes_stream
      rw [hw1] at hf3
      simp only [bind_ok] at hf3
      rw [hw2] at hf3
      simp only [bind_ok, pure_eq_ok, Except.ok.injEq, Prod.mk.injEq] at hf3
      obtain ⟨h2t, h2n⟩ := hf3
      have hwr1 : writeToStream (EC_initializeEncoderContext et st 9) 8 =
          Except.ok { w1 with encoderTable := et, statesTable := st } := by
        have hframe := writeToStream_tables (EC_initializeEncoderContext [] [] 9) et st 8
        rw [hw1] at hframe
        exact hframe
      have hwr2 :
          writeToStream { w1 with encoderTable := et, statesTable := st, currentState := 780 } 9 =
          Except.ok { w2 with encoderTable := et, statesTable := st } := by
        have hframe := writeToStream_tables { w1 with currentState := 780 } et st 9
        rw [hw2] at hframe
        exact hframe
      have hstep1 : encodeSymbol (EC_initializeEncoderContext et st 9) 2 =
          Except.ok { w1 with encoderTable := et, statesTable := st, currentState := 780 } := by
        unfold encodeSymbol
        have hl : loadInit (EC_initializeEncoderContext et st 9).encoderTable (2 : Int) =
            Except.ok { bitsOut := 8, threshold := 512, offset := 1 } := hl2
        rw [hl]
        dsimp only [bind_ok]
        have hb : (if (EC_initializeEncoderContext et st 9).currentState < (512 : Int)
            then (8 : Int) - 1 else 8) = 8 := rfl
        rw [hb, hwr1]
        dsimp only [bind_ok]
        have hn : loadInit st (w1.currentState + 1) = Except.ok { nextState := 780 } := by
          rw [h1s]
          exact hn3
        rw [hn]
        rfl
      have hstep2 :
          encodeSymbol { w1 with encoderTable := et, statesTable := st, currentState := 780 } 0 =
          Except.ok { w2 with encoderTable := et, statesTable := st, currentState := 512 } := by
        unfold encodeSymbol
        dsimp only
        have hl : loadInit et (0 : Int) =
            Except.ok { bitsOut := 9, threshold := 512, offset := -1 } := hl0
        rw [hl]
        dsimp only [bind_ok]
        have hb : (if (780 : Int) < 512 then (9 : Int) - 1 else 9) = 9 := rfl
        rw [hb, hwr2]
        dsimp only [bind_ok]
        have hn : loadInit st (w2.currentState + -1) = Except.ok { nextState := 512 } := by
          rw [h2s]
          exact hn0
        rw [hn]
        rfl
      have hencode : encodeWith [1, 2, 2, 507] 9 [2, 0] =
          Except.ok { w2 with encoderTable := et, statesTable := st, currentState := 0 } := by
        simp only [encodeWith, hfresh, bind_ok, EC_encode, encodeLoop, hstep1, hstep2,
          pure_eq_ok, h2l]
        rfl
      have hinit : EC_initializeDecoderContext
          { w2 with encoderTable := et, statesTable := st, currentState := 0 } dt =
          Except.ok { decoderTable := dt, tableLog := 9, currentState := 0, bufferSize := 2,
                      availableBits := 9, pStreamStart := [0, 12], buffer := 1 } := by
        unfold EC_initializeDecoderContext
        dsimp only
        rw [h2u, h2n, h2a, h2l]
        have h2 : (2 : Int).toNat = 2 := rfl
        rw [h2, h2t]
        rfl
      have hr0' : loadInit dt (0 : Int) =
          Except.ok { symbol := 0, numberOfBits := 9, nextStateBaseline := 0 } := hr0
      have hr12' : loadInit dt (12 : Int) =
          Except.ok { symbol := 3, numberOfBits := nb, nextStateBaseline := base } := hr12
      have hdstep1 :
          decodeSymbol { decoderTable := dt, tableLog := 9, currentState := 0, bufferSize := 2,
                         availableBits := 9, pStreamStart := [0, 12], buffer := 1 } =
          Except.ok ({ decoderTable := dt, tableLog := 9, currentState := 12, bufferSize := 2,
                       availableBits := 0, pStreamStart := [0, 0], buffer := 1 }, 0) := by
        simp only [decodeSymbol, hr0', bind_ok, nine_read_first, pure_eq_ok]
        rfl
      have hdstep2 : ∃ d2 : EC_decoderContext,
          decodeSymbol { decoderTable := dt, tableLog := 9, currentState := 12, bufferSize := 2,
                         availableBits := 0, pStreamStart := [0, 0], buffer := 1 } =
            Except.ok (d2, 3) ∧
          ((d2.buffer = 1 ∧ d2.availableBits = 0) ∨ (d2.buffer = 0 ∧ d2.availableBits = 7)) := by
        rcases hnb with h | h
        · subst h
          refine ⟨{ decoderTable := dt, tableLog := 9, currentState := base + 0, bufferSize := 2,
                    availableBits := 0, pStreamStart := [0, 0], buffer := 1 }, ?_,
            Or.inl ⟨rfl, rfl⟩⟩
          simp only [decodeSymbol, hr12', bind_ok, nine_read_zero, pure_eq_ok]
        · subst h
          refine ⟨{ decoderTable := dt, tableLog := 9, currentState := base + 0, bufferSize := 2,
                    availableBits := 7, pStreamStart := [0, 0], buffer := 0 }, ?_,
            Or.inr ⟨rfl, rfl⟩⟩
          simp only [decodeSymbol, hr12', bind_ok, nine_read_one, pure_eq_ok]
      obtain ⟨d2, hd2, hfin⟩ := hdstep2
      constructor
      · have hl2' : loadInit (EC_initializeEncoderContext et st 9).encoderTable (2 : Int) =
            Except.ok { bitsOut := 8, threshold := 512, offset := 1 } := hl2
        have hl0' : loadInit et (0 : Int) =
            Except.ok { bitsOut := 9, threshold := 512, offset := -1 } := hl0
        have hfit2 :
            writesFit { w2 with encoderTable := et, statesTable := st, currentState := 512 } [] =
              true := by
          rw [writesFit]
        have hfit1 :
            writesFit { w1 with encoderTable := et, statesTable := st, currentState := 780 } [0] =
              true :=
          writesFit_intro { w1 with encoderTable := et, statesTable := st, currentState := 780 }
            { w2 with encoderTable := et, statesTable := st, currentState := 512 } 0 []
            { bitsOut := 9, threshold := 512, offset := -1 } hl0' hstep2
            (Or.inr ⟨h1a, by show w1.buffer + 1 < w1.bufferSize; rw [h1b, h1z]; decide⟩) hfit2
        have hb0 : bitsFor (EC_initializeEncoderContext et st 9)
            { bitsOut := 8, threshold := 512, offset := 1 } ≤
            (EC_initializeEncoderContext et st 9).availableBits := by
          show (if (2 : Int) ^ 9 < 512 then (8 : Int) - 1 else 8) ≤ 8
          rw [if_neg (by norm_num)]
        have hfit0 : writesFit (EC_initializeEncoderContext et st 9) [2, 0] = true :=
          writesFit_intro (EC_initializeEncoderContext et st 9)
            { w1 with encoderTable := et, statesTable := st, currentState := 780 } 2 [0]
            { bitsOut := 8, threshold := 512, offset := 1 } hl2' hstep1 (Or.inl hb0) hfit1
        exact writesFitFor_intro _ _ _ _ hfresh hfit0
      · have hdecode :
            EC_decode { decoderTable := dt, tableLog := 9, currentState := 0, bufferSize := 2,
                        availableBits := 9, pStreamStart := [0, 12], buffer := 1 }
              ([2, 0] : List Int).length = Except.ok (d2, [3, 0]) := by
          simp only [EC_decode, List.length_cons, List.length_nil, decodeLoop, hdstep1, hd2,
            bind_ok, pure_eq_ok]
          rfl
        exact ⟨_, d2, roundTrip_intro _ _ _ _ _ _ _ hencode hdec hinit hdecode, hfin⟩

/-! ## The properties of the specification -/

theorem support_of_getD (f : List Nat) (x : List Int)
    (hx : ∀ s ∈ x, 0 ≤ s ∧ 1 ≤ f.getD s.toNat 0) :
    ∀ s ∈ x, ∃ t, ∃ (ht : t < f.length), s = (t : Int) ∧ 1 ≤ f[t] := by
  intro s hs
  obtain ⟨h0, h1⟩ := hx s hs
  have hlt : s.toNat < f.length := by
    by_contra hc
    rw [List.getD_eq_default _ _ (by omega)] at h1
    omega
  refine ⟨s.toNat, hlt, by omega, ?_⟩
  rw [List.getD_eq_getElem _ _ hlt] at h1
  exact h1

theorem startBound_of_getD (f : List Nat)
    (hcur : ∀ t, t < f.length → 1 ≤ f.getD t 0 → intervalStart f t ≤ 127) :
    ∀ t (ht : t < f.length), 1 ≤ f[t] → intervalStart f t ≤ 127 := by
  intro t ht h
  apply hcur t ht
  rw [List.getD_eq_getElem _ _ ht]
  exact h

theorem tableLog_ne_three (L : Nat) (hodd : tableStep L % 2 = 1) : L ≠ 3 := by
  intro h
  subst h
  revert hodd
  decide

/-- C1 (as amended): for `tableLog` in `[2, 12]` with an odd table step, at most 127 symbols
and no more than table cells, frequencies that sum to `2^tableLog`, every symbol of positive
frequency with an interval start of at most 127, an input over the symbols of positive
frequency, and an encoding run in which no call of `writeToStream` is split inside a byte or
puts more than 8 bits into a fresh byte: building the tables, encoding, initialising the
decoder from the encoder and decoding `length x` symbols gives `dst = x`. -/
theorem C1_round_trip (L : Nat) (f : List Nat) (x : List Int)
    (hL2 : 2 ≤ L) (hL12 : L ≤ 12) (hodd : tableStep L % 2 = 1) (hn : f.length ≤ 127)
    (hnT : f.length ≤ 2 ^ L) (hsum : f.sum = 2 ^ L)
    (hcur : ∀ t, t < f.length → 1 ≤ f.getD t 0 → intervalStart f t ≤ 127)
    (hx : ∀ s ∈ x, 0 ≤ s ∧ 1 ≤ f.getD s.toNat 0)
    (hfit : writesWholeFor f L x = true) :
    ∃ (enc : EC_encoderContext) (dec : EC_decoderContext),
      roundTrip f L x = Except.ok (enc, dec, x) := by
  obtain ⟨enc, dec, h, _⟩ := roundTrip_spec L f x hL2 hL12 (tableLog_ne_three L hodd) hn hnT
    hsum (startBound_of_getD f hcur) (support_of_getD f x hx) hfit
  exact ⟨enc, dec, h⟩

/-- C1, witness: the input of scenario S2 satisfies the hypotheses. -/
theorem C1_round_trip_witness :
    tableStep 4 % 2 = 1 ∧ ([7, 6, 3] : List Nat).sum = 2 ^ 4 ∧
    writesWholeFor [7, 6, 3] 4 [0, 1, 0, 2, 1, 0, 2, 1, 0, 1, 1, 0, 2, 0, 0, 1] = true ∧
    ∃ (enc : EC_encoderContext) (dec : EC_decoderContext),
      roundTrip [7, 6, 3] 4 [0, 1, 0, 2, 1, 0, 2, 1, 0, 1, 1, 0, 2, 0, 0, 1] =
        Except.ok (enc, dec, [0, 1, 0, 2, 1, 0, 2, 1, 0, 1, 1, 0, 2, 0, 0, 1]) :=
  ⟨by decide, by decide, by decide!,
    C1_round_trip 4 [7, 6, 3] [0, 1, 0, 2, 1, 0, 2, 1, 0, 1, 1, 0, 2, 0, 0, 1]
      (by decide) (by decide) (by decide) (by decide) (by decide) (by decide)
      (by
        intro t ht _
        have ht3 : t < 3 := ht
        interval_cases t <;> decide)
      (by decide) (by decide!)⟩

/-- C1, counterexample.  For `tableLog = 2` and `f = (1, 1, 1, 1)` every symbol takes 2 bits,
and an input of 17 symbols needs more than the `T = 4` bytes of the stream: the encoder steps
behind its buffer and nothing is decoded.  For `tableLog = 4` and `f = (7, 6, 3)` the input
`[1, 2, 2, 0, 1]` is encoded and decoded without fault, and `dst` is `[1, 1, 0, 0, 2]`, not
the input: the fifth symbol is written by a call of `writeToStream` that is split inside a
byte.  For `tableLog = 9` and `f = (1, 2, 2, 507)` (interval starts 0, 1, 3, 5) the input
`[2, 0]` is encoded without a split write and decoded without fault, and `dst` is `[3, 0]`:
the second symbol is written as a group of 9 bits into a fresh byte, which keeps 8 of them.
For `tableLog = 8` and `f = (128, 128)` the second interval starts at 128, the `char` cursor
of the table builder wraps and no table is built; for `tableLog = 7` and 128 symbols of
frequency 1 the `char` symbol counter wraps; and for `tableLog = 3`, whose table step 8 is
even, `f = (4, 4)` leaves cells of the spread table unwritten: in these three cases nothing
is encoded.  And for `tableLog = 2` and the 5 symbols `f = (2, 1, 1, 0, 0)` the decoder table
builder writes behind its work array of `T = 4` cells and nothing is decoded. -/
theorem C1_counterexample :
    ([1, 1, 1, 1] : List Nat).sum = 2 ^ 2 ∧
    roundTrip [1, 1, 1, 1] 2 [0, 1, 2, 3, 0, 1, 2, 3, 0, 1, 2, 3, 0, 1, 2, 3, 0] =
      Except.error Fault.streamOverrun ∧
    ([7, 6, 3] : List Nat).sum = 2 ^ 4 ∧
    (roundTrip [7, 6, 3] 4 [1, 2, 2, 0, 1]).map (fun r => r.2.2) =
      Except.ok [1, 1, 0, 0, 2] ∧
    (¬ ∃ (enc : EC_encoderContext) (dec : EC_decoderContext),
      roundTrip [7, 6, 3] 4 [1, 2, 2, 0, 1] = Except.ok (enc, dec, [1, 2, 2, 0, 1])) ∧
    tableStep 9 % 2 = 1 ∧ ([1, 2, 2, 507] : List Nat).sum = 2 ^ 9 ∧
    writesFitFor [1, 2, 2, 507] 9 [2, 0] = true ∧
    (roundTrip [1, 2, 2, 507] 9 [2, 0]).map (fun r => r.2.2) = Except.ok [3, 0] ∧
    (¬ ∃ (enc : EC_encoderContext) (dec : EC_decoderContext),
      roundTrip [1, 2, 2, 507] 9 [2, 0] = Except.ok (enc, dec, [2, 0])) ∧
    tableStep 8 % 2 = 1 ∧ ([128, 128] : List Nat).sum = 2 ^ 8 ∧
    roundTrip [128, 128] 8 [0] = Except.error Fault.outOfBounds ∧
    tableStep 7 % 2 = 1 ∧ (List.replicate 128 1 : List Nat).sum = 2 ^ 7 ∧
    roundTrip (List.replicate 128 1) 7 [0] = Except.error Fault.outOfBounds ∧
    tableStep 3 % 2 = 0 ∧ ([4, 4] : List Nat).sum = 2 ^ 3 ∧
    roundTrip [4, 4] 3 [0, 1] = Except.error Fault.indeterminate ∧
    ([2, 1, 1, 0, 0] : List Nat).sum = 2 ^ 2 ∧
    roundTrip [2, 1, 1, 0, 0] 2 [0] = Except.error Fault.outOfBounds := by
  have h : (roundTrip [7, 6, 3] 4 [1, 2, 2, 0, 1]).map (fun r => r.2.2) =
      Except.ok [1, 1, 0, 0, 2] := by decide!
  obtain ⟨hfit, enc9, dec9, h9, _⟩ := nine_bit_run
  refine ⟨by decide, by decide!, by decide, h, ?_, by decide, by decide, hfit, ?_, ?_,
    by decide, by decide, by decide!, by decide, by decide!, by decide!, by decide, by decide,
    by decide!, by decide, by decide!⟩
  · rintro ⟨enc, dec, h2⟩
    rw [h2] at h
    simp [Except.map] at h
  · rw [h9]
    rfl
  · rintro ⟨enc, dec, h2⟩
    rw [h2] at h9
    simp at h9
/-- C9 (as amended): under the hypotheses of the amended round trip (`tableLog` in `[2, 12]`
with an odd table step, at most 127 symbols and no more than table cells, frequencies that sum
to `2^tableLog`, every symbol of positive frequency with an interval start of at most 127, an
input over the symbols of positive frequency, no call of `writeToStream` split inside a byte
or putting more than 8 bits into a fresh byte), after `EC_encode`,
`EC_initializeDecoderContext` and `EC_decode` with `dstLength = length x` the decoder's
`currentState` is 0, its read pointer is at the first byte of the stream and `availableBits`
is 0. -/
theorem C9_decoder_final_state (L : Nat) (f : List Nat) (x : List Int)
    (hL2 : 2 ≤ L) (hL12 : L ≤ 12) (hodd : tableStep L % 2 = 1) (hn : f.length ≤ 127)
    (hnT : f.length ≤ 2 ^ L) (hsum : f.sum = 2 ^ L)
    (hcur : ∀ t, t < f.length → 1 ≤ f.getD t 0 → intervalStart f t ≤ 127)
    (hx : ∀ s ∈ x, 0 ≤ s ∧ 1 ≤ f.getD s.toNat 0)
    (hfit : writesWholeFor f L x = true) :
    ∃ (enc : EC_encoderContext) (dec : EC_decoderContext) (dst : List Int),
      roundTrip f L x = Except.ok (enc, dec, dst) ∧
      dec.currentState = 0 ∧ dec.buffer = 0 ∧ dec.availableBits = 0 := by
  obtain ⟨enc, dec, h, h1, h2, h3, _⟩ :=
    roundTrip_spec L f x hL2 hL12 (tableLog_ne_three L hodd) hn hnT hsum
      (startBound_of_getD f hcur) (support_of_getD f x hx) hfit
  exact ⟨enc, dec, x, h, h1, h2, h3⟩

/-- C9, witness: the input of scenario S3 satisfies the hypotheses. -/
theorem C9_decoder_final_state_witness :
    tableStep 4 % 2 = 1 ∧ ([1, 15, 0] : List Nat).sum = 2 ^ 4 ∧
    writesWholeFor [1, 15, 0] 4 [0, 1, 1, 1, 1, 1, 1, 1, 1, 1, 1, 1, 1, 1, 1, 1] = true ∧
    ∃ (enc : EC_encoderContext) (dec : EC_decoderContext) (dst : List Int),
      roundTrip [1, 15, 0] 4 [0, 1, 1, 1, 1, 1, 1, 1, 1, 1, 1, 1, 1, 1, 1, 1] =
        Except.ok (enc, dec, dst) ∧
      dec.currentState = 0 ∧ dec.buffer = 0 ∧ dec.availableBits = 0 :=
  ⟨by decide, by decide, by decide!,
    C9_decoder_final_state 4 [1, 15, 0] [0, 1, 1, 1, 1, 1, 1, 1, 1, 1, 1, 1, 1, 1, 1, 1]
      (by decide) (by decide) (by decide) (by decide) (by decide) (by decide)
      (by
        intro t ht _
        have ht3 : t < 3 := ht
        interval_cases t <;> decide)
      (by decide) (by decide!)⟩

/-- C9, counterexample.  For `tableLog = 2` and `f = (1, 1, 1, 1)` an input of 17 symbols
does not fit the 4 bytes of the stream, the encoder steps behind its buffer and the decoder
reaches no final state.  For `tableLog = 2` and `f = (2, 1, 1)` the input `[1, 1, 1, 0, 1]`,
which has a call of `writeToStream` split inside a byte, is encoded and decoded without
fault, and the decoder ends with `currentState = 1` and `availableBits = 1` (at the first byte
of the stream): neither is 0.  For `tableLog = 9` and `f = (1, 2, 2, 507)` the input `[2, 0]`
is encoded without a split write, its second symbol as a group of 9 bits in a fresh byte, and
decoded without fault, and the decoder ends either at the second byte of the stream or with
`availableBits = 7`.  For `tableLog = 8` and `f = (128, 128)`, for `tableLog = 7` and 128
symbols of frequency 1, and for `tableLog = 3` and `f = (4, 4)` no encoder table is built,
and for `tableLog = 2` and the 5 symbols `f = (2, 1, 1, 0, 0)` no decoder table: the decoder
reaches no final state. -/
theorem C9_counterexample :
    ([1, 1, 1, 1] : List Nat).sum = 2 ^ 2 ∧
    (roundTrip [1, 1, 1, 1] 2 [3, 2, 1, 0, 3, 2, 1, 0, 3, 2, 1, 0, 3, 2, 1, 0, 3]).map
        (fun r => (r.2.1.currentState, r.2.1.buffer, r.2.1.availableBits)) =
      Except.error Fault.streamOverrun ∧
    ([2, 1, 1] : List Nat).sum = 2 ^ 2 ∧
    (roundTrip [2, 1, 1] 2 [1, 1, 1, 0, 1]).map
        (fun r => (r.2.1.currentState, r.2.1.buffer, r.2.1.availableBits)) =
      Except.ok (1, 0, 1) ∧
    tableStep 9 % 2 = 1 ∧ ([1, 2, 2, 507] : List Nat).sum = 2 ^ 9 ∧
    writesFitFor [1, 2, 2, 507] 9 [2, 0] = true ∧
    (∃ (enc : EC_encoderContext) (dec : EC_decoderContext) (dst : List Int),
      roundTrip [1, 2, 2, 507] 9 [2, 0] = Except.ok (enc, dec, dst) ∧
      ((dec.buffer = 1 ∧ dec.availableBits = 0) ∨ (dec.buffer = 0 ∧ dec.availableBits = 7))) ∧
    tableStep 8 % 2 = 1 ∧ ([128, 128] : List Nat).sum = 2 ^ 8 ∧
    (roundTrip [128, 128] 8 [1]).map
        (fun r => (r.2.1.currentState, r.2.1.buffer, r.2.1.availableBits)) =
      Except.error Fault.outOfBounds ∧
    tableStep 7 % 2 = 1 ∧ (List.replicate 128 1 : List Nat).sum = 2 ^ 7 ∧
    (roundTrip (List.replicate 128 1) 7 [1]).map
        (fun r => (r.2.1.currentState, r.2.1.buffer, r.2.1.availableBits)) =
      Except.error Fault.outOfBounds ∧
    tableStep 3 % 2 = 0 ∧ ([4, 4] : List Nat).sum = 2 ^ 3 ∧
    (roundTrip [4, 4] 3 [1, 0]).map
        (fun r => (r.2.1.currentState, r.2.1.buffer, r.2.1.availableBits)) =
      Except.error Fault.indeterminate ∧
    ([2, 1, 1, 0, 0] : List Nat).sum = 2 ^ 2 ∧
    (roundTrip [2, 1, 1, 0, 0] 2 [1]).map
        (fun r => (r.2.1.currentState, r.2.1.buffer, r.2.1.availableBits)) =
      Except.error Fault.outOfBounds := by
  obtain ⟨hfit, enc9, dec9, h9, hfin⟩ := nine_bit_run
  exact ⟨by decide, by decide!, by decide, by decide!, by decide, by decide, hfit,
    ⟨enc9, dec9, _, h9, hfin⟩, by decide, by decide, by decide!, by decide, by decide!,
    by decide!, by decide, by decide, by decide!, by decide, by decide!⟩

/-- C10: scenario S2.  For `tableLog = 4`, `f = (7, 6, 3)` and the 16 symbols of the scenario,
encoding and decoding 16 symbols returns the input, and the encoder has used at most 4 bytes
(it has used 3). -/
theorem C10_scenario_S2 :
    ∃ (enc : EC_encoderContext) (dec : EC_decoderContext),
      roundTrip [7, 6, 3] 4 [0, 1, 0, 2, 1, 0, 2, 1, 0, 1, 1, 0, 2, 0, 0, 1] =
        Except.ok (enc, dec, [0, 1, 0, 2, 1, 0, 2, 1, 0, 1, 1, 0, 2, 0, 0, 1]) ∧
      enc.numberOfUsedBytes = 3 ∧ enc.numberOfUsedBytes ≤ 4 := by
  have h : (roundTrip [7, 6, 3] 4 [0, 1, 0, 2, 1, 0, 2, 1, 0, 1, 1, 0, 2, 0, 0, 1]).map
      (fun r => (r.1.numberOfUsedBytes, r.2.2)) =
      Except.ok (3, [0, 1, 0, 2, 1, 0, 2, 1, 0, 1, 1, 0, 2, 0, 0, 1]) := by decide!
  cases hr : roundTrip [7, 6, 3] 4 [0, 1, 0, 2, 1, 0, 2, 1, 0, 1, 1, 0, 2, 0, 0, 1] with
  | error e =>
    rw [hr] at h
    simp [Except.map] at h
  | ok r =>
    rw [hr] at h
    simp only [Except.map, Except.ok.injEq, Prod.mk.injEq] at h
    obtain ⟨enc, dec, dst⟩ := r
    simp only at h
    refine ⟨enc, dec, ?_, h.1, ?_⟩
    · rw [h.2]
    · rw [h.1]; decide

theorem step_odd_of_ne_three (L : Nat) (h2 : 2 ≤ L) (h3 : L ≠ 3) : tableStep L % 2 = 1 := by
  apply tableStep_odd
  omega

theorem length_le_sum (f : List Nat) (hpos : ∀ v ∈ f, 1 ≤ v) : f.length ≤ f.sum := by
  induction f with
  | nil => simp
  | cons a l ih =>
    have h1 := hpos a (List.mem_cons_self _ _)
    have h2 := ih (fun v hv => hpos v (List.mem_cons_of_mem _ hv))
    simp only [List.length_cons, List.sum_cons]
    omega

theorem getElem_pos_of_forall (f : List Nat) (hpos : ∀ v ∈ f, 1 ≤ v) (t : Nat)
    (ht : t < f.length) : 1 ≤ f[t] :=
  hpos _ (List.getElem_mem ht)

/-- C2 (as amended): for `tableLog` in `[2, 12]` other than 3, at most 127 symbols and
frequencies that sum to `2^tableLog`, `spreadSymbols` performs `2^tableLog` stores, each slot
of `dst` is stored to exactly once, and afterwards each symbol `s` occupies exactly `f(s)`
slots. -/
theorem C2_spreader_exact (L : Nat) (f : List Nat) (dst : List (Option Int))
    (hL2 : 2 ≤ L) (_hL12 : L ≤ 12) (hL3 : L ≠ 3) (hn : f.length ≤ 127)
    (hsum : f.sum = 2 ^ L) (hdst : dst.length = 2 ^ L) :
    ∃ (S : List Int) (log : List Int),
      spreadSymbolsLog dst f (f.length : Int) L = Except.ok (S.map some, log) ∧
      spreadSymbols dst f (f.length : Int) L = Except.ok (S.map some) ∧
      S.length = 2 ^ L ∧ log.length = 2 ^ L ∧
      (∀ p : Nat, p < 2 ^ L → log.count (p : Int) = 1) ∧
      (∀ t (ht : t < f.length), S.count (t : Int) = f[t]) := by
  have hodd := step_odd_of_ne_three L hL2 hL3
  obtain ⟨S, h1, h2, h3, _, h5⟩ := spreadSymbols_spec L f dst hodd hn hsum hdst
  exact ⟨S, _, h1, h2, h3, by simp, fun p hp => slot_count_one L hodd p hp, h5⟩

/-- C2, witness: scenario S4, `f = (5, 5, 6)` and `tableLog = 4`. -/
theorem C2_spreader_exact_witness :
    ∃ (S : List Int) (log : List Int),
      spreadSymbolsLog (List.replicate 16 none) [5, 5, 6] 3 4 = Except.ok (S.map some, log) ∧
      spreadSymbols (List.replicate 16 none) [5, 5, 6] 3 4 = Except.ok (S.map some) ∧
      S.length = 2 ^ 4 ∧ log.length = 2 ^ 4 ∧
      (∀ p : Nat, p < 2 ^ 4 → log.count (p : Int) = 1) ∧
      (∀ t (ht : t < ([5, 5, 6] : List Nat).length), S.count (t : Int) = [5, 5, 6][t]) :=
  C2_spreader_exact 4 [5, 5, 6] (List.replicate 16 none) (by decide) (by decide) (by decide)
    (by decide) (by decide) (by decide)

/-- C2, counterexample: for `tableLog = 3` the step `4 + 1 + 3 = 8` is even; with `f = (8)`
the eight stores of `spreadSymbols` all go to slot 0 and slots 1 to 7 are never written.
For 128 symbols (`tableLog = 7`, all frequencies 1) the `char` counter wraps to -128 and
`frequencies[symbol]` is read out of bounds. -/
theorem C2_counterexample :
    ([8] : List Nat).sum = 2 ^ 3 ∧
    spreadSymbolsLog (List.replicate 8 none) [8] 1 3 =
      Except.ok ([some 0, none, none, none, none, none, none, none], [0, 0, 0, 0, 0, 0, 0, 0]) ∧
    (List.replicate 128 1 : List Nat).sum = 2 ^ 7 ∧
    spreadSymbolsLog (List.replicate 128 none) (List.replicate 128 1) 128 7 =
      Except.error Fault.outOfBounds := by
  refine ⟨by decide, by decide!, by decide!, by decide!⟩

/-- C5 (as amended): for `tableLog` in `[2, 12]` other than 3 (the values with an odd table
step), at most 127 symbols, all frequencies at least 1 and summing to `T = 2^tableLog`, and
every interval start at most 127 (the range of the `char` cursor `position`; this holds for
every such `f` when `tableLog ≤ 7`), `EC_buildEncoderTable` succeeds, and for each symbol `s`
the `f(s)` entries of `nextStateTable` from `interval_start(s)` on are strictly increasing
values in `[T, 2T)`, each of which minus `T` is a slot that the spreader assigned to `s`. -/
theorem C5_state_table_shape (L : Nat) (f : List Nat)
    (dstTable : List (Option EC_tableEncoderRecord))
    (nextStateTable : List (Option EC_stateTableRecord))
    (hL2 : 2 ≤ L) (hL12 : L ≤ 12) (hL3 : L ≠ 3) (hn : f.length ≤ 127)
    (_hpos : ∀ v ∈ f, 1 ≤ v) (hsum : f.sum = 2 ^ L)
    (hcur : ∀ t, t < f.length → intervalStart f t ≤ 127)
    (hl1 : dstTable.length = f.length) (hl2 : nextStateTable.length = 2 ^ L) :
    ∃ (S : List Int) (et : List (Option EC_tableEncoderRecord))
      (st : List (Option EC_stateTableRecord)),
      spreadSymbols (List.replicate (2 ^ L) none) f (f.length : Int) L = Except.ok (S.map some) ∧
      EC_buildEncoderTable dstTable nextStateTable f (f.length : Int) L =
        Except.ok (EC_status.SUCCESS, et, st) ∧
      ∀ t (ht : t < f.length) (j : Nat), j < f[t] →
        ∃ v : Nat, st[intervalStart f t + j]? = some (some { nextState := (v : Int) }) ∧
          2 ^ L ≤ v ∧ v < 2 * 2 ^ L ∧ S[v - 2 ^ L]? = some (t : Int) ∧
          ∀ j', j' < j →
            ∃ v' : Nat, st[intervalStart f t + j']? = some (some { nextState := (v' : Int) }) ∧
              v' < v := by
  obtain ⟨S, et, st, hsp, hlenS, _, hcount, henc, _, _, _, hst⟩ :=
    EC_buildEncoderTable_spec L f dstTable nextStateTable (by omega)
      (step_odd_of_ne_three L hL2 hL3) hn hsum (fun t ht _ => hcur t ht) hl1 hl2
  refine ⟨S, et, st, hsp, henc, ?_⟩
  intro t ht j hj
  obtain ⟨q, hq, hSq, hrank⟩ := exists_rank (t : Int) S j (by rw [hcount t ht]; exact hj)
  rw [hlenS] at hq
  refine ⟨q + 2 ^ L, ?_, by omega, by omega, ?_, ?_⟩
  · have := hst q hq t hSq
    rw [hrank] at this
    rw [this]; push_cast; rfl
  · rw [Nat.add_sub_cancel]; exact hSq
  · intro j' hj'
    obtain ⟨q', hq', hSq', hrank'⟩ := exists_rank (t : Int) S j'
      (by rw [hcount t ht]; omega)
    rw [hlenS] at hq'
    refine ⟨q' + 2 ^ L, ?_, ?_⟩
    · have := hst q' hq' t hSq'
      rw [hrank'] at this
      rw [this]; push_cast; rfl
    · have hlt : q' < q := by
        by_contra hc
        have := count_take_le S (t : Int) (p := q) (q := q') (by omega)
        omega
      omega

/-- C5, witness: `f = (5, 5, 6)` and `tableLog = 4`. -/
theorem C5_state_table_shape_witness :
    ∃ (S : List Int) (et : List (Option EC_tableEncoderRecord))
      (st : List (Option EC_stateTableRecord)),
      spreadSymbols (List.replicate (2 ^ 4) none) [5, 5, 6] 3 4 = Except.ok (S.map some) ∧
      EC_buildEncoderTable (List.replicate 3 none) (List.replicate 16 none) [5, 5, 6] 3 4 =
        Except.ok (EC_status.SUCCESS, et, st) ∧
      ∀ t (ht : t < ([5, 5, 6] : List Nat).length) (j : Nat), j < [5, 5, 6][t] →
        ∃ v : Nat, st[intervalStart [5, 5, 6] t + j]? = some (some { nextState := (v : Int) }) ∧
          2 ^ 4 ≤ v ∧ v < 2 * 2 ^ 4 ∧ S[v - 2 ^ 4]? = some (t : Int) ∧
          ∀ j', j' < j →
            ∃ v' : Nat,
              st[intervalStart [5, 5, 6] t + j']? = some (some { nextState := (v' : Int) }) ∧
              v' < v :=
  C5_state_table_shape 4 [5, 5, 6] (List.replicate 3 none) (List.replicate 16 none)
    (by decide) (by decide) (by decide) (by decide) (by decide) (by decide) (by decide)
    (by decide) (by decide)

/-- C5, counterexample: for `tableLog = 8` (step 163, odd) and `f = (128, 128)` the `char`
cursor `position` wraps to -128 after the first symbol, `intervalBeginIndex[1]` is -128, and
the store to `nextStateTable[-128]` is out of bounds: no table is built. -/
theorem C5_counterexample :
    tableStep 8 % 2 = 1 ∧ ([128, 128] : List Nat).sum = 2 ^ 8 ∧
    EC_buildEncoderTable (List.replicate 2 none) (List.replicate (2 ^ 8) none) [128, 128] 2 8 =
      Except.error Fault.outOfBounds := by
  refine ⟨by decide, by decide, by decide!⟩

/-- C6 (as amended): for `tableLog` in `[2, 12]` other than 3, at most 127 symbols, all
frequencies at least 1 and summing to `T = 2^tableLog`, `EC_buildDecoderTable` succeeds and
every record of its table has `0 ≤ numberOfBits ≤ tableLog`, `nextStateBaseline ≥ 0` and
`nextStateBaseline + 2^numberOfBits − 1 < T`. -/
theorem C6_decoder_table_bounds (L : Nat) (f : List Nat)
    (dstTable : List (Option EC_tableDecoderRecord))
    (hL2 : 2 ≤ L) (hL12 : L ≤ 12) (hL3 : L ≠ 3) (hn : f.length ≤ 127)
    (hpos : ∀ v ∈ f, 1 ≤ v) (hsum : f.sum = 2 ^ L) (hl : dstTable.length = 2 ^ L) :
    ∃ dt : List (Option EC_tableDecoderRecord),
      EC_buildDecoderTable dstTable f (f.length : Int) L = Except.ok (EC_status.SUCCESS, dt) ∧
      dt.length = 2 ^ L ∧
      ∀ p, p < 2 ^ L → ∃ r : EC_tableDecoderRecord, dt[p]? = some (some r) ∧
        0 ≤ r.numberOfBits ∧ r.numberOfBits ≤ (L : Int) ∧ 0 ≤ r.nextStateBaseline ∧
        r.nextStateBaseline + 2 ^ r.numberOfBits.toNat - 1 < 2 ^ L := by
  have hodd := step_odd_of_ne_three L hL2 hL3
  have hnT : f.length ≤ 2 ^ L := by rw [← hsum]; exact length_le_sum f hpos
  obtain ⟨S, _, hsp, hlenS, hcell, hcount⟩ := spreadSymbols_spec L f
    (List.replicate (2 ^ L) none) hodd hn hsum (by simp)
  obtain ⟨S', dt, hsp', hdec, hlen, hdt⟩ :=
    EC_buildDecoderTable_spec L f dstTable (by omega) hodd hn hnT hsum hl
  have hSS : S' = S := by
    rw [hsp] at hsp'
    exact (map_some_injective (Except.ok.inj hsp')).symm
  subst hSS
  refine ⟨dt, hdec, hlen, ?_⟩
  intro p hp
  obtain ⟨t, ht, hft, hSp⟩ := hcell p hp
  have hc : (S'.take p).count (t : Int) < f[t] := by
    rw [← hcount t ht]
    exact count_take_lt_total S' (t : Int) hSp
  have hfle := getElem_le_sum f t ht
  rw [hsum] at hfle
  have hpos2 := Nat.two_pow_pos L
  have hm : f[t] + (S'.take p).count (t : Int) < 2 ^ (L + 1) := by
    rw [pow_succ]; omega
  obtain ⟨hb1, hb2⟩ := mul_pow_log2_bounds (f[t] + (S'.take p).count (t : Int)) L (by omega) hm
  refine ⟨_, hdt p hp t ht hSp, ?_, ?_, ?_, ?_⟩
  · show (0 : Int) ≤ ((L - Nat.log2 (f[t] + (S'.take p).count (t : Int)) : Nat) : Int)
    omega
  · show ((L - Nat.log2 (f[t] + (S'.take p).count (t : Int)) : Nat) : Int) ≤ (L : Int)
    omega
  · show (0 : Int) ≤ ((f[t] + (S'.take p).count (t : Int) : Nat) : Int) *
        2 ^ (L - Nat.log2 (f[t] + (S'.take p).count (t : Int))) - 2 ^ L
    have : ((2 ^ L : Nat) : Int) ≤ ((((f[t] + (S'.take p).count (t : Int)) *
        2 ^ (L - Nat.log2 (f[t] + (S'.take p).count (t : Int))) : Nat)) : Int) := by
      exact_mod_cast hb1
    push_cast at this
    push_cast
    linarith
  · show ((f[t] + (S'.take p).count (t : Int) : Nat) : Int) *
        2 ^ (L - Nat.log2 (f[t] + (S'.take p).count (t : Int))) - 2 ^ L +
        2 ^ (((L - Nat.log2 (f[t] + (S'.take p).count (t : Int)) : Nat) : Int)).toNat - 1 < 2 ^ L
    rw [Int.toNat_natCast]
    have : ((((f[t] + (S'.take p).count (t : Int) + 1) *
        2 ^ (L - Nat.log2 (f[t] + (S'.take p).count (t : Int))) : Nat)) : Int) ≤
        ((2 ^ (L + 1) : Nat) : Int) := by
      exact_mod_cast hb2
    push_cast at this
    push_cast
    rw [pow_succ] at this
    linarith

/-- C6, witness: `f = (5, 5, 6)` and `tableLog = 4`, all 16 records. -/
theorem C6_decoder_table_bounds_witness :
    ∃ dt : List (Option EC_tableDecoderRecord),
      EC_buildDecoderTable (List.replicate 16 none) [5, 5, 6] 3 4 =
        Except.ok (EC_status.SUCCESS, dt) ∧
      dt.length = 2 ^ 4 ∧
      ∀ p, p < 2 ^ 4 → ∃ r : EC_tableDecoderRecord, dt[p]? = some (some r) ∧
        0 ≤ r.numberOfBits ∧ r.numberOfBits ≤ ((4 : Nat) : Int) ∧ 0 ≤ r.nextStateBaseline ∧
        r.nextStateBaseline + 2 ^ r.numberOfBits.toNat - 1 < 2 ^ 4 :=
  C6_decoder_table_bounds 4 [5, 5, 6] (List.replicate 16 none) (by decide) (by decide)
    (by decide) (by decide) (by decide) (by decide) (by decide)

/-- C6, counterexample: for `tableLog = 8` (step 163, odd) and 256 symbols of frequency 1
the `char` counter of the first loop wraps from 127 to -128 and `frequencies[-128]` is read
out of bounds: no table is built. -/
theorem C6_counterexample :
    tableStep 8 % 2 = 1 ∧ (List.replicate 256 1 : List Nat).sum = 2 ^ 8 ∧
    EC_buildDecoderTable (List.replicate (2 ^ 8) none) (List.replicate 256 1) 256 8 =
      Except.error Fault.outOfBounds := by
  refine ⟨by decide, by decide!, by decide!⟩

/-- C7 (as amended): for `tableLog` in `[2, 12]` other than 3, at most 127 symbols, all
frequencies at least 1 and summing to `2^tableLog`, and every interval start at most 127 (the
range of the `char` cursor; this holds for every such `f` when `tableLog ≤ 7`),
`EC_buildEncoderTable` returns `SUCCESS` and writes for each symbol `s` the record
`bitsOut = tableLog − ⌊log2 f(s)⌋`, `threshold = f(s) << bitsOut`,
`offset = (Σ_{t<s} f(t)) − f(s)`. -/
theorem C7_encoder_records (L : Nat) (f : List Nat)
    (dstTable : List (Option EC_tableEncoderRecord))
    (nextStateTable : List (Option EC_stateTableRecord))
    (hL2 : 2 ≤ L) (hL12 : L ≤ 12) (hL3 : L ≠ 3) (hn : f.length ≤ 127)
    (hpos : ∀ v ∈ f, 1 ≤ v) (hsum : f.sum = 2 ^ L)
    (hcur : ∀ t, t < f.length → intervalStart f t ≤ 127)
    (hl1 : dstTable.length = f.length) (hl2 : nextStateTable.length = 2 ^ L) :
    ∃ (et : List (Option EC_tableEncoderRecord)) (st : List (Option EC_stateTableRecord)),
      EC_buildEncoderTable dstTable nextStateTable f (f.length : Int) L =
        Except.ok (EC_status.SUCCESS, et, st) ∧
      ∀ t (ht : t < f.length), Nat.log2 f[t] ≤ L ∧
        et[t]? = some (some
          { bitsOut := (L : Int) - (Nat.log2 f[t] : Int)
            threshold := (f[t] : Int) * 2 ^ (L - Nat.log2 f[t])
            offset := (intervalStart f t : Int) - (f[t] : Int) }) := by
  obtain ⟨S, et, st, _, _, _, _, henc, _, _, het, _⟩ :=
    EC_buildEncoderTable_spec L f dstTable nextStateTable (by omega)
      (step_odd_of_ne_three L hL2 hL3) hn hsum (fun t ht _ => hcur t ht) hl1 hl2
  refine ⟨et, st, henc, ?_⟩
  intro t ht
  have hft := getElem_pos_of_forall f hpos t ht
  have hfle := getElem_le_sum f t ht
  rw [hsum] at hfle
  have hpos2 := Nat.two_pow_pos L
  have hle : Nat.log2 f[t] ≤ L := log2_le_of_lt f[t] L (by omega) (by rw [pow_succ]; omega)
  refine ⟨hle, ?_⟩
  rw [het t ht, toChar_of_range (by omega)
    (by have := hcur t ht; omega)]
  unfold encoderRecord
  rw [if_neg (by omega)]
  have : ((L - Nat.log2 f[t] : Nat) : Int) = (L : Int) - (Nat.log2 f[t] : Int) := by omega
  rw [this]

/-- C7, witness: `f = (7, 6, 3)` and `tableLog = 4`. -/
theorem C7_encoder_records_witness :
    ∃ (et : List (Option EC_tableEncoderRecord)) (st : List (Option EC_stateTableRecord)),
      EC_buildEncoderTable (List.replicate 3 none) (List.replicate 16 none) [7, 6, 3] 3 4 =
        Except.ok (EC_status.SUCCESS, et, st) ∧
      ∀ t (ht : t < ([7, 6, 3] : List Nat).length), Nat.log2 ([7, 6, 3] : List Nat)[t] ≤ 4 ∧
        et[t]? = some (some
          { bitsOut := ((4 : Nat) : Int) - (Nat.log2 ([7, 6, 3] : List Nat)[t] : Int)
            threshold := ((([7, 6, 3] : List Nat)[t] : Nat) : Int) *
              2 ^ (4 - Nat.log2 ([7, 6, 3] : List Nat)[t])
            offset := (intervalStart [7, 6, 3] t : Int) -
              ((([7, 6, 3] : List Nat)[t] : Nat) : Int) }) :=
  C7_encoder_records 4 [7, 6, 3] (List.replicate 3 none) (List.replicate 16 none)
    (by decide) (by decide) (by decide) (by decide) (by decide) (by decide) (by decide)
    (by decide) (by decide)

/-- C7, counterexample: for `tableLog = 8` and `f = (128, 128)` the first loop of
`EC_buildEncoderTable` leaves the `char` cursor at -128 after symbol 0, so the record of
symbol 1 gets `offset = -256`, where the sum of the preceding frequencies minus `f(1)` is
`128 − 128 = 0`; the last loop then stores to `nextStateTable[-128]`, so the call has no
defined result. -/
theorem C7_counterexample :
    ([128, 128] : List Nat).sum = 2 ^ 8 ∧
    EC_buildEncoderTable (List.replicate 2 none) (List.replicate (2 ^ 8) none) [128, 128] 2 8 =
      Except.error Fault.outOfBounds ∧
    encoderRecordLoop [128, 128] 2 8 257 0 0 (List.replicate 2 none) (List.replicate 2 none) =
      Except.ok ([some 0, some (-128)],
        [some { bitsOut := 1, threshold := 256, offset := -128 },
         some { bitsOut := 1, threshold := 256, offset := -256 }]) ∧
    (intervalStart [128, 128] 1 : Int) - 128 = 0 := by
  refine ⟨by decide, by decide!, by decide!, by decide⟩

/-! ### The write pointer -/

theorem shl_cases (a k : Int) :
    (∃ v, shl a k = Except.ok v) ∨ shl a k = Except.error Fault.shiftCount := by
  unfold shl
  by_cases h : 0 ≤ k ∧ k < 32
  · left; exact ⟨_, by rw [if_pos h]⟩
  · right; rw [if_neg h]

theorem shlByte_cases (stream : List Int) (k : Nat) (n : Int) (hk : k < stream.length) :
    (∃ v, shlByte stream (k : Int) n = Except.ok (stream.set k v)) ∨
      shlByte stream (k : Int) n = Except.error Fault.shiftCount := by
  unfold shlByte
  rw [loadByte_nat stream k _ (List.getElem?_eq_getElem hk), bind_ok]
  rcases shl_cases stream[k] n with ⟨v, h⟩ | h
  · left
    exact ⟨_, by rw [h, bind_ok, storeByte_nat stream k _ hk]⟩
  · right; rw [h]; rfl

theorem orByte_ok (stream : List Int) (k : Nat) (x : Int) (hk : k < stream.length) :
    ∃ v, orByte stream (k : Int) x = Except.ok (stream.set k v) := by
  unfold orByte
  rw [loadByte_nat stream k _ (List.getElem?_eq_getElem hk), bind_ok]
  exact ⟨_, storeByte_nat stream k _ hk⟩

/-- Every record of the decoder table needs at most `tableLog` bits and keeps the next state
below the table size. -/
theorem decoderTable_bounds (L : Nat) (f : List Nat)
    (dstTable : List (Option EC_tableDecoderRecord))
    (hL12 : L ≤ 12) (hodd : tableStep L % 2 = 1) (hn : f.length ≤ 127)
    (hpos : ∀ v ∈ f, 1 ≤ v) (hsum : f.sum = 2 ^ L) (hl : dstTable.length = 2 ^ L) :
    ∃ dt : List (Option EC_tableDecoderRecord),
      EC_buildDecoderTable dstTable f (f.length : Int) L = Except.ok (EC_status.SUCCESS, dt) ∧
      dt.length = 2 ^ L ∧
      ∀ p, p < 2 ^ L → ∃ (r : EC_tableDecoderRecord) (nb : Nat), dt[p]? = some (some r) ∧
        r.numberOfBits = (nb : Int) ∧ nb ≤ L ∧ 0 ≤ r.nextStateBaseline ∧
        r.nextStateBaseline + 2 ^ nb - 1 < 2 ^ L := by
  have hnT : f.length ≤ 2 ^ L := by rw [← hsum]; exact length_le_sum f hpos
  obtain ⟨S, _, hsp, hlenS, hcell, hcount⟩ := spreadSymbols_spec L f
    (List.replicate (2 ^ L) none) hodd hn hsum (by simp)
  obtain ⟨S', dt, hsp', hdec, hlen, hdt⟩ :=
    EC_buildDecoderTable_spec L f dstTable (by omega) hodd hn hnT hsum hl
  have hSS : S' = S := by
    rw [hsp] at hsp'
    exact (map_some_injective (Except.ok.inj hsp')).symm
  subst hSS
  refine ⟨dt, hdec, hlen, ?_⟩
  intro p hp
  obtain ⟨t, ht, hft, hSp⟩ := hcell p hp
  have hc : (S'.take p).count (t : Int) < f[t] := by
    rw [← hcount t ht]
    exact count_take_lt_total S' (t : Int) hSp
  have hfle := getElem_le_sum f t ht
  rw [hsum] at hfle
  have hpos2 := Nat.two_pow_pos L
  have hm : f[t] + (S'.take p).count (t : Int) < 2 ^ (L + 1) := by
    rw [pow_succ]; omega
  obtain ⟨hb1, hb2⟩ := mul_pow_log2_bounds (f[t] + (S'.take p).count (t : Int)) L (by omega) hm
  refine ⟨_, L - Nat.log2 (f[t] + (S'.take p).count (t : Int)), hdt p hp t ht hSp, rfl,
    by omega, ?_, ?_⟩
  · show (0 : Int) ≤ ((f[t] + (S'.take p).count (t : Int) : Nat) : Int) *
        2 ^ (L - Nat.log2 (f[t] + (S'.take p).count (t : Int))) - 2 ^ L
    have : ((2 ^ L : Nat) : Int) ≤ ((((f[t] + (S'.take p).count (t : Int)) *
        2 ^ (L - Nat.log2 (f[t] + (S'.take p).count (t : Int))) : Nat)) : Int) := by
      exact_mod_cast hb1
    push_cast at this
    push_cast
    linarith
  · show ((f[t] + (S'.take p).count (t : Int) : Nat) : Int) *
        2 ^ (L - Nat.log2 (f[t] + (S'.take p).count (t : Int))) - 2 ^ L +
        2 ^ (L - Nat.log2 (f[t] + (S'.take p).count (t : Int))) - 1 < 2 ^ L
    have : ((((f[t] + (S'.take p).count (t : Int) + 1) *
        2 ^ (L - Nat.log2 (f[t] + (S'.take p).count (t : Int))) : Nat)) : Int) ≤
        ((2 ^ (L + 1) : Nat) : Int) := by
      exact_mod_cast hb2
    push_cast at this
    push_cast
    rw [pow_succ] at this
    linarith

theorem streamVal_emod_bounds (stream : List Int) (j a n : Nat) :
    0 ≤ streamVal stream j a % 2 ^ n ∧ streamVal stream j a % 2 ^ n < 2 ^ n := by
  have hpos : (0 : Int) < 2 ^ n := by positivity
  exact ⟨Int.emod_nonneg _ (by omega), Int.emod_lt_of_pos _ hpos⟩

theorem loadByte_neg (stream : List Int) (i : Int) (h : i < 0) :
    loadByte stream i = Except.error Fault.streamUnderrun := by
  unfold loadByte
  rw [if_pos h]

theorem loadByte_beyond (stream : List Int) (i : Int) (h0 : 0 ≤ i)
    (h : (stream.length : Int) ≤ i) : loadByte stream i = Except.error Fault.streamOverrun := by
  unfold loadByte
  rw [if_neg (by omega), List.getElem?_eq_none (by omega)]

/-- A call of `readFromStream` for at most 8 bits with `availableBits` in `[0, 8]` returns a
value below `2^n` and keeps `availableBits` in `[0, 8]`, or it faults by reading outside the
stream; it does not fault when the pointer is inside the stream and either the bits are
available in the current byte or there is a previous byte. -/
theorem readFromStream_total (d : EC_decoderContext) (a n : Nat)
    (havail : d.availableBits = (a : Int)) (ha : a ≤ 8) (hn : n ≤ 8) :
    ((∃ e, readFromStream d (n : Int) = Except.error e ∧
        (e = Fault.streamUnderrun ∨ e = Fault.streamOverrun)) ∨
      ∃ (d1 : EC_decoderContext) (r : Int) (a1 : Nat),
        readFromStream d (n : Int) = Except.ok (d1, r) ∧ 0 ≤ r ∧ r < 2 ^ n ∧
        d1.availableBits = (a1 : Int) ∧ a1 ≤ 8 ∧ d1.decoderTable = d.decoderTable ∧
        d1.pStreamStart.length = d.pStreamStart.length ∧
        d.buffer - 1 ≤ d1.buffer ∧ d1.buffer ≤ d.buffer) ∧
    (0 ≤ d.buffer → d.buffer < (d.pStreamStart.length : Int) → (n ≤ a ∨ 1 ≤ d.buffer) →
      ∃ r, readFromStream d (n : Int) = Except.ok r) := by
  by_cases hneg : d.buffer < 0
  · refine ⟨Or.inl ⟨Fault.streamUnderrun, ?_, Or.inl rfl⟩, by intro h; omega⟩
    unfold readFromStream
    by_cases hsplit : (n : Int) > (a : Int)
    · simp only [havail, hsplit, if_true, lowMask_nat a (by omega), bind_ok,
        loadByte_neg _ _ hneg, bind_error]
    · simp only [havail, hsplit, if_false, lowMask_nat n (by omega), bind_ok,
        loadByte_neg _ _ hneg, bind_error]
  · by_cases hbig : (d.pStreamStart.length : Int) ≤ d.buffer
    · refine ⟨Or.inl ⟨Fault.streamOverrun, ?_, Or.inr rfl⟩, by intro _ h; omega⟩
      unfold readFromStream
      by_cases hsplit : (n : Int) > (a : Int)
      · simp only [havail, hsplit, if_true, lowMask_nat a (by omega), bind_ok,
          loadByte_beyond _ _ (by omega) hbig, bind_error]
      · simp only [havail, hsplit, if_false, lowMask_nat n (by omega), bind_ok,
          loadByte_beyond _ _ (by omega) hbig, bind_error]
    · obtain ⟨j, hj⟩ := Int.eq_ofNat_of_zero_le (by omega : 0 ≤ d.buffer)
      have hjlt : j < d.pStreamStart.length := by omega
      by_cases hlen : n ≤ 8 * j + a
      · obtain ⟨d1, j1, a1, hrun, hb1, ha1, ha1', _, hl1, _, _, hdt1, _, _, _, hj1, hj2⟩ :=
          readFromStream_pop d j a n hj havail ha hn hjlt hlen
        obtain ⟨hr0, hr1⟩ := streamVal_emod_bounds d.pStreamStart j a n
        refine ⟨Or.inr ⟨d1, _, a1, hrun, hr0, hr1, ha1, ha1', hdt1, hl1, ?_, ?_⟩,
          fun _ _ _ => ⟨_, hrun⟩⟩
        · rw [hb1, hj]; omega
        · rw [hb1, hj]; omega
      · have hj0 : j = 0 := by omega
        have hna : a < n := by omega
        subst hj0
        refine ⟨Or.inl ⟨Fault.streamUnderrun, ?_, Or.inl rfl⟩, ?_⟩
        · have hsplit : (n : Int) > (a : Int) := by exact_mod_cast hna
          have hb : d.pStreamStart[0]? = some d.pStreamStart[0] :=
            List.getElem?_eq_getElem hjlt
          have hrest : (n : Int) - (a : Int) = ((n - a : Nat) : Int) := by omega
          unfold readFromStream
          simp only [havail, hsplit, if_true, hj, lowMask_nat a (by omega), bind_ok,
            loadByte_nat _ 0 _ hb, hrest, lowMask_nat (n - a) (by omega),
            loadByte_neg _ (((0 : Nat) : Int) - 1) (by decide), bind_error]
        · intro _ _ h
          rcases h with h | h
          · omega
          · rw [hj] at h; omega

/-- One iteration of the decoding loop from a state in `[0, T)` with `availableBits` in
`[0, 8]`, over a table whose records read at most 8 bits and keep the next state below `T`. -/
theorem decodeSymbol_total (L : Nat) (dt : List (Option EC_tableDecoderRecord))
    (d : EC_decoderContext) (a : Nat)
    (hdt : ∀ p, p < 2 ^ L → ∃ (r : EC_tableDecoderRecord) (nb : Nat), dt[p]? = some (some r) ∧
      r.numberOfBits = (nb : Int) ∧ nb ≤ 8 ∧ 0 ≤ r.nextStateBaseline ∧
      r.nextStateBaseline + 2 ^ nb - 1 < 2 ^ L)
    (htab : d.decoderTable = dt) (hs0 : 0 ≤ d.currentState) (hs1 : d.currentState < 2 ^ L)
    (havail : d.availableBits = (a : Int)) (ha : a ≤ 8) :
    ((∃ e, decodeSymbol d = Except.error e ∧
        (e = Fault.streamUnderrun ∨ e = Fault.streamOverrun)) ∨
      ∃ (d1 : EC_decoderContext) (s : Int) (a1 : Nat),
        decodeSymbol d = Except.ok (d1, s) ∧ 0 ≤ d1.currentState ∧ d1.currentState < 2 ^ L ∧
        d1.availableBits = (a1 : Int) ∧ a1 ≤ 8 ∧ d1.decoderTable = dt ∧
        d1.pStreamStart.length = d.pStreamStart.length ∧
        d.buffer - 1 ≤ d1.buffer ∧ d1.buffer ≤ d.buffer) ∧
    (1 ≤ d.buffer → d.buffer < (d.pStreamStart.length : Int) →
      ∃ r, decodeSymbol d = Except.ok r) := by
  obtain ⟨p, hp⟩ := Int.eq_ofNat_of_zero_le hs0
  have hpT : p < 2 ^ L := by
    have : (p : Int) < ((2 ^ L : Nat) : Int) := by rw [← hp]; push_cast; exact hs1
    exact_mod_cast this
  obtain ⟨r, nb, hrec, hnb, hnbL, hb0, hb1⟩ := hdt p hpT
  have hload : loadInit d.decoderTable d.currentState = Except.ok r := by
    rw [htab, hp]; exact loadInit_nat _ _ _ hrec
  obtain ⟨hcases, hsucc⟩ := readFromStream_total d a nb havail ha hnbL
  constructor
  · rcases hcases with ⟨e, he, hk⟩ | ⟨d1, v, a1, hrun, hv0, hv1, ha1, ha1', hdt1, hl1, hj1, hj2⟩
    · left
      refine ⟨e, ?_, hk⟩
      simp only [decodeSymbol, hload, bind_ok, hnb, he, bind_error]
    · right
      refine ⟨{ d1 with currentState := r.nextStateBaseline + v }, r.symbol, a1, ?_, ?_, ?_, ha1,
        ha1', by rw [← htab]; exact hdt1, hl1, hj1, hj2⟩
      · simp only [decodeSymbol, hload, bind_ok, hnb, hrun, pure_eq_ok]
      · show 0 ≤ r.nextStateBaseline + v
        omega
      · show r.nextStateBaseline + v < 2 ^ L
        omega
  · intro h1 h2
    obtain ⟨q, hq⟩ := hsucc (by omega) h2 (Or.inr h1)
    simp only [decodeSymbol, hload, bind_ok, hnb, hq, pure_eq_ok]
    exact ⟨_, rfl⟩

theorem decodeLoop_total (L : Nat) (dt : List (Option EC_tableDecoderRecord))
    (hdt : ∀ p, p < 2 ^ L → ∃ (r : EC_tableDecoderRecord) (nb : Nat), dt[p]? = some (some r) ∧
      r.numberOfBits = (nb : Int) ∧ nb ≤ 8 ∧ 0 ≤ r.nextStateBaseline ∧
      r.nextStateBaseline + 2 ^ nb - 1 < 2 ^ L) :
    ∀ (N : Nat) (d : EC_decoderContext) (a : Nat), d.decoderTable = dt →
      0 ≤ d.currentState → d.currentState < 2 ^ L → d.availableBits = (a : Int) → a ≤ 8 →
      ((∃ e, decodeLoop N d = Except.error e ∧
          (e = Fault.streamUnderrun ∨ e = Fault.streamOverrun)) ∨
        ∃ (d1 : EC_decoderContext) (dst : List Int),
          decodeLoop N d = Except.ok (d1, dst) ∧ 0 ≤ d1.currentState ∧
          d1.currentState < 2 ^ L ∧ 0 ≤ d1.availableBits ∧ d1.availableBits ≤ 8) ∧
      ((N : Int) ≤ d.buffer → d.buffer < (d.pStreamStart.length : Int) →
        ∃ r, decodeLoop N d = Except.ok r) := by
  intro N
  induction N with
  | zero =>
    intro d a _ hs0 hs1 havail ha
    refine ⟨Or.inr ⟨d, [], by simp [decodeLoop], hs0, hs1, by omega, by omega⟩,
      fun _ _ => ⟨(d, []), by simp [decodeLoop]⟩⟩
  | succ N ih =>
    intro d a htab hs0 hs1 havail ha
    obtain ⟨hcases, hsucc⟩ := decodeSymbol_total L dt d a hdt htab hs0 hs1 havail ha
    rcases hcases with ⟨e, he, hk⟩ | ⟨d1, s, a1, hrun, h0, h1, ha1, ha1', hdt1, hl1, hj1, hj2⟩
    · refine ⟨Or.inl ⟨e, by simp only [decodeLoop, he, bind_error], hk⟩, ?_⟩
      intro hN hlt
      obtain ⟨r, hr⟩ := hsucc (by push_cast at hN; omega) hlt
      rw [he] at hr
      simp at hr
    · obtain ⟨hcases2, hsucc2⟩ := ih d1 a1 hdt1 h0 h1 ha1 ha1'
      constructor
      · rcases hcases2 with ⟨e, he, hk⟩ | ⟨d2, dst, hrun2, h20, h21, h22, h23⟩
        · left
          exact ⟨e, by simp only [decodeLoop, hrun, bind_ok, he, bind_error], hk⟩
        · right
          exact ⟨d2, dst ++ [s], by simp only [decodeLoop, hrun, bind_ok, hrun2, pure_eq_ok],
            h20, h21, h22, h23⟩
      · intro hN hlt
        obtain ⟨q, hq⟩ := hsucc2 (by push_cast at hN; omega) (by rw [hl1]; omega)
        simp only [decodeLoop, hrun, bind_ok, hq, pure_eq_ok]
        exact ⟨_, rfl⟩

/-- When every frequency is at least `2^(tableLog − 8)`, every record of the decoder table
reads at most 8 bits. -/
theorem decoderTable_bits (L : Nat) (f : List Nat)
    (dstTable : List (Option EC_tableDecoderRecord))
    (hL12 : L ≤ 12) (hodd : tableStep L % 2 = 1) (hn : f.length ≤ 127)
    (hpos : ∀ v ∈ f, 1 ≤ v) (hbits : ∀ v ∈ f, 2 ^ L ≤ 2 ^ 8 * v) (hsum : f.sum = 2 ^ L)
    (hl : dstTable.length = 2 ^ L) :
    ∃ dt : List (Option EC_tableDecoderRecord),
      EC_buildDecoderTable dstTable f (f.length : Int) L = Except.ok (EC_status.SUCCESS, dt) ∧
      ∀ p, p < 2 ^ L → ∃ (r : EC_tableDecoderRecord) (nb : Nat), dt[p]? = some (some r) ∧
        r.numberOfBits = (nb : Int) ∧ nb ≤ 8 ∧ 0 ≤ r.nextStateBaseline ∧
        r.nextStateBaseline + 2 ^ nb - 1 < 2 ^ L := by
  have hnT : f.length ≤ 2 ^ L := by rw [← hsum]; exact length_le_sum f hpos
  obtain ⟨dt, hdec, _, hdt⟩ := decoderTable_bounds L f dstTable hL12 hodd hn hpos hsum hl
  obtain ⟨S2, _, hsp2, _, hcell, _⟩ := spreadSymbols_spec L f
    (List.replicate (2 ^ L) none) hodd hn hsum (by simp)
  obtain ⟨S3, dt3, hsp3, hdec3, _, hrec3⟩ :=
    EC_buildDecoderTable_spec L f dstTable (by omega) hodd hn hnT hsum hl
  have hS : S3 = S2 := by
    rw [hsp2] at hsp3
    exact (map_some_injective (Except.ok.inj hsp3)).symm
  have hd3 : dt3 = dt := by
    rw [hdec] at hdec3
    have h := Except.ok.inj hdec3
    exact (Prod.mk.inj h).2.symm
  subst hS hd3
  refine ⟨dt3, hdec, ?_⟩
  intro p hp
  obtain ⟨r, nb, hr, hnb, _, hb0, hb1⟩ := hdt p hp
  refine ⟨r, nb, hr, hnb, ?_, hb0, hb1⟩
  obtain ⟨t, ht, hft, hSp⟩ := hcell p hp
  have hrr := hrec3 p hp t ht hSp
  rw [hr] at hrr
  have hre : r = decoderRecord L (t : Int) (f[t] + (S3.take p).count (t : Int)) := by
    simpa using hrr
  have hnb2 : ((L - Nat.log2 (f[t] + (S3.take p).count (t : Int)) : Nat) : Int) = (nb : Int) := by
    rw [← hnb, hre]
    rfl
  have hfb := hbits f[t] (List.getElem_mem _)
  have hlog : L - 8 ≤ Nat.log2 (f[t] + (S3.take p).count (t : Int)) := by
    rw [Nat.le_log2 (by omega)]
    by_cases hL8 : L ≤ 8
    · have : L - 8 = 0 := by omega
      rw [this]
      simp
      omega
    · have hsplit : 2 ^ L = 2 ^ 8 * 2 ^ (L - 8) := by
        rw [← pow_add]; congr 1; omega
      rw [hsplit] at hfb
      have := Nat.le_of_mul_le_mul_left hfb (by decide : 0 < 2 ^ 8)
      omega
  omega

/-- C4 (as amended): for `tableLog` in `[2, 12]` with an odd table step, at most 127 symbols,
all frequencies at least 1 and at least `2^(tableLog − 8)` (so that no record of the table
reads more than 8 bits) and summing to `T = 2^tableLog`, `EC_buildDecoderTable` builds a table
such that for every decoder context over it with `currentState` in `[0, T)` and
`availableBits` in `[0, 8]`, every stream content and every number of steps: `EC_decode`
either stops on a read outside the stream or leaves `currentState` in `[0, T)` and
`availableBits` in `[0, 8]`; and it does not stop when the read pointer is inside the stream
with at least as many bytes before it as there are steps. -/
theorem C4_decoder_state_invariant (L : Nat) (f : List Nat)
    (dstTable : List (Option EC_tableDecoderRecord))
    (hL2 : 2 ≤ L) (hL12 : L ≤ 12) (hodd : tableStep L % 2 = 1) (hn : f.length ≤ 127)
    (hpos : ∀ v ∈ f, 1 ≤ v) (hbits : ∀ v ∈ f, 2 ^ L ≤ 2 ^ 8 * v) (hsum : f.sum = 2 ^ L)
    (hl : dstTable.length = 2 ^ L) :
    ∃ dt : List (Option EC_tableDecoderRecord),
      EC_buildDecoderTable dstTable f (f.length : Int) L = Except.ok (EC_status.SUCCESS, dt) ∧
      ∀ (d : EC_decoderContext) (N : Nat), d.decoderTable = dt →
        0 ≤ d.currentState → d.currentState < 2 ^ L →
        0 ≤ d.availableBits → d.availableBits ≤ 8 →
        ((∃ e, EC_decode d N = Except.error e ∧
            (e = Fault.streamUnderrun ∨ e = Fault.streamOverrun)) ∨
          ∃ (d1 : EC_decoderContext) (dst : List Int),
            EC_decode d N = Except.ok (d1, dst) ∧ 0 ≤ d1.currentState ∧
            d1.currentState < 2 ^ L ∧ 0 ≤ d1.availableBits ∧ d1.availableBits ≤ 8) ∧
        ((N : Int) ≤ d.buffer → d.buffer < (d.pStreamStart.length : Int) →
          ∃ r, EC_decode d N = Except.ok r) := by
  obtain ⟨dt, hdec, hdt⟩ := decoderTable_bits L f dstTable hL12 hodd hn hpos hbits hsum hl
  refine ⟨dt, hdec, ?_⟩
  intro d N htab hs0 hs1 ha0 ha1
  obtain ⟨a, ha⟩ := Int.eq_ofNat_of_zero_le ha0
  exact decodeLoop_total L dt hdt N d a htab hs0 hs1 ha (by omega)

/-- C4, witness: `tableLog = 9` (table step 323) and `f = (256, 256)`, whose records read at
most one bit. -/
theorem C4_decoder_state_invariant_witness :
    tableStep 9 % 2 = 1 ∧ ([256, 256] : List Nat).sum = 2 ^ 9 ∧
    ∃ dt : List (Option EC_tableDecoderRecord),
      EC_buildDecoderTable (List.replicate 512 none) [256, 256] 2 9 =
        Except.ok (EC_status.SUCCESS, dt) ∧
      ∀ (d : EC_decoderContext) (N : Nat), d.decoderTable = dt →
        0 ≤ d.currentState → d.currentState < 2 ^ 9 →
        0 ≤ d.availableBits → d.availableBits ≤ 8 →
        ((∃ e, EC_decode d N = Except.error e ∧
            (e = Fault.streamUnderrun ∨ e = Fault.streamOverrun)) ∨
          ∃ (d1 : EC_decoderContext) (dst : List Int),
            EC_decode d N = Except.ok (d1, dst) ∧ 0 ≤ d1.currentState ∧
            d1.currentState < 2 ^ 9 ∧ 0 ≤ d1.availableBits ∧ d1.availableBits ≤ 8) ∧
        ((N : Int) ≤ d.buffer → d.buffer < (d.pStreamStart.length : Int) →
          ∃ r, EC_decode d N = Except.ok r) :=
  ⟨by decide, by decide,
    C4_decoder_state_invariant 9 [256, 256] (List.replicate 512 none)
      (by decide) (by decide) (by decide) (by decide) (by decide) (by decide) (by decide)
      (List.length_replicate _ _)⟩

/-! ### `tableLog = 9`: a read of nine bits from an empty byte -/

set_option maxRecDepth 8000 in
theorem readFromStream_nine (dt : List (Option EC_tableDecoderRecord)) :
    readFromStream { decoderTable := dt, tableLog := 9, currentState := 0, bufferSize := 3,
                     availableBits := 0, pStreamStart := [0, 0, 0], buffer := 2 } 9 =
      Except.ok ({ decoderTable := dt, tableLog := 9, currentState := 0, bufferSize := 3,
                   availableBits := -1, pStreamStart := [0, 0, 0], buffer := 1 }, 0) := by
  rfl

set_option maxRecDepth 8000 in
theorem readFromStream_negative (dt : List (Option EC_tableDecoderRecord)) :
    readFromStream { decoderTable := dt, tableLog := 9, currentState := 0, bufferSize := 3,
                     availableBits := -1, pStreamStart := [0, 0, 0], buffer := 1 } 9 =
      Except.error Fault.shiftCount := by
  rfl

theorem spread_first_cell (S : List Int)
    (h : spreadSymbols (List.replicate (2 ^ 9) none) [1, 511] ((2 : Nat) : Int) 9 =
      Except.ok (S.map some)) : S[0]? = some ((0 : Nat) : Int) := by
  obtain ⟨S0, hrun, _, hS0⟩ := spreadSymbolsLog_spec 9 [1, 511] (List.replicate (2 ^ 9) none)
    (tableStep_odd 9 (Or.inr (by decide))) (by decide) (by decide) (List.length_replicate _ _)
  have h0 := hS0 0 (by decide) 0 (by decide) (by decide)
  rw [slot_zero] at h0
  have hlen : ([1, 511] : List Nat).length = 2 := rfl
  rw [hlen] at hrun
  unfold spreadSymbols at h
  rw [hrun] at h
  simp only [bind_ok, pure_eq_ok] at h
  have hS : S0 = S.map some := Except.ok.inj h
  rw [hS] at h0
  simpa using h0

/-- The decoder table of `f = (1, 511)`, `tableLog = 9`: the record of state 0 belongs to
symbol 0, reads 9 bits and has the baseline 0. -/
theorem decoderTable_nine :
    ∃ dt : List (Option EC_tableDecoderRecord),
      EC_buildDecoderTable (List.replicate 512 none) [1, 511] 2 9 =
        Except.ok (EC_status.SUCCESS, dt) ∧
      dt[0]? = some (some { symbol := 0, numberOfBits := 9, nextStateBaseline := 0 }) := by
  obtain ⟨S, dt, hsp, hdec, _, hdt⟩ := EC_buildDecoderTable_spec 9 [1, 511]
    (List.replicate 512 none) (by decide) (tableStep_odd 9 (Or.inr (by decide))) (by decide)
    (by decide) (by decide) (List.length_replicate _ _)
  have hS := spread_first_cell S hsp
  have h0 := hdt 0 (by decide) 0 (by decide) hS
  refine ⟨dt, hdec, ?_⟩
  rw [h0]
  have hlog : Nat.log2 1 = 0 := log2_eq_of_bounds 1 0 (by decide) (by decide)
  simp [decoderRecord, hlog]

/-- C4, counterexample: `tableLog = 9` (table step 323, odd), `f = (1, 511)`, a decoder
context over the built table with `currentState = 0`, `availableBits = 0` and the stream
`[0, 0, 0]` read from its last byte.  The first step reads 9 bits from bytes 2 and 1 of the
stream, keeps `currentState = 0` and leaves `availableBits = 8 - 9 = -1`; the second step
evaluates `1 << -1`, so `EC_decode` with `dstLength = 2` has no defined result although both
of its reads would be inside the stream.  And for `tableLog = 7` and 128 symbols of frequency 1
no decoder table is built, the `char` symbol counter of the builder having wrapped. -/
theorem C4_counterexample :
    (tableStep 9 % 2 = 1 ∧ ([1, 511] : List Nat).sum = 2 ^ 9 ∧
      ∃ dt : List (Option EC_tableDecoderRecord),
        EC_buildDecoderTable (List.replicate 512 none) [1, 511] 2 9 =
          Except.ok (EC_status.SUCCESS, dt) ∧
        EC_decode { decoderTable := dt, tableLog := 9, currentState := 0, bufferSize := 3,
                    availableBits := 0, pStreamStart := [0, 0, 0], buffer := 2 } 1 =
          Except.ok ({ decoderTable := dt, tableLog := 9, currentState := 0, bufferSize := 3,
                       availableBits := -1, pStreamStart := [0, 0, 0], buffer := 1 }, [0]) ∧
        EC_decode { decoderTable := dt, tableLog := 9, currentState := 0, bufferSize := 3,
                    availableBits := 0, pStreamStart := [0, 0, 0], buffer := 2 } 2 =
          Except.error Fault.shiftCount) ∧
    tableStep 7 % 2 = 1 ∧ (List.replicate 128 1 : List Nat).sum = 2 ^ 7 ∧
    EC_buildDecoderTable (List.replicate 128 none) (List.replicate 128 1) 128 7 =
      Except.error Fault.outOfBounds := by
  refine ⟨⟨by decide, by decide, ?_⟩, by decide, by decide!, by decide!⟩
  obtain ⟨dt, hdec, h0⟩ := decoderTable_nine
  have hload : loadInit dt (0 : Int) =
      Except.ok { symbol := 0, numberOfBits := 9, nextStateBaseline := 0 } :=
    loadInit_nat dt 0 _ h0
  have hstep1 :
      decodeSymbol { decoderTable := dt, tableLog := 9, currentState := 0, bufferSize := 3,
                     availableBits := 0, pStreamStart := [0, 0, 0], buffer := 2 } =
      Except.ok ({ decoderTable := dt, tableLog := 9, currentState := 0, bufferSize := 3,
                   availableBits := -1, pStreamStart := [0, 0, 0], buffer := 1 }, 0) := by
    simp only [decodeSymbol, hload, bind_ok, readFromStream_nine, pure_eq_ok]
    rfl
  have hstep2 :
      decodeSymbol { decoderTable := dt, tableLog := 9, currentState := 0, bufferSize := 3,
                     availableBits := -1, pStreamStart := [0, 0, 0], buffer := 1 } =
      Except.error Fault.shiftCount := by
    simp only [decodeSymbol, hload, bind_ok, readFromStream_negative, bind_error]
  refine ⟨dt, hdec, ?_, ?_⟩
  · simp only [EC_decode, decodeLoop, hstep1, bind_ok, pure_eq_ok]
    rfl
  · simp only [EC_decode, decodeLoop, hstep1, bind_ok, hstep2, bind_error]

/-- C11: scenario S3.  For `tableLog = 4`, `f = (1, 15, 0)` and the input `A` followed by
fifteen `B`, the encoder record of `A` has `bitsOut = 4`, that of `B` has `bitsOut = 1`, and
encoding and decoding 16 symbols returns the input, `A` at index 0 and `B` at the indices 1
to 15. -/
theorem C11_scenario_S3 :
    (∃ (et : List (Option EC_tableEncoderRecord)) (st : List (Option EC_stateTableRecord))
        (a b : EC_tableEncoderRecord),
      encoderTables [1, 15, 0] 4 = Except.ok (EC_status.SUCCESS, et, st) ∧
      et[0]? = some (some a) ∧ a.bitsOut = 4 ∧ et[1]? = some (some b) ∧ b.bitsOut = 1) ∧
    ∃ (enc : EC_encoderContext) (dec : EC_decoderContext) (dst : List Int),
      roundTrip [1, 15, 0] 4 [0, 1, 1, 1, 1, 1, 1, 1, 1, 1, 1, 1, 1, 1, 1, 1] =
        Except.ok (enc, dec, dst) ∧
      dst = [0, 1, 1, 1, 1, 1, 1, 1, 1, 1, 1, 1, 1, 1, 1, 1] ∧
      dst[0]? = some 0 ∧ ∀ i, 1 ≤ i → i ≤ 15 → dst[i]? = some 1 := by
  constructor
  · have h : (encoderTables [1, 15, 0] 4).map (fun r => r.2.1) =
        Except.ok [some { bitsOut := 4, threshold := 16, offset := -1 },
          some { bitsOut := 1, threshold := 30, offset := -14 }, none] := by decide!
    cases hr : encoderTables [1, 15, 0] 4 with
    | error e => rw [hr] at h; simp [Except.map] at h
    | ok r =>
      obtain ⟨s, et, st⟩ := r
      have hs : (encoderTables [1, 15, 0] 4).map (fun r => r.1) = Except.ok EC_status.SUCCESS := by
        decide!
      rw [hr] at h hs
      simp only [Except.map, Except.ok.injEq] at h hs
      subst h hs
      exact ⟨_, st, _, _, rfl, rfl, rfl, rfl, rfl⟩
  · have h : (roundTrip [1, 15, 0] 4 [0, 1, 1, 1, 1, 1, 1, 1, 1, 1, 1, 1, 1, 1, 1, 1]).map
        (fun r => r.2.2) = Except.ok [0, 1, 1, 1, 1, 1, 1, 1, 1, 1, 1, 1, 1, 1, 1, 1] := by
      decide!
    cases hr : roundTrip [1, 15, 0] 4 [0, 1, 1, 1, 1, 1, 1, 1, 1, 1, 1, 1, 1, 1, 1, 1] with
    | error e => rw [hr] at h; simp [Except.map] at h
    | ok r =>
      obtain ⟨enc, dec, dst⟩ := r
      rw [hr] at h
      simp only [Except.map, Except.ok.injEq] at h
      subst h
      refine ⟨enc, dec, _, rfl, rfl, rfl, ?_⟩
      intro i h1 h15
      interval_cases i <;> rfl

/-- C12: scenario S1.  For `tableLog = 4`, `f = (16, 0, 0)` and the input `A` five times,
`EC_encode` writes no bit (`numberOfUsedBytes = 1`, `availableBits = 8`, so the decoder starts
with `8 − 8 = 0` bits), the normalised final state is 0, and `EC_decode` of length 5 returns
`A` five times. -/
theorem C12_scenario_S1 :
    (encodeWith [16, 0, 0] 4 [0, 0, 0, 0, 0]).map
        (fun c => (c.numberOfUsedBytes, c.availableBits, c.currentState, c.pStreamStart)) =
      Except.ok (1, 8, 0, List.replicate 16 0) ∧
    (encodeWith [16, 0, 0] 4 [0, 0, 0, 0, 0] >>= fun enc =>
      decoderTable [16, 0, 0] 4 >>= fun t =>
      EC_initializeDecoderContext enc t.2 >>= fun dec =>
      pure (t.1, dec.availableBits, dec.currentState)) = Except.ok (EC_status.SUCCESS, 0, 0) ∧
    (roundTrip [16, 0, 0] 4 [0, 0, 0, 0, 0]).map (fun r => r.2.2) =
      Except.ok [0, 0, 0, 0, 0] := by
  refine ⟨by decide!, by decide!, by decide!⟩

/-- C13 (as amended): scenario S4.  For `f = (5, 5, 6)` and `tableLog = 4` the array written
by `spreadSymbols`, read from slot 0 to slot 15, is `[A, B, C, C, A, B, C, A, B, C, A, B, C, A,
B, C]`, and the slots are stored to in the order 0, 13, 10, 7, 4, 1, 14, 11, 8, 5, 2, 15, 12, 9,
6, 3. -/
theorem C13_scenario_S4 :
    spreadSymbols (List.replicate 16 none) [5, 5, 6] 3 4 =
      Except.ok ([0, 1, 2, 2, 0, 1, 2, 0, 1, 2, 0, 1, 2, 0, 1, 2].map some) ∧
    (spreadSymbolsLog (List.replicate 16 none) [5, 5, 6] 3 4).map (fun r => r.2) =
      Except.ok [0, 13, 10, 7, 4, 1, 14, 11, 8, 5, 2, 15, 12, 9, 6, 3] := by
  refine ⟨by decide!, by decide!⟩

/-- C13, counterexample: the array that `spreadSymbols` writes for `f = (5, 5, 6)`,
`tableLog = 4` is not `[A, C, B, A, C, B, A, C, B, A, C, B, A, C, B, C]`; slot 1 is the sixth
slot stored to and holds `B`. -/
theorem C13_counterexample :
    spreadSymbols (List.replicate 16 none) [5, 5, 6] 3 4 ≠
      Except.ok ([0, 2, 1, 0, 2, 1, 0, 2, 1, 0, 2, 1, 0, 2, 1, 2].map some) ∧
    (spreadSymbols (List.replicate 16 none) [5, 5, 6] 3 4).map (fun S => S[1]?) =
      Except.ok (some (some 1)) := by
  refine ⟨by decide!, by decide!⟩

/-- C14 (as amended): the table builders validate nothing.  For every frequency vector and
`tableLog`, whether the frequencies sum to `2^tableLog` or not, a call of
`EC_buildEncoderTable` or of `EC_buildDecoderTable` that returns, returns `SUCCESS`. -/
theorem C14_builders_status (dstTable : List (Option EC_tableEncoderRecord))
    (nextStateTable : List (Option EC_stateTableRecord))
    (decTable : List (Option EC_tableDecoderRecord)) (f : List Nat) (n : Int) (L : Nat) :
    (∀ s et st, EC_buildEncoderTable dstTable nextStateTable f n L = Except.ok (s, et, st) →
      s = EC_status.SUCCESS) ∧
    (∀ s dt, EC_buildDecoderTable decTable f n L = Except.ok (s, dt) →
      s = EC_status.SUCCESS) := by
  constructor
  · intro s et st h
    unfold EC_buildEncoderTable at h
    cases h1 : encoderRecordLoop f n L 257 0 0 (List.replicate n.toNat none) dstTable with
    | error e => simp only [h1, bind_error] at h; exact absurd h (by simp)
    | ok r =>
      simp only [h1, bind_ok] at h
      cases h2 : spreadSymbols (List.replicate ((2 : Int) ^ L).toNat none) f n L with
      | error e => simp only [h2, bind_error] at h; exact absurd h (by simp)
      | ok S =>
        simp only [h2, bind_ok] at h
        cases h3 : nextStateLoop (2 ^ L) S ((2 : Int) ^ L).toNat 0 r.1 nextStateTable with
        | error e => simp only [h3, bind_error] at h; exact absurd h (by simp)
        | ok st1 =>
          simp only [h3, bind_ok, pure_eq_ok, Except.ok.injEq, Prod.mk.injEq] at h
          exact h.1.symm
  · intro s dt h
    unfold EC_buildDecoderTable at h
    cases h1 : beginIndexLoop f n 257 0 (List.replicate ((2 : Int) ^ L).toNat none) with
    | error e => simp only [h1, bind_error] at h; exact absurd h (by simp)
    | ok sbi =>
      simp only [h1, bind_ok] at h
      cases h2 : spreadSymbols (List.replicate ((2 : Int) ^ L).toNat none) f n L with
      | error e => simp only [h2, bind_error] at h; exact absurd h (by simp)
      | ok S =>
        simp only [h2, bind_ok] at h
        cases h3 : decoderRecordLoop L (2 ^ L) S ((2 : Int) ^ L).toNat 0 sbi decTable with
        | error e => simp only [h3, bind_error] at h; exact absurd h (by simp)
        | ok dt1 =>
          simp only [h3, bind_ok, pure_eq_ok, Except.ok.injEq, Prod.mk.injEq] at h
          exact h.1.symm

/-- C14, witness: `EC_buildEncoderTable` returns for `f = (17)`, `tableLog = 4`, and
`EC_buildDecoderTable` returns for `f = (16, 16)`, `tableLog = 4`. -/
theorem C14_builders_status_witness :
    (∃ s et st, EC_buildEncoderTable [none] (List.replicate 16 none) [17] 1 4 =
        Except.ok (s, et, st) ∧ s = EC_status.SUCCESS) ∧
    (∃ s dt, EC_buildDecoderTable (List.replicate 16 none) [16, 16] 2 4 = Except.ok (s, dt) ∧
        s = EC_status.SUCCESS) := by
  constructor
  · cases h : EC_buildEncoderTable [none] (List.replicate 16 none) [17] 1 4 with
    | error e =>
      have h0 : (EC_buildEncoderTable [none] (List.replicate 16 none) [17] 1 4).isOk = true := by
        decide!
      rw [h] at h0
      exact absurd h0 (by simp [Except.isOk, Except.toBool])
    | ok r =>
      exact ⟨r.1, r.2.1, r.2.2, rfl,
        (C14_builders_status [none] (List.replicate 16 none) [] [17] 1 4).1 r.1 r.2.1 r.2.2 h⟩
  · cases h : EC_buildDecoderTable (List.replicate 16 none) [16, 16] 2 4 with
    | error e =>
      have h0 : (EC_buildDecoderTable (List.replicate 16 none) [16, 16] 2 4).isOk = true := by
        decide!
      rw [h] at h0
      exact absurd h0 (by simp [Except.isOk, Except.toBool])
    | ok r =>
      exact ⟨r.1, r.2, rfl,
        (C14_builders_status [] [] (List.replicate 16 none) [16, 16] 2 4).2 r.1 r.2 h⟩

/-- C14, counterexample: the frequencies `(17)` do not sum to `2^4` and
`EC_buildEncoderTable` returns `SUCCESS` for them; the frequencies `(16, 16)` do not sum to
`2^4` and `EC_buildDecoderTable` returns `SUCCESS` for them. -/
theorem C14_counterexample :
    ([17] : List Nat).sum ≠ 2 ^ 4 ∧
    (EC_buildEncoderTable [none] (List.replicate 16 none) [17] 1 4).map (fun r => r.1) =
      Except.ok EC_status.SUCCESS ∧
    ([16, 16] : List Nat).sum ≠ 2 ^ 4 ∧
    (EC_buildDecoderTable (List.replicate 16 none) [16, 16] 2 4).map (fun r => r.1) =
      Except.ok EC_status.SUCCESS := by
  refine ⟨by decide, by decide!, by decide, by decide!⟩

/-! ### Range normalisation -/

theorem minimalValueLoop_spec (src : List Int) :
    ∀ (k i : Nat) (m : Int), i + k = src.length →
      ∃ m1, minimalValueLoop src k (i : Int) m = Except.ok m1 ∧
        (m1 = m ∨ m1 ∈ src.drop i) ∧ m1 ≤ m ∧ ∀ v ∈ src.drop i, m1 ≤ v := by
  intro k
  induction k with
  | zero =>
    intro i m hi
    refine ⟨m, rfl, Or.inl rfl, le_refl _, ?_⟩
    intro v hv
    rw [List.drop_of_length_le (by omega)] at hv
    simp at hv
  | succ k ih =>
    intro i m hi
    have hlt : i < src.length := by omega
    have hload : loadAt src (i : Int) = Except.ok src[i] :=
      loadAt_nat src i _ (List.getElem?_eq_getElem hlt)
    have hcast : (i : Int) + 1 = ((i + 1 : Nat) : Int) := by push_cast; rfl
    obtain ⟨m1, hrun, hmem, hle, hall⟩ := ih (i + 1)
      (if src[i] < m then src[i] else m) (by omega)
    refine ⟨m1, ?_, ?_, ?_, ?_⟩
    · simp only [minimalValueLoop, hload, bind_ok, hcast]
      exact hrun
    · rw [List.drop_eq_getElem_cons hlt]
      rcases hmem with h | h
      · by_cases hc : src[i] < m
        · rw [if_pos hc] at h
          exact Or.inr (by rw [h]; exact List.mem_cons_self _ _)
        · rw [if_neg hc] at h
          exact Or.inl h
      · exact Or.inr (List.mem_cons_of_mem _ h)
    · by_cases hc : src[i] < m
      · rw [if_pos hc] at hle; omega
      · rw [if_neg hc] at hle; exact hle
    · intro v hv
      rw [List.drop_eq_getElem_cons hlt] at hv
      rcases List.mem_cons.1 hv with h | h
      · rw [h]
        by_cases hc : src[i] < m
        · rw [if_pos hc] at hle; exact hle
        · rw [if_neg hc] at hle; omega
      · exact hall v h

theorem reduceLoop_spec (src : List Int) (m : Int) :
    ∀ (k i : Nat) (dst : List Int), i + k = src.length → dst.length = src.length →
      reduceLoop src m k (i : Int) dst =
        Except.ok (dst.take i ++ (src.drop i).map (fun v => toChar (v - m))) := by
  intro k
  induction k with
  | zero =>
    intro i dst hi hd
    rw [List.drop_of_length_le (by omega), List.take_of_length_le (by omega)]
    simp [reduceLoop]
  | succ k ih =>
    intro i dst hi hd
    have hlt : i < src.length := by omega
    have hload : loadAt src (i : Int) = Except.ok src[i] :=
      loadAt_nat src i _ (List.getElem?_eq_getElem hlt)
    have hcast : (i : Int) + 1 = ((i + 1 : Nat) : Int) := by push_cast; rfl
    simp only [reduceLoop, hload, bind_ok, storeAt_nat dst i _ (by omega), hcast]
    rw [ih (i + 1) _ (by omega) (by simp [hd]), take_succ_set_self dst i _ (by omega),
      List.drop_eq_getElem_cons hlt]
    simp only [List.map_cons, List.append_assoc, List.singleton_append]

theorem restoreLoop_spec (src : List Int) (m : Int) :
    ∀ (k i : Nat) (dst : List Int), i + k = src.length → dst.length = src.length →
      restoreLoop src m k (i : Int) dst =
        Except.ok (dst.take i ++ (src.drop i).map (fun v => toChar (v + m))) := by
  intro k
  induction k with
  | zero =>
    intro i dst hi hd
    rw [List.drop_of_length_le (by omega), List.take_of_length_le (by omega)]
    simp [restoreLoop]
  | succ k ih =>
    intro i dst hi hd
    have hlt : i < src.length := by omega
    have hload : loadAt src (i : Int) = Except.ok src[i] :=
      loadAt_nat src i _ (List.getElem?_eq_getElem hlt)
    have hcast : (i : Int) + 1 = ((i + 1 : Nat) : Int) := by push_cast; rfl
    simp only [restoreLoop, hload, bind_ok, storeAt_nat dst i _ (by omega), hcast]
    rw [ih (i + 1) _ (by omega) (by simp [hd]), take_succ_set_self dst i _ (by omega),
      List.drop_eq_getElem_cons hlt]
    simp only [List.map_cons, List.append_assoc, List.singleton_append]

/-- C15: range normalisation round trip.  For every non-empty array `x` of `char` values and
destination arrays of the same length, `EC_normalizeArray` returns `SUCCESS` and stores the
minimum of `x` in `minimalValue` (an element of `x` that no element is below), and
`EC_returnToInitialNorma` applied to its output with that value returns `SUCCESS` and
exactly `x`. -/
theorem C15_normalize_round_trip (x dst dst2 : List Int) (hx : x ≠ [])
    (hchar : ∀ v ∈ x, -128 ≤ v ∧ v ≤ 127) (hd : dst.length = x.length)
    (hd2 : dst2.length = x.length) :
    ∃ (y : List Int) (m : Int),
      EC_normalizeArray x (x.length : Int) dst = Except.ok (EC_status.SUCCESS, y, m) ∧
      m ∈ x ∧ (∀ v ∈ x, m ≤ v) ∧
      EC_returnToInitialNorma y (x.length : Int) dst2 m = Except.ok (EC_status.SUCCESS, x) := by
  obtain ⟨a, t, rfl⟩ := List.exists_cons_of_ne_nil hx
  have hload : loadAt (a :: t) (0 : Int) = Except.ok a := by
    have h := loadAt_nat (a :: t) 0 a (by simp)
    exact h
  obtain ⟨m, hrun, hmem, hle, hall⟩ := minimalValueLoop_spec (a :: t) t.length 1 a
    (by simp; omega)
  have hlen1 : (((a :: t).length : Nat) : Int) - 1 = ((t.length : Nat) : Int) := by
    simp
  have hmem2 : m ∈ a :: t := by
    rcases hmem with h | h
    · rw [h]; exact List.mem_cons_self _ _
    · exact List.mem_cons_of_mem _ (by simpa using h)
  have hall2 : ∀ v ∈ a :: t, m ≤ v := by
    intro v hv
    rcases List.mem_cons.1 hv with h | h
    · rw [h]; exact hle
    · exact hall v (by simpa using h)
  have hred := reduceLoop_spec (a :: t) m (a :: t).length 0 dst (by simp) hd
  have hres := restoreLoop_spec ((a :: t).map (fun v => toChar (v - m))) m (a :: t).length 0
    dst2 (by simp) (by simp [hd2])
  refine ⟨(a :: t).map (fun v => toChar (v - m)), m, ?_, hmem2, hall2, ?_⟩
  · unfold EC_normalizeArray
    simp only [hload, bind_ok, hlen1, Int.toNat_ofNat, pure_eq_ok]
    have h1 : ((1 : Nat) : Int) = 1 := rfl
    rw [h1] at hrun
    rw [hrun]
    simp only [bind_ok]
    have h0 : ((0 : Nat) : Int) = 0 := rfl
    rw [h0] at hred
    rw [hred]
    simp
  · unfold EC_returnToInitialNorma
    simp only [Int.toNat_ofNat]
    have h0 : ((0 : Nat) : Int) = 0 := rfl
    rw [h0] at hres
    rw [hres]
    simp only [bind_ok, pure_eq_ok, List.take_zero, List.nil_append, List.drop_zero,
      List.map_map]
    congr 2
    apply List.ext_getElem?
    intro i
    simp only [List.getElem?_map]
    cases hi : (a :: t)[i]? with
    | none => rfl
    | some v =>
      have hv := hchar v (List.getElem?_mem hi)
      simp only [Option.map_some', Function.comp_apply, Option.some.injEq]
      rw [toChar_add]
      have : v - m + m = v := by omega
      rw [this]
      exact toChar_of_range (by omega) (by omega)

/-- C15, witness: the array `[3, -128, 127, 0]`. -/
theorem C15_normalize_round_trip_witness :
    ∃ (y : List Int) (m : Int),
      EC_normalizeArray [3, -128, 127, 0] (([3, -128, 127, 0] : List Int).length : Int)
        [0, 0, 0, 0] = Except.ok (EC_status.SUCCESS, y, m) ∧
      m ∈ ([3, -128, 127, 0] : List Int) ∧ (∀ v ∈ ([3, -128, 127, 0] : List Int), m ≤ v) ∧
      EC_returnToInitialNorma y (([3, -128, 127, 0] : List Int).length : Int) [0, 0, 0, 0] m =
        Except.ok (EC_status.SUCCESS, [3, -128, 127, 0]) :=
  C15_normalize_round_trip [3, -128, 127, 0] [0, 0, 0, 0] [0, 0, 0, 0] (by decide) (by decide)
    (by decide) (by decide)

/-! ### The threshold rule -/

/-- The record computed by the first loop of `EC_buildEncoderTable` for a symbol of positive
frequency. -/
theorem encoderRecordFor_pos (L fr : Nat) (position : Int) (hL : L ≤ 29) (h0 : fr ≠ 0)
    (hfr : fr < 2 ^ (L + 1)) :
    encoderRecordFor L fr position = Except.ok (some
      { bitsOut := ((L - Nat.log2 fr : Nat) : Int)
        threshold := (fr : Int) * 2 ^ (L - Nat.log2 fr)
        offset := toInt32 (position - (fr : Int)) }) := by
  unfold encoderRecordFor
  have h5 : 2 ^ (L + 1) ≤ 2 ^ 30 := Nat.pow_le_pow_right (by decide) (by omega)
  have h30 : fr < 1073741824 := by omega
  have hle := log2_le_of_lt fr L h0 hfr
  have hb := mul_pow_log2_bounds fr L h0 hfr
  have hbits : toInt32 ((L : Int) - (Nat.log2 fr : Int)) = ((L - Nat.log2 fr : Nat) : Int) := by
    rw [toInt32_of_range (by omega) (by omega)]; omega
  have hthr : toInt32 ((fr : Int) * 2 ^ (L - Nat.log2 fr)) = (fr : Int) * 2 ^ (L - Nat.log2 fr) := by
    have h31 : fr * 2 ^ (L - Nat.log2 fr) ≤ 2 ^ 30 := by
      have h6 : fr * 2 ^ (L - Nat.log2 fr) ≤ (fr + 1) * 2 ^ (L - Nat.log2 fr) :=
        Nat.mul_le_mul_right _ (by omega)
      exact Nat.le_trans h6 (Nat.le_trans hb.2 h5)
    have h31' : (fr : Int) * 2 ^ (L - Nat.log2 fr) ≤ 2 ^ 30 := by exact_mod_cast h31
    have hnn : (0 : Int) ≤ (fr : Int) * 2 ^ (L - Nat.log2 fr) := by positivity
    exact toInt32_of_range (by linarith) (by linarith)
  rw [bitScanReverse_nat fr h0 (by omega)]
  simp only [hbits, shl_nat _ _ (show L - Nat.log2 fr < 32 by omega), bind_ok, hthr, pure_eq_ok]

/-- C19: the threshold rule.  For `tableLog` in `[2, 12]`, a frequency with
`1 ≤ f ≤ T = 2^tableLog` and a state `X` in `[T, 2T)`, the record that
`EC_buildEncoderTable` computes has `bitsOut = tableLog − ⌊log2 f⌋` and
`threshold = f << bitsOut`, and the bit count `b` that `EC_encode` uses (`bitsOut − 1` if
`X < threshold`, else `bitsOut`) is not negative, is `bitsOut − 1` or `bitsOut`, and
`X >> b` lies in `[f, 2 f)`. -/
theorem C19_threshold_rule (L fr X : Nat) (position : Int) (c : EC_encoderContext)
    (_hL2 : 2 ≤ L) (hL12 : L ≤ 12) (hfr : 1 ≤ fr) (hfrT : fr ≤ 2 ^ L) (hX1 : 2 ^ L ≤ X)
    (hX2 : X < 2 * 2 ^ L) (hc : c.currentState = (X : Int)) :
    ∃ (r : EC_tableEncoderRecord) (b Y : Nat),
      encoderRecordFor L fr position = Except.ok (some r) ∧
      r.bitsOut = (L : Int) - (Nat.log2 fr : Int) ∧
      shl (fr : Int) r.bitsOut = Except.ok r.threshold ∧
      bitsFor c r = (b : Int) ∧
      (bitsFor c r = if (X : Int) < r.threshold then r.bitsOut - 1 else r.bitsOut) ∧
      (bitsFor c r = r.bitsOut - 1 ∨ bitsFor c r = r.bitsOut) ∧
      shr c.currentState (bitsFor c r) = Except.ok (Y : Int) ∧ fr ≤ Y ∧ Y < 2 * fr := by
  have hpos := Nat.two_pow_pos L
  have hfr2 : fr < 2 ^ (L + 1) := by rw [pow_succ]; omega
  have hle := log2_le_of_lt fr L (by omega) hfr2
  obtain ⟨b, hbL, hb, hbo, hlo, hhi, _⟩ := threshold_rule L fr X hfr hfrT hX1
    (by rw [pow_succ]; omega)
  have hbf : bitsFor c
      { bitsOut := ((L - Nat.log2 fr : Nat) : Int)
        threshold := (fr : Int) * 2 ^ (L - Nat.log2 fr)
        offset := toInt32 (position - (fr : Int)) } = (b : Int) := by
    unfold bitsFor
    simp only [hc]
    exact hb
  refine ⟨_, b, X / 2 ^ b, encoderRecordFor_pos L fr position (by omega) (by omega) hfr2, ?_, ?_,
    hbf, ?_, ?_, ?_, hlo, hhi⟩
  · show ((L - Nat.log2 fr : Nat) : Int) = (L : Int) - (Nat.log2 fr : Int)
    omega
  · exact shl_nat _ _ (by omega)
  · rw [hbf]
    exact hb.symm
  · rw [hbf]
    show (b : Int) = ((L - Nat.log2 fr : Nat) : Int) - 1 ∨ (b : Int) = ((L - Nat.log2 fr : Nat) : Int)
    rcases hbo with h | h
    · right; rw [h]
    · left; omega
  · rw [hbf, hc, shr_nat _ _ (by omega)]
    congr 1
    push_cast
    rfl

/-- C19, witness: `tableLog = 4`, `f = 6`, the state 17 and a context in that state. -/
theorem C19_threshold_rule_witness :
    ∃ (r : EC_tableEncoderRecord) (b Y : Nat),
      encoderRecordFor 4 6 7 = Except.ok (some r) ∧
      r.bitsOut = ((4 : Nat) : Int) - (Nat.log2 6 : Int) ∧
      shl ((6 : Nat) : Int) r.bitsOut = Except.ok r.threshold ∧
      bitsFor { EC_initializeEncoderContext [] [] 4 with currentState := 17 } r = (b : Int) ∧
      (bitsFor { EC_initializeEncoderContext [] [] 4 with currentState := 17 } r =
        if ((17 : Nat) : Int) < r.threshold then r.bitsOut - 1 else r.bitsOut) ∧
      (bitsFor { EC_initializeEncoderContext [] [] 4 with currentState := 17 } r = r.bitsOut - 1 ∨
        bitsFor { EC_initializeEncoderContext [] [] 4 with currentState := 17 } r = r.bitsOut) ∧
      shr { EC_initializeEncoderContext [] [] 4 with currentState := 17 }.currentState
        (bitsFor { EC_initializeEncoderContext [] [] 4 with currentState := 17 } r) =
          Except.ok (Y : Int) ∧ 6 ≤ Y ∧ Y < 2 * 6 :=
  C19_threshold_rule 4 6 17 7 { EC_initializeEncoderContext [] [] 4 with currentState := 17 }
    (by decide) (by decide) (by decide) (by decide) (by decide) (by decide) rfl

/-! ### The fields after a call of `writeToStream` -/

/-- What a call of `writeToStream` that returns leaves in the context: in the split branch
the state is shifted by the bits of the second part only. -/
theorem writeToStream_fields (c c1 : EC_encoderContext) (n : Int)
    (h : writeToStream c n = Except.ok c1) :
    c1.bufferSize = c.bufferSize ∧ c1.encoderTable = c.encoderTable ∧
    c1.statesTable = c.statesTable ∧ c1.tableLog = c.tableLog ∧
    ((n > c.availableBits ∧ c1.availableBits = 8 - (n - c.availableBits) ∧
        c1.buffer = c.buffer + 1 ∧ c1.numberOfUsedBytes = c.numberOfUsedBytes + 1 ∧
        shr c.currentState (n - c.availableBits) = Except.ok c1.currentState) ∨
      (n ≤ c.availableBits ∧ c1.availableBits = c.availableBits - n ∧
        c1.buffer = c.buffer ∧ c1.numberOfUsedBytes = c.numberOfUsedBytes ∧
        shr c.currentState n = Except.ok c1.currentState)) := by
  unfold writeToStream at h
  by_cases hsplit : n > c.availableBits
  · simp only [hsplit, if_true] at h
    cases h1 : shlByte c.pStreamStart c.buffer c.availableBits with
    | error e => simp [h1] at h
    | ok s1 =>
      simp only [h1, bind_ok] at h
      cases h2 : lowMask c.availableBits with
      | error e => simp [h2] at h
      | ok m1 =>
        simp only [h2, bind_ok] at h
        cases h3 : orByte s1 c.buffer (Int.land c.currentState m1) with
        | error e => simp [h3] at h
        | ok s2 =>
          simp only [h3, bind_ok] at h
          cases h4 : shlByte s2 (c.buffer + 1) (n - c.availableBits) with
          | error e => simp [h4] at h
          | ok s3 =>
            simp only [h4, bind_ok] at h
            cases h5 : lowMask (n - c.availableBits) with
            | error e => simp [h5] at h
            | ok m2 =>
              simp only [h5, bind_ok] at h
              cases h6 : orByte s3 (c.buffer + 1) (Int.land c.currentState m2) with
              | error e => simp [h6] at h
              | ok s4 =>
                simp only [h6, bind_ok] at h
                cases h7 : shr c.currentState (n - c.availableBits) with
                | error e => simp [h7] at h
                | ok x =>
                  simp only [h7, bind_ok, pure_eq_ok, Except.ok.injEq] at h
                  subst h
                  exact ⟨rfl, rfl, rfl, rfl, Or.inl ⟨hsplit, rfl, rfl, rfl, rfl⟩⟩
  · simp only [hsplit, if_false] at h
    cases h1 : shlByte c.pStreamStart c.buffer n with
    | error e => simp [h1] at h
    | ok s1 =>
      simp only [h1, bind_ok] at h
      cases h2 : lowMask n with
      | error e => simp [h2] at h
      | ok m1 =>
        simp only [h2, bind_ok] at h
        cases h3 : orByte s1 c.buffer (Int.land c.currentState m1) with
        | error e => simp [h3] at h
        | ok s2 =>
          simp only [h3, bind_ok] at h
          cases h7 : shr c.currentState n with
          | error e => simp [h7] at h
          | ok x =>
            simp only [h7, bind_ok, pure_eq_ok, Except.ok.injEq] at h
            subst h
            exact ⟨rfl, rfl, rfl, rfl, Or.inr ⟨by omega, rfl, rfl, rfl, rfl⟩⟩

/-- A call of `writeToStream` reduces the free bit positions of the stream by the number of
bits, in both branches. -/
theorem writeToStream_freeBits (c c1 : EC_encoderContext) (n : Int)
    (h : writeToStream c n = Except.ok c1) : freeBits c1 = freeBits c - n := by
  obtain ⟨hs, _, _, _, hcase⟩ := writeToStream_fields c c1 n h
  unfold freeBits
  rcases hcase with ⟨_, ha, hb, _, _⟩ | ⟨_, ha, hb, _, _⟩
  · rw [hs, ha, hb]; ring
  · rw [hs, ha, hb]; ring

/-- C16, the code at the failing input: with `tableLog = 2` and `f = (2, 1, 1)`, after the
symbols `[0, 1, 1, 1]` the context has `currentState = 6`, `availableBits = 1` and 25 free bit
positions, and `EC_encode` calls `writeToStream` with 2 bits for the next symbol 1.  The call
is split across two bytes; it takes 2 bit positions (23 are left) and leaves
`currentState = 3`, which is `6 >> 1`, where `6 >> 2` is 1. -/
theorem C16_split_write_state :
    (freshEncoder [2, 1, 1] 2 >>= fun c0 => encodeLoop c0 [0, 1, 1, 1] >>= fun c =>
      loadInit c.encoderTable 1 >>= fun record =>
      pure (bitsFor c record, c.currentState, c.availableBits, freeBits c)) =
        Except.ok (2, 6, 1, 25) ∧
    (freshEncoder [2, 1, 1] 2 >>= fun c0 => encodeLoop c0 [0, 1, 1, 1] >>= fun c =>
      writeToStream c 2 >>= fun c1 =>
      pure (c1.currentState, c1.availableBits, freeBits c1)) = Except.ok (3, 7, 23) ∧
    shr 6 2 = Except.ok 1 ∧ shr 6 1 = Except.ok 3 := by
  refine ⟨by decide!, by decide!, by decide, by decide⟩

/-! ### Sequences of writes -/

theorem shlByte_ok (stream : List Int) (k : Nat) (n : Int) (hk : k < stream.length)
    (hn : 0 ≤ n ∧ n < 32) : ∃ v, shlByte stream (k : Int) n = Except.ok (stream.set k v) := by
  rcases shlByte_cases stream k n hk with h | h
  · exact h
  · exfalso
    unfold shlByte at h
    rw [loadByte_nat stream k _ (List.getElem?_eq_getElem hk), bind_ok] at h
    unfold shl at h
    rw [if_pos hn, bind_ok, storeByte_nat stream k _ hk] at h
    exact absurd h (by simp)

theorem lowMask_ok (n : Int) (hn : 0 ≤ n ∧ n < 32) : ∃ v, lowMask n = Except.ok v := by
  unfold lowMask shl
  rw [if_pos hn]
  exact ⟨_, rfl⟩

theorem shr_ok (a n : Int) (hn : 0 ≤ n ∧ n < 32) : ∃ v, shr a n = Except.ok v := by
  unfold shr
  rw [if_pos hn]
  exact ⟨_, rfl⟩

/-- A call of `writeToStream` with a width in `[0, 32)` on a context with `availableBits` in
`[0, 8]` returns when the byte under the pointer, and for a split write the next byte, are
inside the stream. -/
theorem writeToStream_ok (c : EC_encoderContext) (k : Nat) (n : Int)
    (hbuf : c.buffer = (k : Int)) (ha0 : 0 ≤ c.availableBits) (ha8 : c.availableBits ≤ 8)
    (hn0 : 0 ≤ n) (hn : n < 32) (hk : k < c.pStreamStart.length)
    (hk1 : n ≤ c.availableBits ∨ k + 1 < c.pStreamStart.length) :
    ∃ c1, writeToStream c n = Except.ok c1 ∧
      c1.pStreamStart.length = c.pStreamStart.length := by
  have hb1 : (k : Int) + 1 = ((k + 1 : Nat) : Int) := by push_cast; rfl
  unfold writeToStream
  by_cases hsplit : n > c.availableBits
  · have hk2 : k + 1 < c.pStreamStart.length := by
      rcases hk1 with h | h
      · omega
      · exact h
    simp only [hsplit, if_true, hbuf, hb1]
    obtain ⟨v1, h1⟩ := shlByte_ok c.pStreamStart k c.availableBits hk ⟨ha0, by omega⟩
    obtain ⟨m1, h2⟩ := lowMask_ok c.availableBits ⟨ha0, by omega⟩
    obtain ⟨v2, h3⟩ := orByte_ok (c.pStreamStart.set k v1) k (Int.land c.currentState m1)
      (by simpa using hk)
    simp only [h1, bind_ok, h2, h3, List.set_set]
    obtain ⟨v3, h4⟩ := shlByte_ok (c.pStreamStart.set k v2) (k + 1) (n - c.availableBits)
      (by simpa using hk2) ⟨by omega, by omega⟩
    obtain ⟨m2, h5⟩ := lowMask_ok (n - c.availableBits) ⟨by omega, by omega⟩
    obtain ⟨v4, h6⟩ := orByte_ok ((c.pStreamStart.set k v2).set (k + 1) v3) (k + 1)
      (Int.land c.currentState m2) (by simpa using hk2)
    obtain ⟨x, h7⟩ := shr_ok c.currentState (n - c.availableBits) ⟨by omega, by omega⟩
    simp only [h4, bind_ok, h5, h6, h7, pure_eq_ok]
    exact ⟨_, rfl, by simp⟩
  · simp only [hsplit, if_false, hbuf]
    obtain ⟨v1, h1⟩ := shlByte_ok c.pStreamStart k n hk ⟨hn0, hn⟩
    obtain ⟨m1, h2⟩ := lowMask_ok n ⟨hn0, hn⟩
    obtain ⟨v2, h3⟩ := orByte_ok (c.pStreamStart.set k v1) k (Int.land c.currentState m1)
      (by simpa using hk)
    obtain ⟨x, h7⟩ := shr_ok c.currentState n ⟨hn0, hn⟩
    simp only [h1, bind_ok, h2, h3, h7, pure_eq_ok]
    exact ⟨_, rfl, by simp⟩

/-- The bookkeeping of a sequence of writes of at most 8 bits each. -/
theorem writeAll_bookkeeping :
    ∀ (ws : List (Int × Int)) (c : EC_encoderContext) (k : Nat), c.buffer = (k : Int) →
      0 ≤ c.availableBits → c.availableBits ≤ 8 → (∀ w ∈ ws, 0 ≤ w.1 ∧ w.1 ≤ 8) →
      (∀ c1, writeAll c ws = Except.ok c1 →
        0 ≤ c1.availableBits ∧ c1.availableBits ≤ 8 ∧
        c1.numberOfUsedBytes - c1.buffer = c.numberOfUsedBytes - c.buffer) ∧
      (k + ws.length < c.pStreamStart.length → ∃ c1, writeAll c ws = Except.ok c1) := by
  intro ws
  induction ws with
  | nil =>
    intro c k _ ha0 ha8 _
    refine ⟨?_, fun _ => ⟨c, rfl⟩⟩
    intro c1 h
    have hc : c = c1 := Except.ok.inj h
    subst hc
    exact ⟨ha0, ha8, rfl⟩
  | cons w ws ih =>
    intro c k hbuf ha0 ha8 hw
    obtain ⟨n, v⟩ := w
    have hn := hw (n, v) (List.mem_cons_self _ _)
    have hrest : ∀ w ∈ ws, 0 ≤ w.1 ∧ w.1 ≤ 8 := fun w h => hw w (List.mem_cons_of_mem _ h)
    have step : ∀ c1, writeToStream { c with currentState := v } n = Except.ok c1 →
        0 ≤ c1.availableBits ∧ c1.availableBits ≤ 8 ∧
        c1.numberOfUsedBytes - c1.buffer = c.numberOfUsedBytes - c.buffer ∧
        ∃ k1 : Nat, c1.buffer = (k1 : Int) ∧ k1 ≤ k + 1 := by
      intro c1 h1
      obtain ⟨_, _, _, _, hcase⟩ := writeToStream_fields _ c1 n h1
      rcases hcase with ⟨hs, ha, hb, hu, _⟩ | ⟨hs, ha, hb, hu, _⟩
      · have ha' : c1.availableBits = 8 - (n - c.availableBits) := ha
        have hb' : c1.buffer = c.buffer + 1 := hb
        have hu' : c1.numberOfUsedBytes = c.numberOfUsedBytes + 1 := hu
        have hs' : n > c.availableBits := hs
        refine ⟨by omega, by omega, by omega, k + 1, ?_, le_refl _⟩
        rw [hb', hbuf]; push_cast; rfl
      · have ha' : c1.availableBits = c.availableBits - n := ha
        have hb' : c1.buffer = c.buffer := hb
        have hu' : c1.numberOfUsedBytes = c.numberOfUsedBytes := hu
        have hs' : n ≤ c.availableBits := hs
        exact ⟨by omega, by omega, by omega, k, by rw [hb', hbuf], by omega⟩
    constructor
    · intro c2 h
      simp only [writeAll] at h
      cases h1 : writeToStream { c with currentState := v } n with
      | error e => simp [h1] at h
      | ok c1 =>
        simp only [h1, bind_ok] at h
        obtain ⟨h10, h18, hu1, k1, hk1, _⟩ := step c1 h1
        obtain ⟨h2, _⟩ := ih c1 k1 hk1 h10 h18 hrest
        obtain ⟨h20, h28, hu2⟩ := h2 c2 h
        exact ⟨h20, h28, by omega⟩
    · intro hlen
      simp only [List.length_cons] at hlen
      obtain ⟨c1, h1, hl1⟩ := writeToStream_ok { c with currentState := v } k n hbuf ha0 ha8
        hn.1 (by omega) (show k < c.pStreamStart.length by omega)
        (Or.inr (show k + 1 < c.pStreamStart.length by omega))
      obtain ⟨h10, h18, _, k1, hk1, hk1le⟩ := step c1 h1
      obtain ⟨_, h3⟩ := ih c1 k1 hk1 h10 h18 hrest
      have hl1' : c1.pStreamStart.length = c.pStreamStart.length := hl1
      obtain ⟨c2, h2⟩ := h3 (by omega)
      exact ⟨c2, by simp only [writeAll, h1, bind_ok]; exact h2⟩

/-- C20 (as amended): starting from a context produced by `EC_initializeEncoderContext`,
after any sequence of `writeToStream` calls with widths in `[0, 8]` (any `tableLog`, any
tables, any states) that returns, `availableBits` is in `[0, 8]` and `numberOfUsedBytes` is
the index of the current byte plus one; and a sequence of fewer than `2^tableLog` such calls
returns. -/
theorem C20_writer_bookkeeping (L : Nat) (et : List (Option EC_tableEncoderRecord))
    (st : List (Option EC_stateTableRecord)) (ws : List (Int × Int))
    (hw : ∀ w ∈ ws, 0 ≤ w.1 ∧ w.1 ≤ 8) :
    (∀ c, writeAll (EC_initializeEncoderContext et st L) ws = Except.ok c →
      0 ≤ c.availableBits ∧ c.availableBits ≤ 8 ∧ c.numberOfUsedBytes = c.buffer + 1) ∧
    (ws.length < 2 ^ L → ∃ c, writeAll (EC_initializeEncoderContext et st L) ws = Except.ok c) := by
  obtain ⟨h1, h2⟩ := writeAll_bookkeeping ws (EC_initializeEncoderContext et st L) 0 rfl
    (by show (0 : Int) ≤ 8; omega) (by show (8 : Int) ≤ 8; omega) hw
  constructor
  · intro c hc
    obtain ⟨ha0, ha8, hu⟩ := h1 c hc
    have hu' : c.numberOfUsedBytes - c.buffer = 1 - 0 := hu
    exact ⟨ha0, ha8, by omega⟩
  · intro hlen
    apply h2
    show 0 + ws.length < (List.replicate (2 ^ L) (0 : Int)).length
    simp
    exact hlen

/-- C20, witness: four writes of 3, 8, 0 and 5 bits on a fresh context of `tableLog = 2`. -/
theorem C20_writer_bookkeeping_witness :
    (∀ c, writeAll (EC_initializeEncoderContext [] [] 2) [(3, 5), (8, 255), (0, 9), (5, 17)] =
        Except.ok c →
      0 ≤ c.availableBits ∧ c.availableBits ≤ 8 ∧ c.numberOfUsedBytes = c.buffer + 1) ∧
    (([(3, 5), (8, 255), (0, 9), (5, 17)] : List (Int × Int)).length < 2 ^ 2 →
      ∃ c, writeAll (EC_initializeEncoderContext [] [] 2) [(3, 5), (8, 255), (0, 9), (5, 17)] =
        Except.ok c) :=
  C20_writer_bookkeeping 2 [] [] [(3, 5), (8, 255), (0, 9), (5, 17)] (by decide)

/-- C20, counterexample: on a fresh context of `tableLog = 9` a write of 8 bits fills the
first byte, and a following write of 9 bits (a width in `[0, tableLog]`) leaves
`availableBits = 8 − 9 = −1`. -/
theorem C20_counterexample :
    (writeAll (EC_initializeEncoderContext [] [] 9) [(8, 0), (9, 128)]).map
      (fun c => (c.availableBits, c.buffer, c.numberOfUsedBytes)) = Except.ok (-1, 1, 2) := by
  decide!

/-! ### Writes read back -/

theorem writesUnsplit_cons (c c1 : EC_encoderContext) (n v : Int) (ws : List (Int × Int))
    (hrun : writeToStream { c with currentState := v } n = Except.ok c1)
    (h : writesUnsplit c ((n, v) :: ws) = true) :
    (n ≤ c.availableBits ∨ (c.availableBits = 0 ∧ c.buffer + 1 < c.bufferSize)) ∧
      writesUnsplit c1 ws = true := by
  rw [writesUnsplit] at h
  simp only [hrun, Bool.and_eq_true, Bool.or_eq_true, decide_eq_true_eq] at h
  exact h

/-- A sequence of writes none of which is split inside a byte pushes the low bits of each
state onto the stream. -/
theorem writeAll_push :
    ∀ (ws : List (Nat × Int)) (c : EC_encoderContext) (k w : Nat),
      c.buffer = (k : Int) → c.availableBits = 8 - (w : Int) → w ≤ 8 →
      k < c.pStreamStart.length → c.bufferSize = (c.pStreamStart.length : Int) →
      (∀ i, k < i → i < c.pStreamStart.length → c.pStreamStart[i]? = some 0) →
      (∀ x ∈ ws, x.1 ≤ 8) →
      writesUnsplit c (ws.map (fun x => ((x.1 : Int), x.2))) = true →
      ∃ (c1 : EC_encoderContext) (k1 w1 : Nat),
        writeAll c (ws.map (fun x => ((x.1 : Int), x.2))) = Except.ok c1 ∧
        c1.buffer = (k1 : Int) ∧ c1.availableBits = 8 - (w1 : Int) ∧ w1 ≤ 8 ∧
        k1 < c1.pStreamStart.length ∧
        c1.numberOfUsedBytes - c1.buffer = c.numberOfUsedBytes - c.buffer ∧
        c1.tableLog = c.tableLog ∧
        8 * k1 + w1 = 8 * k + w + (ws.map (fun x => x.1)).sum ∧
        streamVal c1.pStreamStart k1 w1 =
          ws.foldl (fun V x => V * 2 ^ x.1 + x.2 % 2 ^ x.1) (streamVal c.pStreamStart k w) := by
  intro ws
  induction ws with
  | nil =>
    intro c k w hbuf havail hw hk _ _ _ _
    exact ⟨c, k, w, rfl, hbuf, havail, hw, hk, rfl, rfl, by simp, rfl⟩
  | cons x ws ih =>
    intro c k w hbuf havail hw hk hsize hzero hx hfit
    obtain ⟨n, v⟩ := x
    have hn : n ≤ 8 := hx (n, v) (List.mem_cons_self _ _)
    have hrest : ∀ x ∈ ws, x.1 ≤ 8 := fun x h => hx x (List.mem_cons_of_mem _ h)
    simp only [List.map_cons] at hfit ⊢
    have hfit0 : (n : Int) ≤ c.availableBits ∨
        (c.availableBits = 0 ∧ c.buffer + 1 < c.bufferSize) := by
      rw [writesUnsplit] at hfit
      simp only [Bool.and_eq_true, Bool.or_eq_true, decide_eq_true_eq] at hfit
      exact hfit.1
    have hfit1 : w + n ≤ 8 ∨ (w = 8 ∧ k + 1 < c.pStreamStart.length) := by
      rcases hfit0 with h | ⟨h1, h2⟩
      · left; omega
      · right
        refine ⟨by omega, ?_⟩
        rw [hbuf, hsize] at h2
        exact_mod_cast h2
    obtain ⟨c1, k1, w1, hrun, _, hb1, ha1, hw1, hk1, hl1, hbits, hval, hz1, _, _, htl, hs1, hu1⟩ :=
      writeToStream_push { c with currentState := v } k w n hbuf havail hw hn hk hzero hfit1
    obtain ⟨_, hfit2⟩ := writesUnsplit_cons c c1 n v _ hrun hfit
    have hs1' : c1.bufferSize = (c1.pStreamStart.length : Int) := by
      have e1 : c1.bufferSize = c.bufferSize := hs1
      have e2 : c1.pStreamStart.length = c.pStreamStart.length := hl1
      rw [e1, e2, hsize]
    obtain ⟨c2, k2, w2, hrun2, hb2, ha2, hw2, hk2, hu2, htl2, hbits2, hval2⟩ :=
      ih c1 k1 w1 hb1 ha1 hw1 hk1 hs1' hz1 hrest hfit2
    refine ⟨c2, k2, w2, ?_, hb2, ha2, hw2, hk2, ?_, ?_, ?_, ?_⟩
    · simp only [writeAll, hrun, bind_ok]
      exact hrun2
    · have hu1' : c1.numberOfUsedBytes - c1.buffer = c.numberOfUsedBytes - c.buffer := hu1
      omega
    · rw [htl2]; exact htl
    · simp only [List.map_cons, List.sum_cons]
      omega
    · rw [hval2, hval]
      rfl

/-- Reading the widths of `ws` in reverse order pops the values that the writes pushed. -/
theorem readAll_pop :
    ∀ (ws : List (Nat × Int)) (d : EC_decoderContext) (j a : Nat) (V : Int),
      d.buffer = (j : Int) → d.availableBits = (a : Int) → a ≤ 8 →
      j < d.pStreamStart.length → (∀ x ∈ ws, x.1 ≤ 8) →
      (ws.map (fun x => x.1)).sum ≤ 8 * j + a →
      streamVal d.pStreamStart j a =
        ws.foldl (fun V x => V * 2 ^ x.1 + x.2 % 2 ^ x.1) V →
      ∃ d1, readAll d (ws.reverse.map (fun x => (x.1 : Int))) =
        Except.ok (d1, ws.reverse.map (fun x => x.2 % 2 ^ x.1)) := by
  intro ws
  induction ws using List.reverseRecOn with
  | nil =>
    intro d j a V _ _ _ _ _ _ _
    exact ⟨d, rfl⟩
  | append_singleton ws x ih =>
    intro d j a V hbuf havail ha hj hx hsum hval
    obtain ⟨n, v⟩ := x
    have hn : n ≤ 8 := hx (n, v) (by simp)
    have hrest : ∀ x ∈ ws, x.1 ≤ 8 := fun x h => hx x (by simp [h])
    simp only [List.map_append, List.map_cons, List.map_nil, List.sum_append, List.sum_cons,
      List.sum_nil, Nat.add_zero] at hsum
    simp only [List.foldl_append, List.foldl_cons, List.foldl_nil] at hval
    obtain ⟨d1, j1, a1, hrun, hb1, ha1, ha1', hj1, _, hbits, hval1, _⟩ :=
      readFromStream_pop d j a n hbuf havail ha hn hj (by omega)
    have hpos : (0 : Int) < 2 ^ n := by positivity
    have hv0 : 0 ≤ v % 2 ^ n := Int.emod_nonneg _ (by omega)
    have hv1 : v % 2 ^ n < 2 ^ n := Int.emod_lt_of_pos _ hpos
    have hmod : streamVal d.pStreamStart j a % 2 ^ n = v % 2 ^ n := by
      rw [hval, Int.add_comm, Int.add_mul_emod_self, Int.emod_emod_of_dvd _ (dvd_refl _)]
    have hdiv : streamVal d.pStreamStart j a / 2 ^ n =
        ws.foldl (fun V x => V * 2 ^ x.1 + x.2 % 2 ^ x.1) V := by
      rw [hval, Int.add_comm, Int.add_mul_ediv_right _ _ (by omega),
        Int.ediv_eq_zero_of_lt hv0 hv1, Int.zero_add]
    obtain ⟨d2, hrun2⟩ := ih d1 j1 a1 V hb1 ha1 ha1' hj1 hrest (by omega) (by rw [hval1, hdiv])
    refine ⟨d2, ?_⟩
    simp only [List.reverse_append, List.reverse_cons, List.reverse_nil, List.nil_append,
      List.singleton_append, List.map_cons, readAll, hrun, bind_ok, hmod]
    rw [hrun2]
    rfl

/-- C17 (as amended): bit-stream mirror symmetry for writes that are not split inside a byte.
For every sequence of writes with widths `0 ≤ n_i ≤ 8` and states `v_i` performed by
`writeToStream` on a fresh encoder context, in which each call either fits the free bits of
the current byte or finds the current byte full and a further byte in the stream, a decoder
context created by `EC_initializeDecoderContext` and read with `readFromStream` using the
widths in reverse order returns `v_k mod 2^{n_k}, …, v_1 mod 2^{n_1}` in that order. -/
theorem C17_stream_mirror (L : Nat) (ws : List (Nat × Int)) (hw : ∀ x ∈ ws, x.1 ≤ 8)
    (hfit : writesUnsplit (EC_initializeEncoderContext [] [] L)
      (ws.map (fun x => ((x.1 : Int), x.2))) = true) :
    writeThenRead L (ws.map (fun x => ((x.1 : Int), x.2))) =
      Except.ok (ws.reverse.map (fun x => x.2 % 2 ^ x.1)) := by
  have hpos := Nat.two_pow_pos L
  have hlen0 : (EC_initializeEncoderContext [] [] L).pStreamStart.length = 2 ^ L := by
    show (List.replicate (2 ^ L) (0 : Int)).length = 2 ^ L
    simp
  obtain ⟨c1, k1, w1, hrun, hb1, ha1, hw1, hk1, hu1, _, hbits, hval⟩ :=
    writeAll_push ws (EC_initializeEncoderContext [] [] L) 0 0 rfl rfl (by omega)
      (by rw [hlen0]; exact hpos)
      (by
        show ((2 : Int) ^ L) = (((List.replicate (2 ^ L) (0 : Int)).length : Nat) : Int)
        simp)
      (by
        intro i _ hi
        show (List.replicate (2 ^ L) (0 : Int))[i]? = some 0
        rw [List.getElem?_replicate]
        have : i < 2 ^ L := by rw [← hlen0]; exact hi
        simp [this])
      hw hfit
  have hV0 : streamVal (EC_initializeEncoderContext [] [] L).pStreamStart 0 0 = 0 := by
    unfold streamVal
    simp [bytesVal]
  rw [hV0] at hval
  have hused : c1.numberOfUsedBytes = (k1 : Int) + 1 := by
    have h : c1.numberOfUsedBytes - c1.buffer = 1 - 0 := hu1
    omega
  have hinit : EC_initializeDecoderContext c1 [] = Except.ok
      { decoderTable := []
        currentState := c1.currentState
        tableLog := c1.tableLog
        bufferSize := c1.numberOfUsedBytes
        availableBits := 8 - c1.availableBits
        pStreamStart := c1.pStreamStart.take (k1 + 1)
        buffer := c1.numberOfUsedBytes - 1 } := by
    unfold EC_initializeDecoderContext
    have h1 : c1.numberOfUsedBytes.toNat = k1 + 1 := by rw [hused]; omega
    simp only [h1]
    rw [if_pos (by omega)]
    rfl
  obtain ⟨d1, hread⟩ := readAll_pop ws
    { decoderTable := []
      currentState := c1.currentState
      tableLog := c1.tableLog
      bufferSize := c1.numberOfUsedBytes
      availableBits := 8 - c1.availableBits
      pStreamStart := c1.pStreamStart.take (k1 + 1)
      buffer := c1.numberOfUsedBytes - 1 } k1 w1 0
    (show c1.numberOfUsedBytes - 1 = (k1 : Int) by omega)
    (show 8 - c1.availableBits = (w1 : Int) by omega) hw1
    (show k1 < (c1.pStreamStart.take (k1 + 1)).length by
      rw [List.length_take]; omega)
    hw (by omega)
    (show streamVal (c1.pStreamStart.take (k1 + 1)) k1 w1 = _ by
      rw [streamVal_take, hval])
  have hwidths : (ws.map (fun x => ((x.1 : Int), x.2))).reverse.map Prod.fst =
      ws.reverse.map (fun x => (x.1 : Int)) := by
    rw [← List.map_reverse, List.map_map]
    rfl
  unfold writeThenRead
  simp only [hrun, bind_ok, hinit, hwidths, hread, pure_eq_ok]

/-- C17, witness: writes of 3, 5, 8, 0 and 2 bits on a fresh context of `tableLog = 4`. -/
theorem C17_stream_mirror_witness :
    writesUnsplit (EC_initializeEncoderContext [] [] 4)
      (([(3, 5), (5, 19), (8, 200), (0, 7), (2, 3)] : List (Nat × Int)).map
        (fun x => ((x.1 : Int), x.2))) = true ∧
    writeThenRead 4 (([(3, 5), (5, 19), (8, 200), (0, 7), (2, 3)] : List (Nat × Int)).map
        (fun x => ((x.1 : Int), x.2))) =
      Except.ok (([(3, 5), (5, 19), (8, 200), (0, 7), (2, 3)] : List (Nat × Int)).reverse.map
        (fun x => x.2 % 2 ^ x.1)) :=
  ⟨by decide!, C17_stream_mirror 4 [(3, 5), (5, 19), (8, 200), (0, 7), (2, 3)] (by decide)
    (by decide!)⟩

/-- C17, counterexample: on a fresh context of `tableLog = 9`, after a write of 8 bits the
write of the 9 bits of the state 128 starts a new byte, which keeps 8 of them, and the read of
9 bits returns 384, not `128 mod 2^9 = 128`.  And on a fresh context of `tableLog = 4`, after
a write of 5 bits the write of the 5 bits of the state 16 is split inside the first byte, and
the read of 5 bits returns 0, not `16 mod 2^5 = 16`. -/
theorem C17_counterexample :
    writeThenRead 9 [(8, 0), (9, 128)] = Except.ok [384, 0] ∧
    (128 : Int) % 2 ^ 9 = 128 ∧
    writeThenRead 4 [(5, 0), (5, 16)] = Except.ok [0, 0] ∧
    (16 : Int) % 2 ^ 5 = 16 := by
  refine ⟨by decide!, by decide, by decide!, by decide⟩

/-! ### One step of the tables -/

/-- For a frequency vector with no more symbols than table cells the tables are dual in one
step: the decoder record of the next state names the symbol, asks for the bits the encoder
wrote and restores the state. -/
theorem table_duality_step (L : Nat) (f : List Nat) (s X : Nat) (c : EC_encoderContext)
    (hL : L = 2 ∨ (4 ≤ L ∧ L ≤ 7)) (hn : f.length ≤ 127) (hnT : f.length ≤ 2 ^ L)
    (hsum : f.sum = 2 ^ L) (hs : s < f.length) (hfs : 1 ≤ f.getD s 0) (hX1 : 2 ^ L ≤ X)
    (hX2 : X < 2 * 2 ^ L) (hc : c.currentState = (X : Int)) :
    ∃ (et : List (Option EC_tableEncoderRecord)) (st : List (Option EC_stateTableRecord))
      (dt : List (Option EC_tableDecoderRecord)) (r : EC_tableEncoderRecord) (b : Nat)
      (Y : Int) (d : EC_tableDecoderRecord),
      encoderTables f L = Except.ok (EC_status.SUCCESS, et, st) ∧
      decoderTable f L = Except.ok (EC_status.SUCCESS, dt) ∧
      loadInit et (s : Int) = Except.ok r ∧ bitsFor c r = (b : Int) ∧
      (shr (X : Int) (b : Int) >>= fun x => loadInit st (x + r.offset)) =
        Except.ok { nextState := Y } ∧
      loadInit dt (Y - 2 ^ L) = Except.ok d ∧
      d.symbol = (s : Int) ∧ d.numberOfBits = (b : Int) ∧
      d.nextStateBaseline + (X : Int) % 2 ^ b = (X : Int) - 2 ^ L := by
  have hL7 : L ≤ 7 := by omega
  have hft : 1 ≤ f[s] := by rw [List.getD_eq_getElem _ _ hs] at hfs; exact hfs
  have hfT : f[s] ≤ 2 ^ L := by rw [← hsum]; exact getElem_le_sum f s hs
  obtain ⟨et, st, dt, henc, hdec, hdual⟩ := tables_dual L f (List.replicate f.length none)
    (List.replicate (2 ^ L) none) (List.replicate (2 ^ L) none) (by omega)
    (tableStep_odd_of L hL) hn hnT hsum (interval_fits_char L f hL7 hsum) (by simp) (by simp)
    (by simp)
  have hrec : et[s]? = some (some
      { bitsOut := ((L - Nat.log2 f[s] : Nat) : Int)
        threshold := (f[s] : Int) * 2 ^ (L - Nat.log2 f[s])
        offset := (intervalStart f s : Int) - (f[s] : Int) }) := by
    rw [hdual.1 s hs hft]
    unfold encoderRecord
    rw [if_neg (by omega)]
  obtain ⟨b, hbL, hbits, _, hlo, hhi, hlg⟩ := threshold_rule L f[s] X hft hfT hX1
    (by rw [pow_succ]; omega)
  obtain ⟨p, hp, hst, hdt⟩ := hdual.2 s hs hft (X / 2 ^ b) hlo hhi
  have hidx : ((X : Int) / 2 ^ b) + ((intervalStart f s : Int) - (f[s] : Int)) =
      ((intervalStart f s + (X / 2 ^ b - f[s]) : Nat) : Int) := by
    have h1 : ((X / 2 ^ b : Nat) : Int) = (X : Int) / 2 ^ b := by push_cast; rfl
    rw [← h1]
    omega
  have hY : ((p : Int) + 2 ^ L) - 2 ^ L = ((p : Nat) : Int) := by ring
  have hdivmod : ((X / 2 ^ b : Nat) : Int) * 2 ^ b + (X : Int) % 2 ^ b = (X : Int) := by
    have h1 : ((X / 2 ^ b : Nat) : Int) = (X : Int) / 2 ^ b := by push_cast; rfl
    rw [h1, mul_comm]
    exact Int.ediv_add_emod _ _
  refine ⟨et, st, dt, _, b, (p : Int) + 2 ^ L, decoderRecord L (s : Int) (X / 2 ^ b), henc,
    hdec, loadInit_nat _ s _ hrec, ?_, ?_, ?_, rfl, ?_, ?_⟩
  · unfold bitsFor
    simp only [hc]
    exact hbits
  · rw [shr_nat _ _ (by omega), bind_ok, hidx]
    exact loadInit_nat _ _ _ hst
  · rw [hY]
    exact loadInit_nat _ p _ hdt
  · show ((L - Nat.log2 (X / 2 ^ b) : Nat) : Int) = (b : Int)
    rw [hlg]
    omega
  · show ((X / 2 ^ b : Nat) : Int) * 2 ^ (L - Nat.log2 (X / 2 ^ b)) - 2 ^ L + (X : Int) % 2 ^ b =
        (X : Int) - 2 ^ L
    have hLb : L - Nat.log2 (X / 2 ^ b) = b := by rw [hlg]; omega
    rw [hLb]
    linarith

/-- C18, the code at the failing input: for `tableLog = 2` and the five frequencies
`(2, 1, 1, 0, 0)`, which sum to the table size 4, `EC_buildEncoderTable` builds its tables
(its per-symbol work array has `frequenciesLength` cells), and `EC_buildDecoderTable` has no
result: its per-symbol work array `symbolBeginIndex` has `tableSize = 4` cells and the first
loop stores to `symbolBeginIndex[4]`. -/
theorem C18_decoder_work_array :
    ([2, 1, 1, 0, 0] : List Nat).sum = 2 ^ 2 ∧
    (encoderTables [2, 1, 1, 0, 0] 2).map (fun r => r.1) = Except.ok EC_status.SUCCESS ∧
    beginIndexLoop [2, 1, 1, 0, 0] 5 257 0 (List.replicate 4 none) =
      Except.error Fault.outOfBounds ∧
    decoderTable [2, 1, 1, 0, 0] 2 = Except.error Fault.outOfBounds := by
  refine ⟨by decide, by decide!, by decide!, by decide!⟩

/-! ### The table step -/

/-- Adding a fixed step modulo the table size maps `[0, T)` one-to-one onto itself, whatever
the step. -/
theorem step_map_bijective (L : Nat) (s : Int) :
    (∀ pos : Int, 0 ≤ Int.land (pos + s) (2 ^ L - 1) ∧ Int.land (pos + s) (2 ^ L - 1) < 2 ^ L) ∧
    (∀ p q : Int, 0 ≤ p → p < 2 ^ L → 0 ≤ q → q < 2 ^ L →
      Int.land (p + s) (2 ^ L - 1) = Int.land (q + s) (2 ^ L - 1) → p = q) ∧
    (∀ q : Int, 0 ≤ q → q < 2 ^ L →
      ∃ p : Int, 0 ≤ p ∧ p < 2 ^ L ∧ Int.land (p + s) (2 ^ L - 1) = q) := by
  have hpos : (0 : Int) < 2 ^ L := by positivity
  refine ⟨?_, ?_, ?_⟩
  · intro pos
    rw [land_mask]
    exact ⟨Int.emod_nonneg _ (by omega), Int.emod_lt_of_pos _ hpos⟩
  · intro p q hp0 hp1 hq0 hq1 h
    rw [land_mask, land_mask] at h
    have h1 : (p + s - (q + s)) % 2 ^ L = 0 := Int.emod_eq_emod_iff_emod_sub_eq_zero.1 h
    have h2 : p + s - (q + s) = p - q := by ring
    rw [h2] at h1
    by_cases hpq : q ≤ p
    · rw [Int.emod_eq_of_lt (by omega) (by omega)] at h1
      omega
    · have h3 : (q - p) % 2 ^ L = 0 := by
        have h4 : q - p = -(p - q) := by ring
        rw [h4]
        exact Int.emod_eq_zero_of_dvd ((Int.dvd_neg).2 (Int.dvd_of_emod_eq_zero h1))
      rw [Int.emod_eq_of_lt (by omega) (by omega)] at h3
      omega
  · intro q hq0 hq1
    refine ⟨(q - s) % 2 ^ L, Int.emod_nonneg _ (by omega), Int.emod_lt_of_pos _ hpos, ?_⟩
    rw [land_mask, Int.emod_add_emod]
    have h : q - s + s = q := by ring
    rw [h]
    exact Int.emod_eq_of_lt hq0 hq1

/-- C21 (as amended): for `tableLog = 2` and for every `tableLog ≥ 4` (in particular for
`4 ≤ tableLog ≤ 12`), with `T = 2^tableLog`, the value `EC_TABLE_STEP(T)` is odd; the map
`pos ↦ (pos + step) & (T − 1)` is a permutation of `[0, T)`; and the positions that the map
reaches from 0 in `T` steps, `slot 0, …, slot (T − 1)`, are pairwise different and are all
of `[0, T)`. -/
theorem C21_table_step_odd (L : Nat) (hL : L = 2 ∨ 4 ≤ L) :
    EC_TABLE_STEP ((2 : Int) ^ L) % 2 = 1 ∧
    (∀ pos : Int, 0 ≤ Int.land (pos + EC_TABLE_STEP (2 ^ L)) (2 ^ L - 1) ∧
      Int.land (pos + EC_TABLE_STEP (2 ^ L)) (2 ^ L - 1) < 2 ^ L) ∧
    (∀ p q : Int, 0 ≤ p → p < 2 ^ L → 0 ≤ q → q < 2 ^ L →
      Int.land (p + EC_TABLE_STEP (2 ^ L)) (2 ^ L - 1) =
        Int.land (q + EC_TABLE_STEP (2 ^ L)) (2 ^ L - 1) → p = q) ∧
    (∀ q : Int, 0 ≤ q → q < 2 ^ L →
      ∃ p : Int, 0 ≤ p ∧ p < 2 ^ L ∧ Int.land (p + EC_TABLE_STEP (2 ^ L)) (2 ^ L - 1) = q) ∧
    slot L 0 = 0 ∧
    (∀ k : Nat, Int.land ((slot L k : Int) + EC_TABLE_STEP (2 ^ L)) (2 ^ L - 1) =
      (slot L (k + 1) : Int)) ∧
    (∀ j j' : Nat, j < 2 ^ L → j' < 2 ^ L → slot L j = slot L j' → j = j') ∧
    (∀ p : Nat, p < 2 ^ L → ∃ j, j < 2 ^ L ∧ slot L j = p) := by
  have hodd := tableStep_odd L hL
  obtain ⟨h1, h2, h3⟩ := step_map_bijective L (EC_TABLE_STEP (2 ^ L))
  refine ⟨?_, h1, h2, h3, slot_zero L, ?_, ?_, ?_⟩
  · rw [EC_TABLE_STEP_eq]
    omega
  · intro k
    rw [EC_TABLE_STEP_eq]
    exact slot_succ L k
  · intro j j' hj hj' h
    exact slot_inj L hodd hj hj' h
  · intro p hp
    exact slot_surj L hodd p hp

/-- C21, witness: `tableLog = 4`, where the step is 13. -/
theorem C21_table_step_odd_witness :
    EC_TABLE_STEP ((2 : Int) ^ 4) % 2 = 1 ∧
    (∀ pos : Int, 0 ≤ Int.land (pos + EC_TABLE_STEP (2 ^ 4)) (2 ^ 4 - 1) ∧
      Int.land (pos + EC_TABLE_STEP (2 ^ 4)) (2 ^ 4 - 1) < 2 ^ 4) ∧
    (∀ p q : Int, 0 ≤ p → p < 2 ^ 4 → 0 ≤ q → q < 2 ^ 4 →
      Int.land (p + EC_TABLE_STEP (2 ^ 4)) (2 ^ 4 - 1) =
        Int.land (q + EC_TABLE_STEP (2 ^ 4)) (2 ^ 4 - 1) → p = q) ∧
    (∀ q : Int, 0 ≤ q → q < 2 ^ 4 →
      ∃ p : Int, 0 ≤ p ∧ p < 2 ^ 4 ∧ Int.land (p + EC_TABLE_STEP (2 ^ 4)) (2 ^ 4 - 1) = q) ∧
    slot 4 0 = 0 ∧
    (∀ k : Nat, Int.land ((slot 4 k : Int) + EC_TABLE_STEP (2 ^ 4)) (2 ^ 4 - 1) =
      (slot 4 (k + 1) : Int)) ∧
    (∀ j j' : Nat, j < 2 ^ 4 → j' < 2 ^ 4 → slot 4 j = slot 4 j' → j = j') ∧
    (∀ p : Nat, p < 2 ^ 4 → ∃ j, j < 2 ^ 4 ∧ slot 4 j = p) :=
  C21_table_step_odd 4 (Or.inr (by decide))

/-- C21, counterexample: for `tableLog = 1` the step is `1 + 0 + 3 = 4` and for
`tableLog = 3` it is `4 + 1 + 3 = 8`: both are even, and in both cases the position after
slot 0 is slot 0 again, so that the spreader never leaves slot 0. -/
theorem C21_counterexample :
    EC_TABLE_STEP ((2 : Int) ^ 1) = 4 ∧ EC_TABLE_STEP ((2 : Int) ^ 1) % 2 = 0 ∧
    Int.land (0 + EC_TABLE_STEP ((2 : Int) ^ 1)) (2 ^ 1 - 1) = 0 ∧
    EC_TABLE_STEP ((2 : Int) ^ 3) = 8 ∧ EC_TABLE_STEP ((2 : Int) ^ 3) % 2 = 0 ∧
    Int.land (0 + EC_TABLE_STEP ((2 : Int) ^ 3)) (2 ^ 3 - 1) = 0 ∧
    (spreadSymbolsLog (List.replicate 8 none) [4, 4] 2 3).map (fun r => r.2) =
      Except.ok [0, 0, 0, 0, 0, 0, 0, 0] := by
  have e1 : EC_TABLE_STEP ((2 : Int) ^ 1) = 4 := by rw [EC_TABLE_STEP_eq]; rfl
  have e3 : EC_TABLE_STEP ((2 : Int) ^ 3) = 8 := by rw [EC_TABLE_STEP_eq]; rfl
  refine ⟨e1, ?_, ?_, e3, ?_, ?_, by decide!⟩
  · rw [e1]; decide
  · rw [e1]; decide!
  · rw [e3]; decide
  · rw [e3]; decide!

/-! ### The encoder state on runs without a split write -/

/-- One iteration of the encoding loop whose write is not split inside a byte, whatever its
width: the write returns, the index into `statesTable` is inside the table and the new state
is in `[T, 2T)`. -/
theorem encodeSymbol_state (L : Nat) (f : List Nat) (et : List (Option EC_tableEncoderRecord))
    (st : List (Option EC_stateTableRecord)) (dt : List (Option EC_tableDecoderRecord))
    (c : EC_encoderContext) (k t : Nat) (hL : L ≤ 12) (hdual : TablesDual L f et st dt)
    (het : c.encoderTable = et) (hst : c.statesTable = st) (hbuf : c.buffer = (k : Int))
    (hk : k < c.pStreamStart.length) (hbs : c.bufferSize = (c.pStreamStart.length : Int))
    (ha8 : c.availableBits ≤ 8) (hX1 : (2 : Int) ^ L ≤ c.currentState)
    (hX2 : c.currentState < 2 ^ (L + 1)) (ht : t < f.length) (hft : 1 ≤ f[t])
    (hsum : f.sum = 2 ^ L)
    (hfit : ∀ record, loadInit c.encoderTable (t : Int) = Except.ok record →
      bitsFor c record ≤ c.availableBits ∨
        (c.availableBits = 0 ∧ c.buffer + 1 < c.bufferSize)) :
    ∃ (record : EC_tableEncoderRecord) (c1 c2 : EC_encoderContext) (k2 : Nat),
      loadInit c.encoderTable (t : Int) = Except.ok record ∧
      writeToStream c (bitsFor c record) = Except.ok c1 ∧
      0 ≤ c1.currentState + record.offset ∧ c1.currentState + record.offset < 2 ^ L ∧
      encodeSymbol c (t : Int) = Except.ok c2 ∧
      c2.encoderTable = et ∧ c2.statesTable = st ∧ c2.buffer = (k2 : Int) ∧
      k2 < c2.pStreamStart.length ∧ c2.bufferSize = (c2.pStreamStart.length : Int) ∧
      c2.availableBits ≤ 8 ∧ (2 : Int) ^ L ≤ c2.currentState ∧
      c2.currentState < 2 ^ (L + 1) := by
  have hfT : f[t] ≤ 2 ^ L := by rw [← hsum]; exact getElem_le_sum f t ht
  obtain ⟨X, hXeq⟩ := Int.eq_ofNat_of_zero_le (le_trans (by positivity) hX1)
  have hXn1 : 2 ^ L ≤ X := by
    have : ((2 ^ L : Nat) : Int) ≤ (X : Int) := by rw [← hXeq]; push_cast; exact hX1
    exact_mod_cast this
  have hXn2 : X < 2 ^ (L + 1) := by
    have : (X : Int) < ((2 ^ (L + 1) : Nat) : Int) := by rw [← hXeq]; push_cast; exact hX2
    exact_mod_cast this
  have hrec : c.encoderTable[t]? = some (some
      { bitsOut := ((L - Nat.log2 f[t] : Nat) : Int)
        threshold := (f[t] : Int) * 2 ^ (L - Nat.log2 f[t])
        offset := (intervalStart f t : Int) - (f[t] : Int) }) := by
    rw [het, hdual.1 t ht hft]
    unfold encoderRecord
    rw [if_neg (by omega)]
  have hload := loadInit_nat _ t _ hrec
  obtain ⟨b, hbL, hbits, _, hlo, hhi, _⟩ := threshold_rule L f[t] X hft hfT hXn1 hXn2
  have hbf : bitsFor c
      { bitsOut := ((L - Nat.log2 f[t] : Nat) : Int)
        threshold := (f[t] : Int) * 2 ^ (L - Nat.log2 f[t])
        offset := (intervalStart f t : Int) - (f[t] : Int) } = (b : Int) := by
    unfold bitsFor
    simp only [hXeq, hbits]
  have hfit' := hfit _ hload
  rw [hbf] at hfit'
  have ha0 : 0 ≤ c.availableBits := by
    rcases hfit' with h | h
    · omega
    · omega
  obtain ⟨c1, hrun, hlen1⟩ := writeToStream_ok c k (b : Int) hbuf ha0 ha8 (by omega) (by omega)
    hk (by
      rcases hfit' with h | h
      · exact Or.inl h
      · right
        have h2 := h.2
        rw [hbuf, hbs] at h2
        exact_mod_cast h2)
  obtain ⟨hbs1, het1, hst1, _, hcase⟩ := writeToStream_fields c c1 (b : Int) hrun
  have hshr : ∀ v, shr c.currentState (b : Int) = Except.ok v → v = ((X / 2 ^ b : Nat) : Int) := by
    intro v hv
    rw [shr_nat _ b (by omega), hXeq] at hv
    have := Except.ok.inj hv
    rw [← this]
    push_cast
    rfl
  have hfacts : c1.currentState = ((X / 2 ^ b : Nat) : Int) ∧ c1.availableBits ≤ 8 ∧
      ∃ k2 : Nat, c1.buffer = (k2 : Int) ∧ k2 < c1.pStreamStart.length := by
    rcases hcase with ⟨hgt, hav, hb1, _, hs⟩ | ⟨_, hav, hb1, _, hs⟩
    · have hz : c.availableBits = 0 ∧ c.buffer + 1 < c.bufferSize := by
        rcases hfit' with h | h
        · omega
        · exact h
      rw [hz.1, sub_zero] at hs
      refine ⟨hshr _ hs, by omega, k + 1, by rw [hb1, hbuf]; push_cast; rfl, ?_⟩
      have h2 := hz.2
      rw [hbuf, hbs] at h2
      rw [hlen1]
      exact_mod_cast h2
    · exact ⟨hshr _ hs, by omega, k, by rw [hb1, hbuf], by rw [hlen1]; exact hk⟩
  obtain ⟨hstate', hav1, k2, hbuf2, hk2⟩ := hfacts
  obtain ⟨p, hp, hstp, _⟩ := hdual.2 t ht hft (X / 2 ^ b) hlo hhi
  have hidx : c1.currentState + ((intervalStart f t : Int) - (f[t] : Int)) =
      ((intervalStart f t + (X / 2 ^ b - f[t]) : Nat) : Int) := by
    rw [hstate']; omega
  have hload2 : loadInit c1.statesTable
      (c1.currentState + ((intervalStart f t : Int) - (f[t] : Int))) =
      Except.ok { nextState := (p : Int) + 2 ^ L } := by
    rw [hidx, hst1, hst]
    exact loadInit_nat _ _ _ hstp
  have hrun2 : encodeSymbol c (t : Int) =
      Except.ok { c1 with currentState := (p : Int) + 2 ^ L } := by
    simp only [encodeSymbol, hload, bind_ok, hXeq, hbits, hrun, hload2, pure_eq_ok]
  have hidxlt : intervalStart f t + (X / 2 ^ b - f[t]) < 2 ^ L := by
    have := intervalStart_add_le f t ht
    omega
  refine ⟨_, c1, _, k2, hload, by rw [hbf]; exact hrun, ?_, ?_, hrun2, ?_, ?_, hbuf2, hk2, ?_,
    hav1, ?_, ?_⟩
  · show 0 ≤ c1.currentState + ((intervalStart f t : Int) - (f[t] : Int))
    rw [hidx]; omega
  · show c1.currentState + ((intervalStart f t : Int) - (f[t] : Int)) < 2 ^ L
    rw [hidx]
    exact_mod_cast hidxlt
  · show c1.encoderTable = et
    rw [het1, het]
  · show c1.statesTable = st
    rw [hst1, hst]
  · show c1.bufferSize = _
    rw [hbs1, hbs, hlen1]
  · show (2 : Int) ^ L ≤ (p : Int) + 2 ^ L
    omega
  · show (p : Int) + 2 ^ L < 2 ^ (L + 1)
    have : (p : Int) < 2 ^ L := by exact_mod_cast hp
    rw [pow_succ]; omega

/-- The encoding loop on a prefix of a run without a split write. -/
theorem encodeLoop_state (L : Nat) (f : List Nat) (et : List (Option EC_tableEncoderRecord))
    (st : List (Option EC_stateTableRecord)) (dt : List (Option EC_tableDecoderRecord))
    (hL : L ≤ 12) (hsum : f.sum = 2 ^ L) (hdual : TablesDual L f et st dt) :
    ∀ (pre rest : List Int) (c : EC_encoderContext) (k : Nat),
      c.encoderTable = et → c.statesTable = st → c.buffer = (k : Int) →
      k < c.pStreamStart.length → c.bufferSize = (c.pStreamStart.length : Int) →
      c.availableBits ≤ 8 → (2 : Int) ^ L ≤ c.currentState → c.currentState < 2 ^ (L + 1) →
      (∀ s ∈ pre, ∃ t, ∃ (ht : t < f.length), s = (t : Int) ∧ 1 ≤ f[t]) →
      writesFit c (pre ++ rest) = true →
      ∃ (c1 : EC_encoderContext) (k1 : Nat), encodeLoop c pre = Except.ok c1 ∧
        c1.encoderTable = et ∧ c1.statesTable = st ∧ c1.buffer = (k1 : Int) ∧
        k1 < c1.pStreamStart.length ∧ c1.bufferSize = (c1.pStreamStart.length : Int) ∧
        c1.availableBits ≤ 8 ∧ (2 : Int) ^ L ≤ c1.currentState ∧
        c1.currentState < 2 ^ (L + 1) ∧ writesFit c1 rest = true := by
  intro pre
  induction pre with
  | nil =>
    intro rest c k h1 h2 h3 h4 h5 h6 h7 h8 _ hfit
    exact ⟨c, k, by simp [encodeLoop], h1, h2, h3, h4, h5, h6, h7, h8, by simpa using hfit⟩
  | cons s xs ih =>
    intro rest c k h1 h2 h3 h4 h5 h6 h7 h8 hsym hfit
    obtain ⟨t, ht, hst, hft⟩ := hsym s (List.mem_cons_self _ _)
    subst hst
    rw [List.cons_append] at hfit
    obtain ⟨_, _, c2, k2, _, _, _, _, hrun, g1, g2, g3, g4, g5, g6, g7, g8⟩ :=
      encodeSymbol_state L f et st dt c k t hL hdual h1 h2 h3 h4 h5 h6 h7 h8 ht hft hsum
        (writesFit_head c _ _ hfit)
    obtain ⟨c3, k3, hrun3, r⟩ := ih rest c2 k2 g1 g2 g3 g4 g5 g6 g7 g8
      (fun s hs => hsym s (List.mem_cons_of_mem _ hs)) (writesFit_tail c c2 _ _ hrun hfit)
    exact ⟨c3, k3, by simp only [encodeLoop, hrun, bind_ok, hrun3], r⟩

/-- C3 (as amended): for `tableLog` in `[2, 12]` with an odd table step, at most 127 symbols,
all frequencies at least 1 and summing to `T = 2^tableLog`, every interval start at most 127,
and an input over the alphabet whose encoding run has no call of `writeToStream` split inside
a byte: the fresh context starts in state `T`, and for each symbol of the input the index
`currentState + offset` used to read `statesTable` lies in `[0, T)` and `currentState` lies in
`[T, 2T)` after the symbol. -/
theorem C3_encoder_state_invariant (L : Nat) (f : List Nat) (x : List Int)
    (hL2 : 2 ≤ L) (hL12 : L ≤ 12) (hodd : tableStep L % 2 = 1) (hn : f.length ≤ 127)
    (hpos : ∀ v ∈ f, 1 ≤ v) (hsum : f.sum = 2 ^ L)
    (hcur : ∀ t, t < f.length → intervalStart f t ≤ 127)
    (hx : ∀ s ∈ x, 0 ≤ s ∧ s < (f.length : Int))
    (hfit : writesFitFor f L x = true) :
    ∃ c0 : EC_encoderContext, freshEncoder f L = Except.ok c0 ∧ c0.currentState = 2 ^ L ∧
      ∀ (pre : List Int) (s : Int) (post : List Int), x = pre ++ s :: post →
        ∃ (c : EC_encoderContext) (record : EC_tableEncoderRecord)
          (c1 c2 : EC_encoderContext),
          encodeLoop c0 pre = Except.ok c ∧
          loadInit c.encoderTable s = Except.ok record ∧
          writeToStream c (bitsFor c record) = Except.ok c1 ∧
          0 ≤ c1.currentState + record.offset ∧ c1.currentState + record.offset < 2 ^ L ∧
          encodeSymbol c s = Except.ok c2 ∧
          2 ^ L ≤ c2.currentState ∧ c2.currentState < 2 * 2 ^ L := by
  have hnT : f.length ≤ 2 ^ L := by rw [← hsum]; exact length_le_sum f hpos
  have hsym : ∀ s ∈ x, ∃ t, ∃ (ht : t < f.length), s = (t : Int) ∧ 1 ≤ f[t] := by
    intro s hs
    obtain ⟨h0, h1⟩ := hx s hs
    have hlt : s.toNat < f.length := by omega
    exact ⟨s.toNat, hlt, by omega, getElem_pos_of_forall f hpos _ hlt⟩
  obtain ⟨et, st, dt, henc, _, hdual⟩ := tables_dual L f (List.replicate f.length none)
    (List.replicate (2 ^ L) none) (List.replicate (2 ^ L) none) (by omega) hodd hn hnT hsum
    (fun t ht _ => hcur t ht) (by simp) (by simp) (by simp)
  have hfresh : freshEncoder f L = Except.ok (EC_initializeEncoderContext et st L) := by
    simp only [freshEncoder, encoderTables, henc, bind_ok, pure_eq_ok]
  have hfit' : writesFit (EC_initializeEncoderContext et st L) x = true := by
    unfold writesFitFor at hfit
    rw [hfresh] at hfit
    exact hfit
  have hTpos := Nat.two_pow_pos L
  have hlen0 : (EC_initializeEncoderContext et st L).pStreamStart.length = 2 ^ L := by
    show (List.replicate (2 ^ L) (0 : Int)).length = 2 ^ L
    simp
  refine ⟨_, hfresh, rfl, ?_⟩
  intro pre s post hsplit
  subst hsplit
  obtain ⟨c, k, hrun, g1, g2, g3, g4, g5, g6, g7, g8, hfit2⟩ :=
    encodeLoop_state L f et st dt hL12 hsum hdual pre (s :: post)
      (EC_initializeEncoderContext et st L) 0 rfl rfl rfl (by rw [hlen0]; exact hTpos)
      (by
        rw [hlen0]
        show ((2 : Int) ^ L) = ((2 ^ L : Nat) : Int)
        push_cast
        rfl)
      (by show (8 : Int) ≤ 8; exact le_refl _)
      (by show ((2 : Int) ^ L) ≤ 2 ^ L; exact le_refl _)
      (by
        show ((2 : Int) ^ L) < 2 ^ (L + 1)
        have : (0 : Int) < 2 ^ L := by positivity
        rw [pow_succ]; omega)
      (fun u hu => hsym u (List.mem_append_left _ hu)) hfit'
  obtain ⟨t, ht, hst, hft⟩ := hsym s (List.mem_append_right _ (List.mem_cons_self _ _))
  subst hst
  obtain ⟨record, c1, c2, _, hload, hwrite, hi0, hi1, hrun2, _, _, _, _, _, _, hs1, hs2⟩ :=
    encodeSymbol_state L f et st dt c k t hL12 hdual g1 g2 g3 g4 g5 g6 g7 g8 ht hft hsum
      (writesFit_head c _ _ hfit2)
  refine ⟨c, record, c1, c2, hrun, hload, hwrite, hi0, hi1, hrun2, hs1, ?_⟩
  rw [pow_succ] at hs2
  omega

/-- C3, witness: the input of scenario S2. -/
theorem C3_encoder_state_invariant_witness :
    tableStep 4 % 2 = 1 ∧ ([7, 6, 3] : List Nat).sum = 2 ^ 4 ∧
    writesFitFor [7, 6, 3] 4 [0, 1, 0, 2, 1, 0, 2, 1, 0, 1, 1, 0, 2, 0, 0, 1] = true ∧
    ∃ c0 : EC_encoderContext, freshEncoder [7, 6, 3] 4 = Except.ok c0 ∧
      c0.currentState = 2 ^ 4 ∧
      ∀ (pre : List Int) (s : Int) (post : List Int),
        [0, 1, 0, 2, 1, 0, 2, 1, 0, 1, 1, 0, 2, 0, 0, 1] = pre ++ s :: post →
        ∃ (c : EC_encoderContext) (record : EC_tableEncoderRecord)
          (c1 c2 : EC_encoderContext),
          encodeLoop c0 pre = Except.ok c ∧
          loadInit c.encoderTable s = Except.ok record ∧
          writeToStream c (bitsFor c record) = Except.ok c1 ∧
          0 ≤ c1.currentState + record.offset ∧ c1.currentState + record.offset < 2 ^ 4 ∧
          encodeSymbol c s = Except.ok c2 ∧
          2 ^ 4 ≤ c2.currentState ∧ c2.currentState < 2 * 2 ^ 4 :=
  ⟨by decide, by decide, by decide!,
    C3_encoder_state_invariant 4 [7, 6, 3] [0, 1, 0, 2, 1, 0, 2, 1, 0, 1, 1, 0, 2, 0, 0, 1]
      (by decide) (by decide) (by decide) (by decide) (by decide) (by decide)
      (by
        intro t ht
        have ht3 : t < 3 := ht
        interval_cases t <;> decide)
      (by decide) (by decide!)⟩

/-- C3, counterexample: for `tableLog = 2` and `f = (2, 1, 1)` (all frequencies at least 1),
after the symbols `[0, 1, 1, 1]` the state is 6 with one free bit in the current byte; for
the next symbol 1 the call `writeToStream (…, 2)` is split, shifts the state by one bit only
and leaves 3, and the index `currentState + offset = 3 + 1 = 4` is outside `[0, 4)`: the read
of `statesTable` is out of bounds.  For `tableLog = 8` (table step 163, odd) and
`f = (128, 128)` no encoder table is built, the `char` cursor of the builder having wrapped
at the interval start 128, so that no symbol is processed at all; the same for `tableLog = 7`
and 128 symbols of frequency 1, where the `char` symbol counter wraps.  And for `tableLog = 2`
and `f = (1, 1, 1, 1)` the seventeenth symbol of an input finds the 4 bytes of the stream
full, so that the loop stops before it has processed every symbol. -/
theorem C3_counterexample :
    tableStep 8 % 2 = 1 ∧ ([128, 128] : List Nat).sum = 2 ^ 8 ∧
    encodeWith [128, 128] 8 [0] = Except.error Fault.outOfBounds ∧
    tableStep 2 % 2 = 1 ∧ ([2, 1, 1] : List Nat).sum = 2 ^ 2 ∧
    (freshEncoder [2, 1, 1] 2 >>= fun c0 => encodeLoop c0 [0, 1, 1, 1] >>= fun c =>
      loadInit c.encoderTable 1 >>= fun record =>
      writeToStream c (bitsFor c record) >>= fun c1 =>
      pure (c.currentState, c.availableBits, bitsFor c record, c1.currentState,
        c1.currentState + record.offset)) = Except.ok (6, 1, 2, 3, 4) ∧
    encodeWith [2, 1, 1] 2 [0, 1, 1, 1, 1] = Except.error Fault.outOfBounds ∧
    tableStep 7 % 2 = 1 ∧ (List.replicate 128 1 : List Nat).sum = 2 ^ 7 ∧
    encodeWith (List.replicate 128 1) 7 [0] = Except.error Fault.outOfBounds ∧
    ([1, 1, 1, 1] : List Nat).sum = 2 ^ 2 ∧
    encodeWith [1, 1, 1, 1] 2 [0, 1, 2, 3, 0, 1, 2, 3, 0, 1, 2, 3, 0, 1, 2, 3, 0] =
      Except.error Fault.streamOverrun := by
  refine ⟨by decide, by decide, by decide!, by decide, by decide, by decide!, by decide!,
    by decide, by decide!, by decide!, by decide, by decide!⟩

end EC
